import Mathlib

/-!
# The block scanner of `hfile` (`src/hfile/scanner.go`)

A shallow embedding of the Go type `Scanner` and its methods, followed by the
properties of the block locator, the order guard and the in-block record scan.

Conventions of the embedding.

* A Go `[]byte` is a `List Byte`, `Byte = Fin 256`.  A `[]byte` that may be `nil`
  is an `Option (List Byte)`.  The accumulator `acc [][]byte` is `nil` exactly
  when it is empty (it starts as `nil` and only ever grows by `append`), so a
  plain list stands for it, `[]` being `nil`.
* A Go `error` is an `Option Error`, `none` being `nil`.
* A run-time panic (index out of range) and the exhaustion of the fuel of a
  loop are results `Except.error _` of type `Fault`.
* `s.idx` is a Go `int` that only ever holds `0` or a value returned by
  `findBlock`; it is a `Nat` here.  `remaining` is computed in `Int`.
* The `debug` logging of the source has no effect on state or results and is
  left out.
-/

namespace Hfile

/-- One byte. -/
abbrev Byte := Fin 256

/-- Abnormal termination of a model function. -/
inductive Fault where
  | indexOutOfRange
  | nilDereference
  | fuelExhausted
  deriving DecidableEq, Repr

/-- Go errors seen by the scanner: the one built by `CheckIfKeyOutOfOrder`
with `fmt.Errorf`, and whatever the Store returns from `GetBlock`. -/
inductive Error where
  | outOfOrder (lastKey key : List Byte)
  | store (code : Nat)
  deriving DecidableEq, Repr

/-- Go `bytes.Compare`: lexicographic comparison, result `-1`, `0` or `1`. -/
def bytesCompare : List Byte → List Byte → Int
  | [], [] => 0
  | [], _ :: _ => -1
  | _ :: _, [] => 1
  | a :: as, b :: bs =>
    if a < b then -1 else if b < a then 1 else bytesCompare as bs

/-- Go `bytes.Reader`: the byte slice `s` and the read position `i`. -/
structure BytesReader where
  s : List Byte
  i : Nat
  deriving DecidableEq, Repr

/-- Go `(*bytes.Reader).Len`: number of unread bytes. -/
def BytesReader.Len (r : BytesReader) : Nat :=
  if r.i ≥ r.s.length then 0 else r.s.length - r.i

/-- Go `(*bytes.Reader).Read(b)` with `len(b) = n`: the bytes copied into `b`
(at most `n`, none at end of input) and the advanced reader. -/
def BytesReader.Read (r : BytesReader) (n : Nat) : List Byte × BytesReader :=
  if r.i ≥ r.s.length then ([], r)
  else
    let got := (r.s.drop r.i).take n
    (got, { r with i := r.i + got.length })

/-- Go `(*bytes.Reader).Seek(offset, 1)`: a seek relative to the current
position; a negative target is refused and the position stays. -/
def BytesReader.Seek (r : BytesReader) (offset : Int) : BytesReader :=
  let abs : Int := (r.i : Int) + offset
  if abs < 0 then r else { r with i := abs.toNat }

/-- Go `binary.BigEndian.Uint32`. -/
def beUint32 : List Byte → Nat
  | [b0, b1, b2, b3] => b0.val * 2 ^ 24 + b1.val * 2 ^ 16 + b2.val * 2 ^ 8 + b3.val
  | _ => 0

/-- Go `binary.Read(buf, binary.BigEndian, &x)` for `x uint32`, error ignored:
`io.ReadFull` consumes up to four bytes; `x` is assigned only when all four
were read and keeps its zero value otherwise. -/
def readUint32 (r : BytesReader) : Nat × BytesReader :=
  let (bs, r1) := r.Read 4
  if bs.length = 4 then (beUint32 bs, r1) else (0, r1)

/-- Go `buf.Read(b)` into `b := make([]byte, n)`: the slice `b` afterwards
(the copied bytes, then zeros) and the advanced reader. -/
def readBytes (r : BytesReader) (n : Nat) : List Byte × BytesReader :=
  let (got, r1) := r.Read n
  (got ++ List.replicate (n - got.length) (0 : Byte), r1)

/-- Modelled from the spec: the index entry type `Block` is not in `src/`;
only its field `firstKeyBytes` is used by the scanner. -/
structure Block where
  firstKeyBytes : List Byte
  deriving DecidableEq, Repr

/-- Modelled from the spec: `Block.IsAfter` is not in `src/`; the spec gives
`IsAfter(k) ≡ firstKey > k` (byte-lexicographic). -/
def Block.IsAfter (b : Block) (key : List Byte) : Bool :=
  decide (bytesCompare b.firstKeyBytes key > 0)

/-- Modelled from the spec: the type `Reader` (the Store) is not in `src/`.
It provides the block index and `GetBlock`.  `blocks n` is what `GetBlock(n)`
returns; `fetched` records the argument of every `GetBlock` call made so far,
oldest first. -/
structure Reader where
  index : List Block
  blocks : Nat → Except Error BytesReader
  fetched : List Nat

/-- Modelled from the spec: `Reader.GetBlock` is not in `src/`; it returns the
content of one block or an error.  The call is recorded in `fetched`. -/
def Reader.GetBlock (r : Reader) (n : Nat) : Except Error BytesReader × Reader :=
  (r.blocks n, { r with fetched := r.fetched ++ [n] })

/-- The indexing `s.reader.index[n]`, which panics out of range. -/
def Reader.indexAt (r : Reader) (n : Nat) : Except Fault Block :=
  match r.index[n]? with
  | some b => .ok b
  | none => .error .indexOutOfRange

/-- Go `type Scanner struct`.  `lastKey` holds the bytes `*s.lastKey` reads;
the pointer itself, which shares the caller's backing array, is kept in
`ScannerRef`, of which this structure is the view through the caller's memory
at the time of a call. -/
structure Scanner where
  reader : Reader
  idx : Nat
  buf : Option BytesReader
  lastKey : Option (List Byte)

/-- Go `NewScanner`. -/
def NewScanner (r : Reader) : Scanner :=
  { reader := r, idx := 0, buf := none, lastKey := none }

/-- Go `(*Scanner).Reset`. -/
def Scanner.Reset (s : Scanner) : Scanner :=
  { s with idx := 0, buf := none, lastKey := none }

/-- The loop of Go `sort.Search`, on the interval `[i, j)`.  Every iteration
shrinks the interval, so `fuel ≥ j - i` is never exhausted.  `(i + j) / 2` is
Go's `int(uint(i+j) >> 1)`. -/
def searchLoop (f : Nat → Except Fault Bool) : Nat → Nat → Nat → Except Fault Nat
  | 0, i, j => if i < j then .error .fuelExhausted else .ok i
  | fuel + 1, i, j =>
    if i < j then
      let h := (i + j) / 2
      match f h with
      | .error e => .error e
      | .ok b => if !b then searchLoop f fuel (h + 1) j else searchLoop f fuel i h
    else .ok i

/-- Go `sort.Search(n, f)`. -/
def Search (n : Nat) (f : Nat → Except Fault Bool) : Except Fault Nat :=
  searchLoop f n 0 n

/-- Go `(*Scanner).findBlock`. -/
def Scanner.findBlock (s : Scanner) (key : List Byte) : Except Fault Nat :=
  let remaining : Int := (s.reader.index.length : Int) - (s.idx : Int) - 1
  if remaining ≤ 0 then .ok s.idx
  else
    match s.reader.indexAt (s.idx + 1) with
    | .error e => .error e
    | .ok next =>
      if next.IsAfter key then .ok s.idx
      else
        match Search remaining.toNat (fun i =>
            match s.reader.indexAt (s.idx + i + 1) with
            | .error e => .error e
            | .ok b => .ok (b.IsAfter key)) with
        | .error e => .error e
        | .ok offset => .ok (s.idx + offset)

/-- Go `(*Scanner).CheckIfKeyOutOfOrder` on the bytes read at the time of the
call: after `s.lastKey = &key`, `*s.lastKey` reads the bytes of `key`.  That
these bytes stay the caller's, who can overwrite them before the next call, is
what `ScannerRef.CheckIfKeyOutOfOrder` adds. -/
def Scanner.CheckIfKeyOutOfOrder (s : Scanner) (key : List Byte) : Option Error × Scanner :=
  match s.lastKey with
  | some last =>
    if bytesCompare last key > 0 then (some (.outOfOrder last key), s)
    else (none, { s with lastKey := some key })
  | none => (none, { s with lastKey := some key })

/-- Go `(*Scanner).blockFor`.  The returned buffer is the pointer `s.buf`. -/
def Scanner.blockFor (s : Scanner) (key : List Byte) :
    Except Fault ((Option BytesReader × Option Error × Bool) × Scanner) :=
  match s.CheckIfKeyOutOfOrder key with
  | (some err, s) => .ok ((none, some err, false), s)
  | (none, s) =>
    match s.reader.indexAt s.idx with
    | .error e => .error e
    | .ok cur =>
      if cur.IsAfter key then .ok ((none, none, false), s)
      else
        match s.findBlock key with
        | .error e => .error e
        | .ok idx =>
          if idx ≠ s.idx ∨ s.buf = none then
            match s.reader.GetBlock idx with
            | (.error err, rd) => .ok ((none, some err, false), { s with reader := rd })
            | (.ok data, rd) =>
              .ok ((some data, none, true), { s with reader := rd, idx := idx, buf := some data })
          else .ok ((s.buf, none, true), s)

/-- The loop of Go `(*Scanner).getValuesFromBuffer`.  Every iteration that does
not return consumes at least one byte, so `fuel ≥ buf.Len` is never exhausted.
The result is `(value, acc, found)` and the reader as the loop leaves it.
`keyLen + valLen + 8` is `uint32` arithmetic. -/
def getValuesLoop (key : List Byte) (first : Bool) :
    Nat → BytesReader → List (List Byte) →
      Except Fault ((Option (List Byte) × List (List Byte) × Bool) × BytesReader)
  | 0, buf, acc =>
    if buf.Len > 0 then .error .fuelExhausted
    else .ok ((none, acc, decide (acc.length > 0)), buf)
  | fuel + 1, buf, acc =>
    if buf.Len > 0 then
      let (keyLen, buf) := readUint32 buf
      let (valLen, buf) := readUint32 buf
      let (keyBytes, buf) := readBytes buf keyLen
      let (valBytes, buf) := readBytes buf valLen
      let cmp := bytesCompare keyBytes key
      if cmp = 0 ∧ first = true then .ok ((some valBytes, [], true), buf)
      else
        let acc := if cmp = 0 then acc ++ [valBytes] else acc
        if cmp > 0 then
          let buf := buf.Seek (-(((keyLen + valLen + 8) % 2 ^ 32 : Nat) : Int))
          .ok ((none, acc, decide (acc.length > 0)), buf)
        else getValuesLoop key first fuel buf acc
    else .ok ((none, acc, decide (acc.length > 0)), buf)

/-- Go `(*Scanner).getValuesFromBuffer`. -/
def getValuesFromBuffer (buf : BytesReader) (key : List Byte) (first : Bool) :
    Except Fault ((Option (List Byte) × List (List Byte) × Bool) × BytesReader) :=
  getValuesLoop key first buf.Len buf []

/-- Go `(*Scanner).GetFirst`: `(value, err, found)` and the scanner afterwards.
The scan moves the cursor of the buffer `s.buf` points to. -/
def Scanner.GetFirst (s : Scanner) (key : List Byte) :
    Except Fault ((Option (List Byte) × Option Error × Bool) × Scanner) :=
  match s.blockFor key with
  | .error e => .error e
  | .ok ((data, err, ok), s) =>
    if !ok then .ok ((none, err, ok), s)
    else
      match data with
      | none => .error .nilDereference
      | some data =>
        match getValuesFromBuffer data key true with
        | .error e => .error e
        | .ok ((value, _, found), data) =>
          .ok ((value, none, found), { s with buf := some data })

/-- Go `(*Scanner).GetAll`: `(values, err)` and the scanner afterwards. -/
def Scanner.GetAll (s : Scanner) (key : List Byte) :
    Except Fault ((List (List Byte) × Option Error) × Scanner) :=
  match s.blockFor key with
  | .error e => .error e
  | .ok ((data, err, ok), s) =>
    if !ok then .ok (([], err), s)
    else
      match data with
      | none => .error .nilDereference
      | some data =>
        match getValuesFromBuffer data key false with
        | .error e => .error e
        | .ok ((_, found, _), data) => .ok ((found, err), { s with buf := some data })

/-- The first keys of the index are strictly increasing (byte-lexicographic). -/
abbrev StrictlyIncreasing (index : List Block) : Prop :=
  index.Pairwise (fun a b => bytesCompare a.firstKeyBytes b.firstKeyBytes < 0)

/-- The three-block index of the worked example: first keys "a", "m", "z". -/
def exampleIndex : List Block := [⟨[97]⟩, ⟨[109]⟩, ⟨[122]⟩]

/-- A Store over `exampleIndex` every block of which fails to load. -/
def failingReader : Reader :=
  { index := exampleIndex, blocks := fun n => .error (.store n), fetched := [] }

/-- The order guard lets `key` through: no last key is recorded, or the
recorded one is not greater than `key`. -/
abbrev Scanner.InOrder (s : Scanner) (key : List Byte) : Prop :=
  ∀ last, s.lastKey = some last → ¬ bytesCompare last key > 0

/-- A decoded record `{ key, value }`. -/
structure Record where
  key : List Byte
  value : List Byte
  deriving DecidableEq, Repr

/-- Four-byte big-endian encoding of a length. -/
def putUint32 (n : Nat) : List Byte :=
  [Fin.ofNat (n / 2 ^ 24), Fin.ofNat (n / 2 ^ 16), Fin.ofNat (n / 2 ^ 8), Fin.ofNat n]

/-- The bytes of one record in a block buffer:
`keyLen(uint32, big-endian) valLen(uint32, big-endian) key value`. -/
def Record.encode (r : Record) : List Byte :=
  putUint32 r.key.length ++ (putUint32 r.value.length ++ (r.key ++ r.value))

/-- Number of bytes a record occupies: `8 + len(key) + len(value)`. -/
def Record.size (r : Record) : Nat := 8 + r.key.length + r.value.length

/-- A record whose key length and value length each fit the `uint32` field. -/
abbrev Record.Encodable (r : Record) : Prop :=
  r.key.length < 2 ^ 32 ∧ r.value.length < 2 ^ 32

/-- A well-formed block content: the concatenation of complete records. -/
def encodeRecords : List Record → List Byte
  | [] => []
  | r :: rs => r.encode ++ encodeRecords rs

/-- Records sorted by key (duplicates allowed). -/
abbrev SortedRecords (rs : List Record) : Prop :=
  rs.Pairwise (fun a b => bytesCompare a.key b.key ≤ 0)

/-- The records a scan for `key` walks over before it stops: the longest
prefix of records whose keys are `≤ key`. -/
def scannedPrefix (key : List Byte) (rs : List Record) : List Record :=
  rs.takeWhile (fun r => decide (bytesCompare r.key key ≤ 0))

/-- The values of the records with the given key, in order. -/
def valuesOf (key : List Byte) (rs : List Record) : List (List Byte) :=
  (rs.filter (fun r => decide (bytesCompare r.key key = 0))).map Record.value

/-- Where the `Seek` of the scan leaves a cursor that stood at `pos` just past
the record `r`: `8 + keyLen + valLen` is reduced modulo `2 ^ 32` before the
seek. -/
def rewindPos (pos : Nat) (r : Record) : Nat := pos - r.size % 2 ^ 32

/-- Cursor position after an `all`-mode scan for `key` that starts at `pos` in
front of the records `rs`. -/
def cursorAfterAll (key : List Byte) : Nat → List Record → Nat
  | pos, [] => pos
  | pos, r :: rs =>
    if bytesCompare r.key key > 0 then rewindPos (pos + r.size) r
    else cursorAfterAll key (pos + r.size) rs

/-- Cursor position after a `first`-mode scan for `key` that starts at `pos` in
front of the records `rs`. -/
def cursorAfterFirst (key : List Byte) : Nat → List Record → Nat
  | pos, [] => pos
  | pos, r :: rs =>
    if bytesCompare r.key key = 0 then pos + r.size
    else if bytesCompare r.key key > 0 then rewindPos (pos + r.size) r
    else cursorAfterFirst key (pos + r.size) rs

/-- The records of block 1 of the worked example: ("m",1), ("m",2), ("t",3). -/
def exampleRecords : List Record := [⟨[109], [1]⟩, ⟨[109], [2]⟩, ⟨[116], [3]⟩]

/-- The Store of the worked example: index "a", "m", "z"; block 1 holds
`exampleRecords`; blocks 0 and 2 are not specified there and fail to load. -/
def exampleReader : Reader :=
  { index := exampleIndex
    blocks := fun n => if n = 1 then .ok ⟨encodeRecords exampleRecords, 0⟩ else .error (.store n)
    fetched := [] }

/-- The scanner of the worked example once block 1 is loaded (one fetch), with
the cursor at `pos` and `last` as the last queried key. -/
def exampleScannerAt (pos : Nat) (last : List Byte) : Scanner :=
  { reader := { exampleReader with fetched := [1] }
    idx := 1
    buf := some ⟨encodeRecords exampleRecords, pos⟩
    lastKey := some last }

/-- The fresh scanner over `failingReader` after a lookup of "m": the load of
block 1 failed, one fetch is logged. -/
def failedScanner : Scanner :=
  { reader := { failingReader with fetched := [1] }
    idx := 0
    buf := none
    lastKey := some [109] }

/-- A Store over `exampleIndex` whose block 1 holds three records with the
key "m" and the values 1, 2, 3. -/
def tripleReader : Reader :=
  { index := exampleIndex
    blocks := fun n =>
      if n = 1 then .ok ⟨encodeRecords [⟨[109], [1]⟩, ⟨[109], [2]⟩, ⟨[109], [3]⟩], 0⟩
      else .error (.store n)
    fetched := [] }

/-- The loaded buffer, if any, holds the bytes the Store gives for the current
block (the cursor may have moved). -/
def Scanner.Consistent (s : Scanner) : Prop :=
  ∀ b, s.buf = some b → ∃ d, s.reader.blocks s.idx = .ok d ∧ b.s = d.s

/-- The key `key` resolves to block `j` from the current block `i`: in
`blockFor`, once the order guard has passed, block `i` is in range and not
after `key`, and `findBlock` returns `j`. -/
def ResolvesTo (index : List Block) (i : Nat) (key : List Byte) (j : Nat) : Prop :=
  ∃ cur, index[i]? = some cur ∧ cur.IsAfter key = false ∧
    ∀ t : Scanner, t.reader.index = index → t.idx = i → t.findBlock key = .ok j

/-- One lookup request: `GetFirst(key)` when `first` is set, else `GetAll(key)`. -/
structure Query where
  first : Bool
  key : List Byte
  deriving DecidableEq, Repr

/-- The scanner after one lookup, the answer dropped. -/
def Scanner.step (s : Scanner) (q : Query) : Except Fault Scanner :=
  if q.first then
    match s.GetFirst q.key with
    | .error e => .error e
    | .ok (_, s1) => .ok s1
  else
    match s.GetAll q.key with
    | .error e => .error e
    | .ok (_, s1) => .ok s1

/-- The scanner after a sequence of lookups issued in order. -/
def Scanner.run (s : Scanner) : List Query → Except Fault Scanner
  | [] => .ok s
  | q :: qs =>
    match s.step q with
    | .error e => .error e
    | .ok s1 => s1.run qs

/-- A scanner over the Store `rd` once block 1 of the worked example has been
fetched (one `GetBlock(1)` added to the log), with the cursor at `pos` and
`last` as the last queried key. -/
def blockOneLoaded (rd : Reader) (pos : Nat) (last : List Byte) : Scanner :=
  { reader := { rd with fetched := rd.fetched ++ [1] }
    idx := 1
    buf := some ⟨encodeRecords exampleRecords, pos⟩
    lastKey := some last }

/-- A record with the one-byte key `[1]` and the value `v`. -/
def hugeRecord (v : List Byte) : Record := ⟨[1], v⟩

/-- A Store with one block, first key `[0]`, whose content is the single
record `hugeRecord v`. -/
def hugeReader (v : List Byte) : Reader :=
  { index := [⟨[0]⟩]
    blocks := fun _ => .ok ⟨encodeRecords [hugeRecord v], 0⟩
    fetched := [] }

/-- The scanner over `hugeReader v` once its block is loaded (one fetch), with
the cursor at `2 ^ 32` and `last` as the last queried key. -/
def hugeScannerAfter (v : List Byte) (last : List Byte) : Scanner :=
  { reader := { hugeReader v with fetched := [0] }
    idx := 0
    buf := some ⟨encodeRecords [hugeRecord v], 4294967296⟩
    lastKey := some last }

/-- A value of `2 ^ 32 - 9` zero bytes: with it `hugeRecord` occupies exactly
`2 ^ 32` bytes, and both of its lengths fit their `uint32` field. -/
@[irreducible]
def bigValue : List Byte := List.replicate 4294967287 0

/-- What one lookup returns: `(value, err, found)` of `GetFirst`, or
`(values, err)` of `GetAll`. -/
inductive Answer where
  | first (value : Option (List Byte)) (err : Option Error) (found : Bool)
  | all (values : List (List Byte)) (err : Option Error)
  deriving DecidableEq, Repr

/-- One lookup with its answer and the scanner afterwards. -/
def Scanner.ask (s : Scanner) (q : Query) : Except Fault (Answer × Scanner) :=
  if q.first then
    match s.GetFirst q.key with
    | .error e => .error e
    | .ok ((value, err, found), s1) => .ok (.first value err found, s1)
  else
    match s.GetAll q.key with
    | .error e => .error e
    | .ok ((values, err), s1) => .ok (.all values err, s1)

/-- The answers of a sequence of lookups issued in order. -/
def Scanner.answers (s : Scanner) : List Query → Except Fault (List Answer)
  | [] => .ok []
  | q :: qs =>
    match s.ask q with
    | .error e => .error e
    | .ok (a, s1) =>
      match s1.answers qs with
      | .error e => .error e
      | .ok as => .ok (a :: as)

/-- The first keys of the index are non-decreasing (byte-lexicographic). -/
abbrev NonDecreasing (index : List Block) : Prop :=
  index.Pairwise (fun a b => bytesCompare a.firstKeyBytes b.firstKeyBytes ≤ 0)

/-- The general path of `findBlock` alone, as the specification words it: the
binary search over the remaining entries, `idx + Search(remaining, i =>
index[idx+1+i].firstKey > key)`, with the "last block" and "next block is past
key" shortcuts removed.  Go's `sort.Search` returns 0 for `n ≤ 0`. -/
def Scanner.findBlockGeneral (s : Scanner) (key : List Byte) : Except Fault Nat :=
  let remaining : Int := (s.reader.index.length : Int) - (s.idx : Int) - 1
  match Search remaining.toNat (fun i =>
      match s.reader.indexAt (s.idx + i + 1) with
      | .error e => .error e
      | .ok b => .ok (b.IsAfter key)) with
  | .error e => .error e
  | .ok offset => .ok (s.idx + offset)

/-- The four reads at the head of the loop body of `getValuesFromBuffer`:
`(keyLen, valLen, keyBytes, valBytes)` and the reader after them. -/
def decodeRecord (buf : BytesReader) : (Nat × Nat × List Byte × List Byte) × BytesReader :=
  let (keyLen, buf) := readUint32 buf
  let (valLen, buf) := readUint32 buf
  let (keyBytes, buf) := readBytes buf keyLen
  let (valBytes, buf) := readBytes buf valLen
  ((keyLen, valLen, keyBytes, valBytes), buf)

/-- One pass through the loop body of `getValuesFromBuffer` (entered with
`buf.Len() > 0`): either the function returns (`Sum.inl`, with the result and
the reader), or the loop goes on (`Sum.inr`, with the reader and `acc`). -/
def scanIteration (key : List Byte) (first : Bool) (buf : BytesReader)
    (acc : List (List Byte)) :
    Sum ((Option (List Byte) × List (List Byte) × Bool) × BytesReader)
      (BytesReader × List (List Byte)) :=
  match decodeRecord buf with
  | ((keyLen, valLen, keyBytes, valBytes), buf) =>
    let cmp := bytesCompare keyBytes key
    if cmp = 0 ∧ first = true then .inl ((some valBytes, [], true), buf)
    else
      let acc := if cmp = 0 then acc ++ [valBytes] else acc
      if cmp > 0 then
        .inl ((none, acc, decide (acc.length > 0)),
          buf.Seek (-(((keyLen + valLen + 8) % 2 ^ 32 : Nat) : Int)))
      else .inr (buf, acc)

/-- A truncated buffer: the header announces a 1-byte key and a 5-byte value,
the key `[9]` follows, the value is missing. -/
def truncatedBuffer : List Byte := [0, 0, 0, 1, 0, 0, 0, 5, 9]

/-- The records a `first`-mode scan for `key` consumes: the records with a
smaller key, then the first record with the key if it comes next. -/
def consumedFirst (key : List Byte) : List Record → List Record
  | [] => []
  | r :: rs =>
    if bytesCompare r.key key = 0 then [r]
    else if bytesCompare r.key key > 0 then []
    else r :: consumedFirst key rs

/-- All records of a file, block after block, in file order. -/
def allRecords : List (List Record) → List Record
  | [] => []
  | b :: bs => b ++ allRecords bs

/-- A well-formed file seen through its Store `rd`: a non-empty list of
non-empty blocks whose records fit the encoding and are globally sorted by
key, no key occurring in two blocks, `index[i].firstKey` the key of the first
record of block `i`, and `GetBlock(i)` succeeding with a fresh buffer of block
`i` at offset 0. -/
def WellFormedFile (rd : Reader) (blocks : List (List Record)) : Prop :=
  blocks ≠ [] ∧ rd.index.length = blocks.length ∧
  (∀ (i : Nat) (blk : List Record), blocks[i]? = some blk →
    (∃ r0 tl, blk = r0 :: tl ∧ rd.index[i]? = some ⟨r0.key⟩) ∧
    rd.blocks i = .ok ⟨encodeRecords blk, 0⟩) ∧
  SortedRecords (allRecords blocks) ∧
  (∀ (i j : Nat) (bi bj : List Record) (ri rj : Record), blocks[i]? = some bi →
    blocks[j]? = some bj → ri ∈ bi → rj ∈ bj → ri.key = rj.key → i = j) ∧
  (∀ r ∈ allRecords blocks, r.Encodable)

/-- The answer the file semantics gives to a lookup: for `GetAll(k)` the
values of all records of the file with key `k`, in file order, and a nil
error; for `GetFirst(k)` the first of them with `found = true`, or no value
with `found = false`. -/
def expectedAnswer (blocks : List (List Record)) (q : Query) : Answer :=
  if q.first then
    .first (valuesOf q.key (allRecords blocks)).head? none
      (decide (valuesOf q.key (allRecords blocks) ≠ []))
  else .all (valuesOf q.key (allRecords blocks)) none

/-- State of a scanner in the middle of an ascending sequence of lookups over a
well-formed file: either nothing is loaded and the block index is 0, or the
buffer of the current block is loaded with its cursor on a record boundary,
every record before the cursor has a key `≤` the last queried key, and the
first key of the current block is `≤` the last queried key. -/
def FileInv (rd : Reader) (blocks : List (List Record)) (s : Scanner) : Prop :=
  s.reader.index = rd.index ∧ s.reader.blocks = rd.blocks ∧ s.idx < blocks.length ∧
  (s.buf = none → s.idx = 0) ∧
  (∀ b, s.buf = some b → ∃ last done rest, s.lastKey = some last ∧
    blocks[s.idx]? = some (done ++ rest) ∧
    b = ⟨encodeRecords (done ++ rest), (encodeRecords done).length⟩ ∧
    (∀ r ∈ done, bytesCompare r.key last ≤ 0) ∧
    (∀ b0, rd.index[s.idx]? = some b0 → bytesCompare b0.firstKeyBytes last ≤ 0))

/-- A block of two records: `([0], [7])` followed by `hugeRecord v`. -/
def wrapBlock (v : List Byte) : List Record := [⟨[0], [7]⟩, hugeRecord v]

/-- A Store over the one-block file `[wrapBlock v]`; the index entry is the
key of the first record of the block. -/
def wrapReader (v : List Byte) : Reader :=
  { index := [⟨[0]⟩]
    blocks := fun _ => .ok ⟨encodeRecords (wrapBlock v), 0⟩
    fetched := [] }

/-- The scanner over `wrapReader v` once its block is loaded (one fetch), with
the cursor at `10 + 2 ^ 32` and `last` as the last queried key. -/
def wrapScannerAfter (v : List Byte) (last : List Byte) : Scanner :=
  { reader := { wrapReader v with fetched := [0] }
    idx := 0
    buf := some ⟨encodeRecords (wrapBlock v), 4294967306⟩
    lastKey := some last }

/-- Queries with strictly increasing keys. -/
abbrev AscendingQueries (qs : List Query) : Prop :=
  qs.Pairwise (fun a b => bytesCompare a.key b.key < 0)

/-! ## The last key as a pointer into the caller's memory

`s.lastKey = &key` keeps a pointer to the slice the caller passed, and a Go
slice shares its backing array with the caller's slice.  `Scanner` above holds
the bytes that `*s.lastKey` reads; the definitions below keep the pointer
itself, so that a caller who overwrites its key slice between two calls is
visible. -/

/-- The caller's memory: the bytes each key slice holds at a given moment, by
the address of its backing array.  Overwriting a slice in place changes the
bytes at its address. -/
abbrev Memory := Nat → List Byte

/-- Go `type Scanner struct` with `lastKey *[]byte` kept as a pointer: the
address of the backing array of the key slice it points to. -/
structure ScannerRef where
  reader : Reader
  idx : Nat
  buf : Option BytesReader
  lastKey : Option Nat

/-- What the scanner reads of its state while the caller's memory is `m`:
`*s.lastKey` is the bytes at the address `lastKey` holds. -/
def ScannerRef.view (m : Memory) (s : ScannerRef) : Scanner :=
  { reader := s.reader, idx := s.idx, buf := s.buf, lastKey := s.lastKey.map m }

/-- Go `NewScanner`, with the pointer representation of `lastKey`. -/
def NewScannerRef (r : Reader) : ScannerRef :=
  { reader := r, idx := 0, buf := none, lastKey := none }

/-- Go `(*Scanner).CheckIfKeyOutOfOrder` with the key given by the address of
its slice: `*s.lastKey` and `key` are read from the memory `m` as it is when
the call is made, and `s.lastKey = &key` records the address. -/
def ScannerRef.CheckIfKeyOutOfOrder (m : Memory) (s : ScannerRef) (key : Nat) :
    Option Error × ScannerRef :=
  match s.lastKey with
  | some last =>
    if bytesCompare (m last) (m key) > 0 then (some (.outOfOrder (m last) (m key)), s)
    else (none, { s with lastKey := some key })
  | none => (none, { s with lastKey := some key })

/-- Go `(*Scanner).blockFor` with the key given by the address of its slice.
`findBlock` reads the index, `idx` and the bytes of the key only. -/
def ScannerRef.blockFor (m : Memory) (s : ScannerRef) (key : Nat) :
    Except Fault ((Option BytesReader × Option Error × Bool) × ScannerRef) :=
  match s.CheckIfKeyOutOfOrder m key with
  | (some err, s) => .ok ((none, some err, false), s)
  | (none, s) =>
    match s.reader.indexAt s.idx with
    | .error e => .error e
    | .ok cur =>
      if cur.IsAfter (m key) then .ok ((none, none, false), s)
      else
        match (s.view m).findBlock (m key) with
        | .error e => .error e
        | .ok idx =>
          if idx ≠ s.idx ∨ s.buf = none then
            match s.reader.GetBlock idx with
            | (.error err, rd) => .ok ((none, some err, false), { s with reader := rd })
            | (.ok data, rd) =>
              .ok ((some data, none, true), { s with reader := rd, idx := idx, buf := some data })
          else .ok ((s.buf, none, true), s)

/-- Go `(*Scanner).GetFirst` with the key given by the address of its slice. -/
def ScannerRef.GetFirst (m : Memory) (s : ScannerRef) (key : Nat) :
    Except Fault ((Option (List Byte) × Option Error × Bool) × ScannerRef) :=
  match s.blockFor m key with
  | .error e => .error e
  | .ok ((data, err, ok), s) =>
    if !ok then .ok ((none, err, ok), s)
    else
      match data with
      | none => .error .nilDereference
      | some data =>
        match getValuesFromBuffer data (m key) true with
        | .error e => .error e
        | .ok ((value, _, found), data) =>
          .ok ((value, none, found), { s with buf := some data })

/-- Go `(*Scanner).GetAll` with the key given by the address of its slice. -/
def ScannerRef.GetAll (m : Memory) (s : ScannerRef) (key : Nat) :
    Except Fault ((List (List Byte) × Option Error) × ScannerRef) :=
  match s.blockFor m key with
  | .error e => .error e
  | .ok ((data, err, ok), s) =>
    if !ok then .ok (([], err), s)
    else
      match data with
      | none => .error .nilDereference
      | some data =>
        match getValuesFromBuffer data (m key) false with
        | .error e => .error e
        | .ok ((_, found, _), data) => .ok ((found, err), { s with buf := some data })

/-- The scanner of the worked example once block 1 is loaded (one fetch), with
the cursor at `pos` and `lastKey` pointing to the slice at address `a`. -/
def exampleRefAt (pos : Nat) (a : Nat) : ScannerRef :=
  { reader := { exampleReader with fetched := [1] }
    idx := 1
    buf := some ⟨encodeRecords exampleRecords, pos⟩
    lastKey := some a }

/-- A caller memory with two key slices: "t" at address 0, "m" elsewhere. -/
def twoKeys : Memory := fun a => if a = 0 then [116] else [109]

/-- The memory `twoKeys` before the caller wrote "m" into the second slice: "t"
at address 0, "z" elsewhere. -/
def twoKeysBefore : Memory := fun a => if a = 0 then [116] else [122]

/-- A caller memory in which the key slice holds the bytes `k` (at every
address). -/
def sliceHolds (k : List Byte) : Memory := fun _ => k

/-! ## Byte-lexicographic order -/

theorem bytesCompare_range (a b : List Byte) :
    bytesCompare a b = -1 ∨ bytesCompare a b = 0 ∨ bytesCompare a b = 1 := by
  induction a generalizing b with
  | nil => cases b <;> simp [bytesCompare]
  | cons x xs ih =>
    cases b with
    | nil => simp [bytesCompare]
    | cons y ys =>
      simp only [bytesCompare]
      split
      · simp
      · split
        · simp
        · exact ih ys

theorem bytesCompare_swap (a b : List Byte) : bytesCompare b a = - bytesCompare a b := by
  induction a generalizing b with
  | nil => cases b <;> simp [bytesCompare]
  | cons x xs ih =>
    cases b with
    | nil => simp [bytesCompare]
    | cons y ys =>
      simp only [bytesCompare]
      by_cases h1 : x < y
      · have h2 : ¬ y < x := not_lt_of_lt h1
        simp [h1, h2]
      · by_cases h2 : y < x
        · simp [h1, h2]
        · simp [h1, h2, ih]

theorem bytesCompare_self (a : List Byte) : bytesCompare a a = 0 := by
  induction a with
  | nil => simp [bytesCompare]
  | cons x xs ih => simp [bytesCompare, ih]

theorem bytesCompare_eq_zero {a b : List Byte} : bytesCompare a b = 0 ↔ a = b := by
  constructor
  · intro h
    induction a generalizing b with
    | nil => cases b <;> simp_all [bytesCompare]
    | cons x xs ih =>
      cases b with
      | nil => simp [bytesCompare] at h
      | cons y ys =>
        simp only [bytesCompare] at h
        by_cases h1 : x < y
        · simp [h1] at h
        · by_cases h2 : y < x
          · simp [h1, h2] at h
          · simp only [h1, h2, if_false] at h
            have hxy : x = y := le_antisymm (not_lt.mp h2) (not_lt.mp h1)
            rw [hxy, ih h]
  · intro h
    rw [h]
    exact bytesCompare_self b

theorem bytesCompare_lt_trans {a b c : List Byte}
    (h1 : bytesCompare a b < 0) (h2 : bytesCompare b c < 0) : bytesCompare a c < 0 := by
  induction a generalizing b c with
  | nil =>
    cases c with
    | nil => cases b <;> simp [bytesCompare] at h1 h2
    | cons z zs => simp [bytesCompare]
  | cons x xs ih =>
    cases b with
    | nil => simp [bytesCompare] at h1
    | cons y ys =>
      cases c with
      | nil => simp [bytesCompare] at h2
      | cons z zs =>
        simp only [bytesCompare] at h1 h2 ⊢
        by_cases hxy : x < y
        · by_cases hyz : y < z
          · simp [lt_trans hxy hyz]
          · by_cases hzy : z < y
            · simp [hyz, hzy] at h2
            · have hyz2 : y = z := le_antisymm (not_lt.mp hzy) (not_lt.mp hyz)
              subst hyz2
              simp [hxy]
        · by_cases hyx : y < x
          · simp [hxy, hyx] at h1
          · have hxy2 : x = y := le_antisymm (not_lt.mp hyx) (not_lt.mp hxy)
            subst hxy2
            simp only [hxy, if_false] at h1
            by_cases hxz : x < z
            · simp [hxz]
            · by_cases hzx : z < x
              · simp [hxz, hzx] at h2
              · simp only [hxz, hzx, if_false] at h2 ⊢
                exact ih h1 h2

theorem bytesCompare_lt_of_lt_of_le {a b c : List Byte}
    (h1 : bytesCompare a b < 0) (h2 : bytesCompare b c ≤ 0) : bytesCompare a c < 0 := by
  rcases lt_or_eq_of_le h2 with h | h
  · exact bytesCompare_lt_trans h1 h
  · rw [bytesCompare_eq_zero.mp h] at h1
    exact h1

theorem bytesCompare_lt_of_le_of_lt {a b c : List Byte}
    (h1 : bytesCompare a b ≤ 0) (h2 : bytesCompare b c < 0) : bytesCompare a c < 0 := by
  rcases lt_or_eq_of_le h1 with h | h
  · exact bytesCompare_lt_trans h h2
  · rw [bytesCompare_eq_zero.mp h]
    exact h2

theorem bytesCompare_le_trans {a b c : List Byte}
    (h1 : bytesCompare a b ≤ 0) (h2 : bytesCompare b c ≤ 0) : bytesCompare a c ≤ 0 := by
  rcases lt_or_eq_of_le h1 with h | h
  · exact le_of_lt (bytesCompare_lt_of_lt_of_le h h2)
  · rw [bytesCompare_eq_zero.mp h]
    exact h2

theorem bytesCompare_gt_iff (a b : List Byte) : bytesCompare a b > 0 ↔ bytesCompare b a < 0 := by
  rw [bytesCompare_swap a b]
  omega

theorem isAfter_iff (b : Block) (key : List Byte) :
    b.IsAfter key = true ↔ bytesCompare b.firstKeyBytes key > 0 := by
  simp [Block.IsAfter]

theorem isAfter_false_iff (b : Block) (key : List Byte) :
    b.IsAfter key = false ↔ bytesCompare b.firstKeyBytes key ≤ 0 := by
  simp [Block.IsAfter]

/-! ## Block location -/

theorem indexAt_eq_ok {r : Reader} {n : Nat} {b : Block} (h : r.index[n]? = some b) :
    r.indexAt n = .ok b := by
  simp [Reader.indexAt, h]

theorem searchLoop_spec (f : Nat → Except Fault Bool) (p : Nat → Bool) (n : Nat)
    (hf : ∀ h, h < n → f h = .ok (p h)) :
    ∀ fuel i j, i ≤ j → j ≤ n → j - i ≤ fuel →
      ∃ k, searchLoop f fuel i j = .ok k ∧ i ≤ k ∧ k ≤ j ∧
        (i < k → p (k - 1) = false) ∧ (k < j → p k = true) := by
  intro fuel
  induction fuel with
  | zero =>
    intro i j hij _ hfuel
    have hji : ¬ i < j := by omega
    exact ⟨i, by simp [searchLoop, hji], le_refl _, hij, by omega, by omega⟩
  | succ fuel ih =>
    intro i j hij hjn hfuel
    by_cases hlt : i < j
    · have hh : (i + j) / 2 < n := by omega
      simp only [searchLoop, hlt, if_true, hf _ hh]
      cases hp : p ((i + j) / 2)
      · obtain ⟨k, hk, h1, h2, h3, h4⟩ := ih ((i + j) / 2 + 1) j (by omega) hjn (by omega)
        refine ⟨k, by simpa using hk, by omega, h2, ?_, h4⟩
        intro _
        by_cases hk2 : (i + j) / 2 + 1 < k
        · exact h3 hk2
        · have hk3 : k = (i + j) / 2 + 1 := by omega
          subst hk3
          simpa using hp
      · obtain ⟨k, hk, h1, h2, h3, h4⟩ := ih i ((i + j) / 2) (by omega) (by omega) (by omega)
        refine ⟨k, by simpa using hk, h1, by omega, h3, ?_⟩
        intro _
        by_cases hk2 : k < (i + j) / 2
        · exact h4 hk2
        · have hk3 : k = (i + j) / 2 := by omega
          subst hk3
          exact hp
    · exact ⟨i, by simp [searchLoop, hlt], le_refl _, hij, by omega, by omega⟩

theorem Search_spec (f : Nat → Except Fault Bool) (p : Nat → Bool) (n : Nat)
    (hf : ∀ h, h < n → f h = .ok (p h)) :
    ∃ k, Search n f = .ok k ∧ k ≤ n ∧ (0 < k → p (k - 1) = false) ∧ (k < n → p k = true) := by
  obtain ⟨k, hk, _, h2, h3, h4⟩ := searchLoop_spec f p n hf n 0 n (Nat.zero_le _) (le_refl _) (by omega)
  exact ⟨k, hk, h2, h3, h4⟩

/-- What `findBlock` returns on any index (sorted or not) when `s.idx` is in
range: a block at or after the current one that is in range, that is not after
the key unless it is the current block, and whose successor, if any, is after
the key. -/
theorem findBlock_spec (s : Scanner) (key : List Byte) (hidx : s.idx < s.reader.index.length) :
    ∃ j, s.findBlock key = .ok j ∧ s.idx ≤ j ∧ j < s.reader.index.length ∧
      (s.idx < j → ∀ b, s.reader.index[j]? = some b → b.IsAfter key = false) ∧
      (∀ b, s.reader.index[j + 1]? = some b → b.IsAfter key = true) := by
  unfold Scanner.findBlock
  by_cases hrem : (s.reader.index.length : Int) - (s.idx : Int) - 1 ≤ 0
  · refine ⟨s.idx, by simp [hrem], le_refl _, hidx, by omega, ?_⟩
    intro b hb
    have hlt := (List.getElem?_eq_some_iff.mp hb).1
    omega
  · have hnext : s.idx + 1 < s.reader.index.length := by omega
    simp only [hrem, if_false, indexAt_eq_ok (List.getElem?_eq_getElem hnext)]
    by_cases hafter : (s.reader.index[s.idx + 1]).IsAfter key = true
    · refine ⟨s.idx, by simp [hafter], le_refl _, hidx, by omega, ?_⟩
      intro b hb
      rw [List.getElem?_eq_getElem hnext] at hb
      cases hb
      exact hafter
    · simp only [hafter]
      have htn : ((s.reader.index.length : Int) - (s.idx : Int) - 1).toNat
          = s.reader.index.length - s.idx - 1 := by omega
      rw [htn]
      obtain ⟨k, hk, hkn, hk1, hk2⟩ := Search_spec
        (fun i => match s.reader.indexAt (s.idx + i + 1) with
          | .error e => .error e
          | .ok b => .ok (b.IsAfter key))
        (fun i => match s.reader.index[s.idx + i + 1]? with
          | some b => b.IsAfter key
          | none => false)
        (s.reader.index.length - s.idx - 1)
        (by
          intro h hh
          have hlt : s.idx + h + 1 < s.reader.index.length := by omega
          simp [indexAt_eq_ok (List.getElem?_eq_getElem hlt), List.getElem?_eq_getElem hlt])
      refine ⟨s.idx + k, by simp [hk], by omega, by omega, ?_, ?_⟩
      · intro hlt b hb
        have hk0 : 0 < k := by omega
        have := hk1 hk0
        have hidx2 : s.idx + (k - 1) + 1 = s.idx + k := by omega
        rw [hidx2, hb] at this
        exact this
      · intro b hb
        have hlt := (List.getElem?_eq_some_iff.mp hb).1
        have := hk2 (by omega)
        have hidx2 : s.idx + k + 1 = s.idx + k + 1 := rfl
        rw [hb] at this
        exact this

theorem strictlyIncreasing_lt {index : List Block} (h : StrictlyIncreasing index)
    {i j : Nat} {a b : Block} (hij : i < j) (ha : index[i]? = some a) (hb : index[j]? = some b) :
    bytesCompare a.firstKeyBytes b.firstKeyBytes < 0 := by
  obtain ⟨hi, rfl⟩ := List.getElem?_eq_some_iff.mp ha
  obtain ⟨hj, rfl⟩ := List.getElem?_eq_some_iff.mp hb
  exact List.pairwise_iff_getElem.mp h i j hi hj hij

theorem strictlyIncreasing_le {index : List Block} (h : StrictlyIncreasing index)
    {i j : Nat} {a b : Block} (hij : i ≤ j) (ha : index[i]? = some a) (hb : index[j]? = some b) :
    bytesCompare a.firstKeyBytes b.firstKeyBytes ≤ 0 := by
  rcases Nat.lt_or_eq_of_le hij with hlt | heq
  · exact le_of_lt (strictlyIncreasing_lt h hlt ha hb)
  · subst heq
    rw [ha] at hb
    cases hb
    rw [bytesCompare_self]

/-- C1: on a strictly increasing index, with the current block's first key
`≤ key`, `findBlock` returns the greatest `j` in `[idx, len(index)-1]` whose
first key is `≤ key`; it is the last block when no later entry is after the
key. -/
theorem findBlock_greatest (s : Scanner) (key : List Byte) (cur : Block)
    (hsorted : StrictlyIncreasing s.reader.index)
    (hcur : s.reader.index[s.idx]? = some cur)
    (hle : bytesCompare cur.firstKeyBytes key ≤ 0) :
    ∃ j b, s.findBlock key = .ok j ∧ s.idx ≤ j ∧ s.reader.index[j]? = some b ∧
      bytesCompare b.firstKeyBytes key ≤ 0 ∧
      (∀ j2 b2, s.idx ≤ j2 → s.reader.index[j2]? = some b2 →
        bytesCompare b2.firstKeyBytes key ≤ 0 → j2 ≤ j) ∧
      ((∀ j2 b2, s.idx < j2 → s.reader.index[j2]? = some b2 →
        ¬ bytesCompare b2.firstKeyBytes key > 0) → j + 1 = s.reader.index.length) := by
  have hidx : s.idx < s.reader.index.length := (List.getElem?_eq_some_iff.mp hcur).1
  obtain ⟨j, hj, h1, h2, h3, h4⟩ := findBlock_spec s key hidx
  refine ⟨j, s.reader.index[j], hj, h1, List.getElem?_eq_getElem h2, ?_, ?_, ?_⟩
  · rcases Nat.lt_or_eq_of_le h1 with hlt | heq
    · exact (isAfter_false_iff _ _).mp (h3 hlt _ (List.getElem?_eq_getElem h2))
    · have hb : s.reader.index[j]? = some cur := by rw [← heq]; exact hcur
      rw [List.getElem?_eq_getElem h2] at hb
      cases hb
      exact hle
  · intro j2 b2 _ hb2 hle2
    by_contra hgt
    have hlt2 : j2 < s.reader.index.length := (List.getElem?_eq_some_iff.mp hb2).1
    have hj1 : j + 1 < s.reader.index.length := by omega
    have hafter := (isAfter_iff _ _).mp (h4 _ (List.getElem?_eq_getElem hj1))
    have hle3 := strictlyIncreasing_le hsorted (show j + 1 ≤ j2 by omega)
      (List.getElem?_eq_getElem hj1) hb2
    have := bytesCompare_le_trans hle3 hle2
    omega
  · intro hall
    by_contra hne
    have hj1 : j + 1 < s.reader.index.length := by omega
    exact hall (j + 1) _ (by omega) (List.getElem?_eq_getElem hj1)
      ((isAfter_iff _ _).mp (h4 _ (List.getElem?_eq_getElem hj1)))

/-- Witness of C1: the index "a", "m", "z", current block 0, key "n". -/
theorem findBlock_greatest_witness :
    (StrictlyIncreasing (NewScanner failingReader).reader.index ∧
      (NewScanner failingReader).reader.index[(NewScanner failingReader).idx]? = some ⟨[97]⟩ ∧
      bytesCompare (Block.mk [97]).firstKeyBytes [110] ≤ 0) ∧
    ∃ j b, (NewScanner failingReader).findBlock [110] = .ok j ∧
      (NewScanner failingReader).idx ≤ j ∧
      (NewScanner failingReader).reader.index[j]? = some b ∧
      bytesCompare b.firstKeyBytes [110] ≤ 0 ∧
      (∀ j2 b2, (NewScanner failingReader).idx ≤ j2 →
        (NewScanner failingReader).reader.index[j2]? = some b2 →
        bytesCompare b2.firstKeyBytes [110] ≤ 0 → j2 ≤ j) ∧
      ((∀ j2 b2, (NewScanner failingReader).idx < j2 →
        (NewScanner failingReader).reader.index[j2]? = some b2 →
        ¬ bytesCompare b2.firstKeyBytes [110] > 0) →
        j + 1 = (NewScanner failingReader).reader.index.length) :=
  ⟨⟨by decide, by decide, by decide⟩,
    findBlock_greatest (NewScanner failingReader) [110] ⟨[97]⟩ (by decide) (by decide) (by decide)⟩

/-! ## Reading records from a buffer -/

theorem Read_at (s pre x post : List Byte) (i : Nat) (hs : s = pre ++ (x ++ post))
    (hi : i = pre.length) :
    (BytesReader.mk s i).Read x.length = (x, ⟨s, i + x.length⟩) := by
  subst hs hi
  unfold BytesReader.Read
  by_cases h : pre.length ≥ (pre ++ (x ++ post)).length
  · have hx : x.length = 0 := by
      simp only [List.length_append] at h
      omega
    have hx2 : x = [] := List.length_eq_zero.mp hx
    subst hx2
    simp
  · simp only [h, if_false, List.drop_left, List.take_left]

theorem beUint32_putUint32 (n : Nat) (h : n < 2 ^ 32) : beUint32 (putUint32 n) = n := by
  simp only [beUint32, putUint32, Fin.ofNat, Fin.val_mk]
  omega

theorem putUint32_length (n : Nat) : (putUint32 n).length = 4 := rfl

theorem readUint32_at (s pre post : List Byte) (i n : Nat) (hn : n < 2 ^ 32)
    (hs : s = pre ++ (putUint32 n ++ post)) (hi : i = pre.length) :
    readUint32 ⟨s, i⟩ = (n, ⟨s, i + 4⟩) := by
  have h := Read_at s pre (putUint32 n) post i hs hi
  rw [putUint32_length] at h
  simp only [readUint32, h, putUint32_length, if_true, beUint32_putUint32 n hn]

theorem readBytes_at (s pre x post : List Byte) (i : Nat) (hs : s = pre ++ (x ++ post))
    (hi : i = pre.length) :
    readBytes ⟨s, i⟩ x.length = (x, ⟨s, i + x.length⟩) := by
  simp [readBytes, Read_at s pre x post i hs hi]

theorem Record.encode_length (r : Record) : r.encode.length = r.size := by
  simp only [Record.encode, Record.size, List.length_append, putUint32_length]
  omega

theorem Len_pos_of_lt {s : List Byte} {i : Nat} (h : i < s.length) :
    (BytesReader.mk s i).Len > 0 := by
  simp only [BytesReader.Len]
  split <;> omega

theorem Len_eq_zero_of_ge {s : List Byte} {i : Nat} (h : s.length ≤ i) :
    (BytesReader.mk s i).Len = 0 := by
  simp only [BytesReader.Len]
  split <;> omega

/-- One iteration of the scan loop in front of a complete record. -/
theorem getValuesLoop_record (key : List Byte) (first : Bool) (fuel : Nat)
    (s pre post : List Byte) (r : Record) (acc : List (List Byte))
    (hr : r.Encodable) (hs : s = pre ++ (r.encode ++ post)) :
    getValuesLoop key first (fuel + 1) ⟨s, pre.length⟩ acc =
      if bytesCompare r.key key = 0 ∧ first = true then
        .ok ((some r.value, [], true), ⟨s, pre.length + r.size⟩)
      else if bytesCompare r.key key > 0 then
        .ok ((none, (if bytesCompare r.key key = 0 then acc ++ [r.value] else acc),
              decide ((if bytesCompare r.key key = 0 then acc ++ [r.value] else acc).length > 0)),
            (BytesReader.mk s (pre.length + r.size)).Seek (-((r.size % 2 ^ 32 : Nat) : Int)))
      else getValuesLoop key first fuel ⟨s, pre.length + r.size⟩
        (if bytesCompare r.key key = 0 then acc ++ [r.value] else acc) := by
  have hlen : (BytesReader.mk s pre.length).Len > 0 := by
    apply Len_pos_of_lt
    rw [hs]
    simp only [List.length_append, Record.encode_length, Record.size]
    omega
  have h1 : readUint32 ⟨s, pre.length⟩ = (r.key.length, ⟨s, pre.length + 4⟩) :=
    readUint32_at s pre (putUint32 r.value.length ++ (r.key ++ (r.value ++ post))) pre.length r.key.length hr.1
      (by rw [hs]; simp [Record.encode]) rfl
  have h2 : readUint32 ⟨s, pre.length + 4⟩ = (r.value.length, ⟨s, pre.length + 4 + 4⟩) :=
    readUint32_at s (pre ++ putUint32 r.key.length) (r.key ++ (r.value ++ post)) (pre.length + 4)
      r.value.length hr.2 (by rw [hs]; simp [Record.encode])
      (by simp only [List.length_append, putUint32_length])
  have h3 : readBytes ⟨s, pre.length + 4 + 4⟩ r.key.length
      = (r.key, ⟨s, pre.length + 4 + 4 + r.key.length⟩) :=
    readBytes_at s (pre ++ putUint32 r.key.length ++ putUint32 r.value.length) r.key
      (r.value ++ post) (pre.length + 4 + 4) (by rw [hs]; simp [Record.encode])
      (by simp only [List.length_append, putUint32_length])
  have h4 : readBytes ⟨s, pre.length + 4 + 4 + r.key.length⟩ r.value.length
      = (r.value, ⟨s, pre.length + 4 + 4 + r.key.length + r.value.length⟩) :=
    readBytes_at s (pre ++ putUint32 r.key.length ++ putUint32 r.value.length ++ r.key) r.value
      post (pre.length + 4 + 4 + r.key.length) (by rw [hs]; simp [Record.encode])
      (by simp only [List.length_append, putUint32_length])
  have hsz : pre.length + 4 + 4 + r.key.length + r.value.length = pre.length + r.size := by
    simp only [Record.size]; omega
  have hsz2 : r.key.length + r.value.length + 8 = r.size := by
    simp only [Record.size]; omega
  rw [getValuesLoop, if_pos hlen, h1]
  dsimp only
  rw [h2]
  dsimp only
  rw [h3]
  dsimp only
  rw [h4]
  dsimp only
  rw [hsz, hsz2]

theorem Seek_back (s : List Byte) (i n : Nat) (h : n ≤ i) :
    (BytesReader.mk s i).Seek (-(n : Int)) = ⟨s, i - n⟩ := by
  have h1 : ¬ ((i : Int) + -(n : Int) < 0) := by omega
  have h2 : ((i : Int) + -(n : Int)).toNat = i - n := by omega
  simp only [BytesReader.Seek, h1, if_false, h2]

theorem Seek_rewind (s : List Byte) (pos : Nat) (r : Record) :
    (BytesReader.mk s (pos + r.size)).Seek (-((r.size % 2 ^ 32 : Nat) : Int))
      = ⟨s, rewindPos (pos + r.size) r⟩ := by
  rw [Seek_back]
  · rfl
  · have := Nat.mod_le r.size (2 ^ 32)
    omega

theorem encodeRecords_append (xs ys : List Record) :
    encodeRecords (xs ++ ys) = encodeRecords xs ++ encodeRecords ys := by
  induction xs with
  | nil => rfl
  | cons x xs ih => simp [encodeRecords, ih]

/-- The `all`-mode scan of a well-formed buffer from a record boundary. -/
theorem getValuesLoop_all (key : List Byte) :
    ∀ (rest : List Record) (pre : List Byte) (fuel : Nat) (acc : List (List Byte)),
      (∀ r ∈ rest, r.Encodable) → (encodeRecords rest).length ≤ fuel →
      getValuesLoop key false fuel ⟨pre ++ encodeRecords rest, pre.length⟩ acc
        = .ok ((none, acc ++ valuesOf key (scannedPrefix key rest),
                decide ((acc ++ valuesOf key (scannedPrefix key rest)).length > 0)),
              ⟨pre ++ encodeRecords rest, cursorAfterAll key pre.length rest⟩) := by
  intro rest
  induction rest with
  | nil =>
    intro pre fuel acc _ _
    have h0 : (BytesReader.mk (pre ++ encodeRecords []) pre.length).Len = 0 :=
      Len_eq_zero_of_ge (by simp [encodeRecords])
    cases fuel <;>
      simp [getValuesLoop, h0, valuesOf, scannedPrefix, cursorAfterAll]
  | cons r rs ih =>
    intro pre fuel acc henc hfuel
    have hr : r.Encodable := henc r (List.mem_cons_self _ _)
    have hrs : ∀ x ∈ rs, x.Encodable := fun x hx => henc x (List.mem_cons_of_mem _ hx)
    have hlen : (encodeRecords (r :: rs)).length = r.size + (encodeRecords rs).length := by
      simp [encodeRecords, Record.encode_length]
    have hfuel2 : 8 + (encodeRecords rs).length ≤ fuel := by
      rw [hlen] at hfuel
      simp only [Record.size] at hfuel
      omega
    obtain ⟨f, rfl⟩ : ∃ f, fuel = f + 1 := ⟨fuel - 1, by omega⟩
    rw [getValuesLoop_record key false f (pre ++ encodeRecords (r :: rs)) pre (encodeRecords rs) r
      acc hr rfl]
    have hpre : pre ++ encodeRecords (r :: rs) = (pre ++ r.encode) ++ encodeRecords rs := by
      simp [encodeRecords]
    have hprelen : pre.length + r.size = (pre ++ r.encode).length := by
      simp [Record.encode_length]
    by_cases hgt : bytesCompare r.key key > 0
    · have hne : ¬ bytesCompare r.key key = 0 := by omega
      have hnle : ¬ bytesCompare r.key key ≤ 0 := by omega
      rw [if_neg (by simp), if_pos hgt, Seek_rewind]
      simp [hgt, hne, hnle, valuesOf, scannedPrefix, cursorAfterAll]
    · have hle : bytesCompare r.key key ≤ 0 := by omega
      have hih := ih (pre ++ r.encode) f
        (if bytesCompare r.key key = 0 then acc ++ [r.value] else acc) hrs (by omega)
      rw [← hpre, ← hprelen] at hih
      simp only [Bool.false_eq_true, and_false, if_false, hgt]
      rw [hih]
      by_cases heq : bytesCompare r.key key = 0
      · simp [heq, valuesOf, scannedPrefix, cursorAfterAll, List.takeWhile_cons, List.filter_cons]
      · simp [heq, hle, hgt, valuesOf, scannedPrefix, cursorAfterAll, List.takeWhile_cons,
          List.filter_cons]

/-- The `first`-mode scan of a well-formed buffer from a record boundary. -/
theorem getValuesLoop_first (key : List Byte) :
    ∀ (rest : List Record) (pre : List Byte) (fuel : Nat) (acc : List (List Byte)),
      (∀ r ∈ rest, r.Encodable) → (encodeRecords rest).length ≤ fuel →
      getValuesLoop key true fuel ⟨pre ++ encodeRecords rest, pre.length⟩ acc
        = .ok ((match (valuesOf key (scannedPrefix key rest)).head? with
                | some v => (some v, [], true)
                | none => (none, acc, decide (acc.length > 0))),
              ⟨pre ++ encodeRecords rest, cursorAfterFirst key pre.length rest⟩) := by
  intro rest
  induction rest with
  | nil =>
    intro pre fuel acc _ _
    have h0 : (BytesReader.mk (pre ++ encodeRecords []) pre.length).Len = 0 :=
      Len_eq_zero_of_ge (by simp [encodeRecords])
    cases fuel <;>
      simp [getValuesLoop, h0, valuesOf, scannedPrefix, cursorAfterFirst]
  | cons r rs ih =>
    intro pre fuel acc henc hfuel
    have hr : r.Encodable := henc r (List.mem_cons_self _ _)
    have hrs : ∀ x ∈ rs, x.Encodable := fun x hx => henc x (List.mem_cons_of_mem _ hx)
    have hlen : (encodeRecords (r :: rs)).length = r.size + (encodeRecords rs).length := by
      simp [encodeRecords, Record.encode_length]
    have hfuel2 : 8 + (encodeRecords rs).length ≤ fuel := by
      rw [hlen] at hfuel
      simp only [Record.size] at hfuel
      omega
    obtain ⟨f, rfl⟩ : ∃ f, fuel = f + 1 := ⟨fuel - 1, by omega⟩
    rw [getValuesLoop_record key true f (pre ++ encodeRecords (r :: rs)) pre (encodeRecords rs) r
      acc hr rfl]
    have hpre : pre ++ encodeRecords (r :: rs) = (pre ++ r.encode) ++ encodeRecords rs := by
      simp [encodeRecords]
    have hprelen : pre.length + r.size = (pre ++ r.encode).length := by
      simp [Record.encode_length]
    by_cases heq : bytesCompare r.key key = 0
    · simp [heq, valuesOf, scannedPrefix, cursorAfterFirst, List.takeWhile_cons, List.filter_cons]
    · by_cases hgt : bytesCompare r.key key > 0
      · have hnle : ¬ bytesCompare r.key key ≤ 0 := by omega
        rw [if_neg (by simp [heq]), if_pos hgt, Seek_rewind]
        simp [hgt, heq, hnle, valuesOf, scannedPrefix, cursorAfterFirst]
      · have hle : bytesCompare r.key key ≤ 0 := by omega
        have hih := ih (pre ++ r.encode) f acc hrs (by omega)
        rw [← hpre, ← hprelen] at hih
        simp only [heq, false_and, if_false, hgt]
        rw [hih]
        simp [heq, hle, hgt, valuesOf, scannedPrefix, cursorAfterFirst, List.takeWhile_cons,
          List.filter_cons]

/-! ## The scan returns on every buffer -/

theorem Read_s (r : BytesReader) (n : Nat) : (r.Read n).2.s = r.s := by
  unfold BytesReader.Read
  split <;> rfl

theorem Read_i_ge (r : BytesReader) (n : Nat) : r.i ≤ (r.Read n).2.i := by
  unfold BytesReader.Read
  split
  · exact le_refl _
  · exact Nat.le_add_right _ _

theorem readUint32_s (r : BytesReader) : (readUint32 r).2.s = r.s := by
  have h := Read_s r 4
  unfold readUint32
  split
  split <;> simp_all

theorem readUint32_i_ge (r : BytesReader) : r.i ≤ (readUint32 r).2.i := by
  have h := Read_i_ge r 4
  unfold readUint32
  split
  split <;> simp_all

theorem readUint32_i_gt (r : BytesReader) (hlen : r.Len > 0) : r.i < (readUint32 r).2.i := by
  have hi : ¬ r.i ≥ r.s.length := by
    intro h
    simp [BytesReader.Len, h] at hlen
  have h : r.i < (r.Read 4).2.i := by
    simp only [BytesReader.Read, hi, if_false, List.length_take, List.length_drop]
    omega
  unfold readUint32
  split
  split <;> simp_all

theorem readBytes_s (r : BytesReader) (n : Nat) : (readBytes r n).2.s = r.s := by
  have h := Read_s r n
  unfold readBytes
  split
  simp_all

theorem readBytes_i_ge (r : BytesReader) (n : Nat) : r.i ≤ (readBytes r n).2.i := by
  have h := Read_i_ge r n
  unfold readBytes
  split
  simp_all

theorem Seek_s (r : BytesReader) (off : Int) : (r.Seek off).s = r.s := by
  simp only [BytesReader.Seek]
  split <;> rfl

theorem Len_lt_of_advance {r r2 : BytesReader} (hs : r2.s = r.s) (hi : r.i < r2.i)
    (hlen : r.Len > 0) : r2.Len < r.Len := by
  simp only [BytesReader.Len, hs] at hlen ⊢
  split at hlen
  · omega
  · split <;> omega

/-- The scan loop returns whenever the fuel covers the unread bytes, and it
never changes the bytes of the buffer. -/
theorem getValuesLoop_total (key : List Byte) (first : Bool) :
    ∀ (fuel : Nat) (buf : BytesReader) (acc : List (List Byte)), buf.Len ≤ fuel →
      ∃ res buf2, getValuesLoop key first fuel buf acc = .ok (res, buf2) ∧ buf2.s = buf.s := by
  intro fuel
  induction fuel with
  | zero =>
    intro buf acc h
    have h0 : ¬ buf.Len > 0 := by omega
    simp only [getValuesLoop, h0, if_false]
    exact ⟨_, _, rfl, rfl⟩
  | succ fuel ih =>
    intro buf acc h
    by_cases hlen : buf.Len > 0
    · rw [getValuesLoop, if_pos hlen]
      have e1s := readUint32_s buf
      have e1i := readUint32_i_gt buf hlen
      rcases h1 : readUint32 buf with ⟨keyLen, b1⟩
      rw [h1] at e1s e1i
      dsimp only at e1s e1i ⊢
      have e2s := readUint32_s b1
      have e2i := readUint32_i_ge b1
      rcases h2 : readUint32 b1 with ⟨valLen, b2⟩
      rw [h2] at e2s e2i
      dsimp only at e2s e2i ⊢
      have e3s := readBytes_s b2 keyLen
      have e3i := readBytes_i_ge b2 keyLen
      rcases h3 : readBytes b2 keyLen with ⟨keyBytes, b3⟩
      rw [h3] at e3s e3i
      dsimp only at e3s e3i ⊢
      have e4s := readBytes_s b3 valLen
      have e4i := readBytes_i_ge b3 valLen
      rcases h4 : readBytes b3 valLen with ⟨valBytes, b4⟩
      rw [h4] at e4s e4i
      dsimp only at e4s e4i ⊢
      have hs4 : b4.s = buf.s := by rw [e4s, e3s, e2s, e1s]
      by_cases hc1 : bytesCompare keyBytes key = 0 ∧ first = true
      · rw [if_pos hc1]
        exact ⟨_, _, rfl, hs4⟩
      · rw [if_neg hc1]
        by_cases hc2 : bytesCompare keyBytes key > 0
        · rw [if_pos hc2]
          exact ⟨_, _, rfl, by rw [Seek_s, hs4]⟩
        · rw [if_neg hc2]
          have hlt : b4.Len < buf.Len := Len_lt_of_advance hs4 (by omega) hlen
          obtain ⟨res, buf2, hres, hs⟩ := ih b4
            (if bytesCompare keyBytes key = 0 then acc ++ [valBytes] else acc) (by omega)
          exact ⟨res, buf2, hres, by rw [hs, hs4]⟩
    · rw [getValuesLoop, if_neg hlen]
      exact ⟨_, _, rfl, rfl⟩

theorem getValuesFromBuffer_total (buf : BytesReader) (key : List Byte) (first : Bool) :
    ∃ res buf2, getValuesFromBuffer buf key first = .ok (res, buf2) ∧ buf2.s = buf.s :=
  getValuesLoop_total key first buf.Len buf [] (le_refl _)

/-! ## The outcomes of `blockFor` -/

theorem findBlock_congr (s t : Scanner) (key : List Byte) (hr : t.reader.index = s.reader.index)
    (hi : t.idx = s.idx) : t.findBlock key = s.findBlock key := by
  simp only [Scanner.findBlock, Reader.indexAt, hr, hi]

theorem resolvesTo_of_findBlock (s : Scanner) (key : List Byte) (cur : Block) (j : Nat)
    (hcur : s.reader.index[s.idx]? = some cur) (hafter : cur.IsAfter key = false)
    (hfind : s.findBlock key = .ok j) : ResolvesTo s.reader.index s.idx key j :=
  ⟨cur, hcur, hafter, fun t hr hi => by rw [findBlock_congr s t key hr hi, hfind]⟩

theorem CheckIfKeyOutOfOrder_fail (s : Scanner) (key last : List Byte)
    (hl : s.lastKey = some last) (hgt : bytesCompare last key > 0) :
    s.CheckIfKeyOutOfOrder key = (some (.outOfOrder last key), s) := by
  simp [Scanner.CheckIfKeyOutOfOrder, hl, hgt]

theorem CheckIfKeyOutOfOrder_pass (s : Scanner) (key : List Byte) (h : s.InOrder key) :
    s.CheckIfKeyOutOfOrder key = (none, { s with lastKey := some key }) := by
  unfold Scanner.CheckIfKeyOutOfOrder
  cases hl : s.lastKey with
  | none => rfl
  | some last => simp [h last hl]

theorem blockFor_outOfOrder (s : Scanner) (key last : List Byte)
    (hl : s.lastKey = some last) (hgt : bytesCompare last key > 0) :
    s.blockFor key = .ok ((none, some (.outOfOrder last key), false), s) := by
  simp only [Scanner.blockFor, CheckIfKeyOutOfOrder_fail s key last hl hgt]

theorem guard_cases (s : Scanner) (key : List Byte) :
    (∃ last, s.lastKey = some last ∧ bytesCompare last key > 0) ∨ s.InOrder key := by
  cases hl : s.lastKey with
  | none => exact Or.inr (fun last h => by rw [hl] at h; cases h)
  | some last =>
    by_cases hgt : bytesCompare last key > 0
    · exact Or.inl ⟨last, rfl, hgt⟩
    · exact Or.inr (fun l h => by rw [hl] at h; cases h; exact hgt)

theorem blockFor_panic (s : Scanner) (key : List Byte) (h : s.InOrder key)
    (hcur : s.reader.index[s.idx]? = none) :
    s.blockFor key = .error .indexOutOfRange := by
  simp only [Scanner.blockFor, CheckIfKeyOutOfOrder_pass s key h, Reader.indexAt, hcur]

theorem blockFor_after (s : Scanner) (key : List Byte) (cur : Block) (h : s.InOrder key)
    (hcur : s.reader.index[s.idx]? = some cur) (hafter : cur.IsAfter key = true) :
    s.blockFor key = .ok ((none, none, false), { s with lastKey := some key }) := by
  simp only [Scanner.blockFor, CheckIfKeyOutOfOrder_pass s key h, Reader.indexAt, hcur, hafter,
    if_true]

theorem blockFor_reuse (s : Scanner) (key : List Byte) (cur : Block) (b : BytesReader)
    (h : s.InOrder key) (hcur : s.reader.index[s.idx]? = some cur)
    (hafter : cur.IsAfter key = false) (hfind : s.findBlock key = .ok s.idx)
    (hbuf : s.buf = some b) :
    s.blockFor key = .ok ((some b, none, true), { s with lastKey := some key }) := by
  have hf : ({ s with lastKey := some key } : Scanner).findBlock key = .ok s.idx := hfind
  have hnl : ¬ (s.idx ≠ s.idx ∨ s.buf = none) := by simp [hbuf]
  simp only [Scanner.blockFor, CheckIfKeyOutOfOrder_pass s key h, Reader.indexAt, hcur, hafter,
    hf]
  rw [if_neg (by simp), if_neg hnl, hbuf]

theorem blockFor_load_error (s : Scanner) (key : List Byte) (cur : Block) (j : Nat) (e : Error)
    (h : s.InOrder key) (hcur : s.reader.index[s.idx]? = some cur)
    (hafter : cur.IsAfter key = false) (hfind : s.findBlock key = .ok j)
    (hload : j ≠ s.idx ∨ s.buf = none) (hblk : s.reader.blocks j = .error e) :
    s.blockFor key = .ok ((none, some e, false),
      { s with lastKey := some key,
               reader := { s.reader with fetched := s.reader.fetched ++ [j] } }) := by
  have hf : ({ s with lastKey := some key } : Scanner).findBlock key = .ok j := hfind
  simp only [Scanner.blockFor, CheckIfKeyOutOfOrder_pass s key h, Reader.indexAt, hcur, hafter,
    hf, Reader.GetBlock, hblk]
  rw [if_neg (by simp), if_pos hload]

theorem blockFor_load_ok (s : Scanner) (key : List Byte) (cur : Block) (j : Nat)
    (data : BytesReader)
    (h : s.InOrder key) (hcur : s.reader.index[s.idx]? = some cur)
    (hafter : cur.IsAfter key = false) (hfind : s.findBlock key = .ok j)
    (hload : j ≠ s.idx ∨ s.buf = none) (hblk : s.reader.blocks j = .ok data) :
    s.blockFor key = .ok ((some data, none, true),
      { s with lastKey := some key,
               reader := { s.reader with fetched := s.reader.fetched ++ [j] },
               idx := j, buf := some data }) := by
  have hf : ({ s with lastKey := some key } : Scanner).findBlock key = .ok j := hfind
  simp only [Scanner.blockFor, CheckIfKeyOutOfOrder_pass s key h, Reader.indexAt, hcur, hafter,
    hf, Reader.GetBlock, hblk]
  rw [if_neg (by simp), if_pos hload]

/-- Every way `blockFor` can end when the current block is in range. -/
theorem blockFor_cases (s : Scanner) (key : List Byte) (cur : Block)
    (hcur : s.reader.index[s.idx]? = some cur) :
    (∃ last, s.lastKey = some last ∧ bytesCompare last key > 0 ∧
      s.blockFor key = .ok ((none, some (.outOfOrder last key), false), s)) ∨
    (s.InOrder key ∧
      ((cur.IsAfter key = true ∧
          s.blockFor key = .ok ((none, none, false), { s with lastKey := some key })) ∨
       (cur.IsAfter key = false ∧ ∃ j, s.findBlock key = .ok j ∧ s.idx ≤ j ∧
          j < s.reader.index.length ∧
          ((j = s.idx ∧ ∃ b, s.buf = some b ∧
              s.blockFor key = .ok ((some b, none, true), { s with lastKey := some key })) ∨
           ((j ≠ s.idx ∨ s.buf = none) ∧
              ((∃ e, s.reader.blocks j = .error e ∧
                  s.blockFor key = .ok ((none, some e, false),
                    { s with lastKey := some key,
                             reader := { s.reader with fetched := s.reader.fetched ++ [j] } })) ∨
               (∃ data, s.reader.blocks j = .ok data ∧
                  s.blockFor key = .ok ((some data, none, true),
                    { s with lastKey := some key,
                             reader := { s.reader with fetched := s.reader.fetched ++ [j] },
                             idx := j, buf := some data })))))))) := by
  rcases guard_cases s key with ⟨last, hl, hgt⟩ | hin
  · exact Or.inl ⟨last, hl, hgt, blockFor_outOfOrder s key last hl hgt⟩
  · refine Or.inr ⟨hin, ?_⟩
    cases hafter : cur.IsAfter key with
    | true => exact Or.inl ⟨rfl, blockFor_after s key cur hin hcur hafter⟩
    | false =>
      refine Or.inr ⟨rfl, ?_⟩
      have hidx : s.idx < s.reader.index.length := (List.getElem?_eq_some_iff.mp hcur).1
      obtain ⟨j, hj, hle, hlt, _, _⟩ := findBlock_spec s key hidx
      refine ⟨j, hj, hle, hlt, ?_⟩
      by_cases hload : j ≠ s.idx ∨ s.buf = none
      · refine Or.inr ⟨hload, ?_⟩
        cases hblk : s.reader.blocks j with
        | error e =>
          exact Or.inl ⟨e, rfl, blockFor_load_error s key cur j e hin hcur hafter hj hload hblk⟩
        | ok data =>
          exact Or.inr ⟨data, rfl, blockFor_load_ok s key cur j data hin hcur hafter hj hload hblk⟩
      · have hj2 : j = s.idx := by
          by_contra hne
          exact hload (Or.inl hne)
        have hnn : s.buf ≠ none := fun hn => hload (Or.inr hn)
        obtain ⟨b, hbuf⟩ := Option.ne_none_iff_exists'.mp hnn
        rw [hj2] at hj
        exact Or.inl ⟨hj2, b, hbuf, blockFor_reuse s key cur b hin hcur hafter hj hbuf⟩

theorem GetFirst_of_not_ok (s s1 : Scanner) (key : List Byte) (d : Option BytesReader)
    (err : Option Error) (h : s.blockFor key = .ok ((d, err, false), s1)) :
    s.GetFirst key = .ok ((none, err, false), s1) := by
  simp [Scanner.GetFirst, h]

theorem GetAll_of_not_ok (s s1 : Scanner) (key : List Byte) (d : Option BytesReader)
    (err : Option Error) (h : s.blockFor key = .ok ((d, err, false), s1)) :
    s.GetAll key = .ok (([], err), s1) := by
  simp [Scanner.GetAll, h]

theorem GetFirst_of_scan (s s1 : Scanner) (key : List Byte) (b b2 : BytesReader)
    (err : Option Error) (v : Option (List Byte)) (a : List (List Byte)) (f : Bool)
    (h : s.blockFor key = .ok ((some b, err, true), s1))
    (hscan : getValuesFromBuffer b key true = .ok ((v, a, f), b2)) :
    s.GetFirst key = .ok ((v, none, f), { s1 with buf := some b2 }) := by
  simp [Scanner.GetFirst, h, hscan]

theorem GetAll_of_scan (s s1 : Scanner) (key : List Byte) (b b2 : BytesReader)
    (err : Option Error) (v : Option (List Byte)) (a : List (List Byte)) (f : Bool)
    (h : s.blockFor key = .ok ((some b, err, true), s1))
    (hscan : getValuesFromBuffer b key false = .ok ((v, a, f), b2)) :
    s.GetAll key = .ok ((a, err), { s1 with buf := some b2 }) := by
  simp [Scanner.GetAll, h, hscan]

theorem GetFirst_inv (s s2 : Scanner) (key : List Byte)
    (r : Option (List Byte) × Option Error × Bool) (h : s.GetFirst key = .ok (r, s2)) :
    ∃ d err ok s1, s.blockFor key = .ok ((d, err, ok), s1) ∧ s2.reader = s1.reader ∧
      s2.idx = s1.idx ∧ s2.lastKey = s1.lastKey ∧ (ok = false → s2 = s1 ∧ r = (none, err, false)) := by
  unfold Scanner.GetFirst at h
  rcases hb : s.blockFor key with e | ⟨⟨d, err, ok⟩, s1⟩
  · rw [hb] at h
    cases h
  · rw [hb] at h
    refine ⟨d, err, ok, s1, rfl, ?_⟩
    cases ok with
    | false =>
      simp only [Bool.not_false, if_true, Except.ok.injEq, Prod.mk.injEq] at h
      obtain ⟨h1, h2⟩ := h
      subst h2
      exact ⟨rfl, rfl, rfl, fun _ => ⟨rfl, h1.symm⟩⟩
    | true =>
      cases d with
      | none => simp at h
      | some b =>
        obtain ⟨⟨v, a, f⟩, b2, hscan, _⟩ := getValuesFromBuffer_total b key true
        simp only [Bool.not_true, Bool.false_eq_true, if_false, hscan, Except.ok.injEq,
          Prod.mk.injEq] at h
        obtain ⟨_, h2⟩ := h
        subst h2
        exact ⟨rfl, rfl, rfl, fun hf => by cases hf⟩

theorem GetAll_inv (s s2 : Scanner) (key : List Byte)
    (r : List (List Byte) × Option Error) (h : s.GetAll key = .ok (r, s2)) :
    ∃ d err ok s1, s.blockFor key = .ok ((d, err, ok), s1) ∧ s2.reader = s1.reader ∧
      s2.idx = s1.idx ∧ s2.lastKey = s1.lastKey ∧ (ok = false → s2 = s1 ∧ r = ([], err)) := by
  unfold Scanner.GetAll at h
  rcases hb : s.blockFor key with e | ⟨⟨d, err, ok⟩, s1⟩
  · rw [hb] at h
    cases h
  · rw [hb] at h
    refine ⟨d, err, ok, s1, rfl, ?_⟩
    cases ok with
    | false =>
      simp only [Bool.not_false, if_true, Except.ok.injEq, Prod.mk.injEq] at h
      obtain ⟨h1, h2⟩ := h
      subst h2
      exact ⟨rfl, rfl, rfl, fun _ => ⟨rfl, h1.symm⟩⟩
    | true =>
      cases d with
      | none => simp at h
      | some b =>
        obtain ⟨⟨v, a, f⟩, b2, hscan, _⟩ := getValuesFromBuffer_total b key false
        simp only [Bool.not_true, Bool.false_eq_true, if_false, hscan, Except.ok.injEq,
          Prod.mk.injEq] at h
        obtain ⟨_, h2⟩ := h
        subst h2
        exact ⟨rfl, rfl, rfl, fun hf => by cases hf⟩

/-- After a `blockFor` that returns, a last key is recorded and it is not
below the queried key. -/
theorem blockFor_lastKey (s s1 : Scanner) (key : List Byte)
    (r : Option BytesReader × Option Error × Bool) (h : s.blockFor key = .ok (r, s1)) :
    ∃ last, s1.lastKey = some last ∧ bytesCompare last key ≥ 0 := by
  rcases guard_cases s key with ⟨last, hl, hgt⟩ | hin
  · rw [blockFor_outOfOrder s key last hl hgt] at h
    cases h
    exact ⟨last, hl, le_of_lt hgt⟩
  · have hself : bytesCompare key key ≥ 0 := by rw [bytesCompare_self]
    cases hcur : s.reader.index[s.idx]? with
    | none =>
      rw [blockFor_panic s key hin hcur] at h
      cases h
    | some cur =>
      rcases blockFor_cases s key cur hcur with ⟨last, hl, hgt, _⟩ | ⟨_, hrest⟩
      · exact absurd hgt (hin last hl)
      · rcases hrest with ⟨_, hb⟩ | ⟨_, j, _, _, _, ⟨_, b, _, hb⟩ | ⟨_, ⟨e, _, hb⟩ | ⟨data, _, hb⟩⟩⟩ <;>
        · rw [hb] at h
          cases h
          exact ⟨key, rfl, hself⟩

/-! ## Order enforcement and failure atomicity -/

theorem GetFirst_lastKey (s s1 : Scanner) (key : List Byte)
    (r : Option (List Byte) × Option Error × Bool) (h : s.GetFirst key = .ok (r, s1)) :
    ∃ last, s1.lastKey = some last ∧ bytesCompare last key ≥ 0 := by
  obtain ⟨d, err, ok, s0, hb, _, _, hl, _⟩ := GetFirst_inv s s1 key r h
  rw [hl]
  exact blockFor_lastKey s s0 key _ hb

theorem GetAll_lastKey (s s1 : Scanner) (key : List Byte)
    (r : List (List Byte) × Option Error) (h : s.GetAll key = .ok (r, s1)) :
    ∃ last, s1.lastKey = some last ∧ bytesCompare last key ≥ 0 := by
  obtain ⟨d, err, ok, s0, hb, _, _, hl, _⟩ := GetAll_inv s s1 key r h
  rw [hl]
  exact blockFor_lastKey s s0 key _ hb

/-- On the bytes the scanner reads (the caller's key slices not overwritten
between the calls): after any lookup (`GetFirst` or `GetAll`) with key `k1`
that leaves the scanner in state `s1`, a lookup (`GetFirst` or `GetAll`) with a
key `k2 < k1` returns an out-of-order error and leaves the scanner exactly in
state `s1`. -/
theorem outOfOrder_second_call (s s1 : Scanner) (k1 k2 : List Byte)
    (hfirst : (∃ r, s.GetFirst k1 = .ok (r, s1)) ∨ (∃ r, s.GetAll k1 = .ok (r, s1)))
    (hgt : bytesCompare k1 k2 > 0) :
    ∃ last, bytesCompare last k2 > 0 ∧
      s1.GetFirst k2 = .ok ((none, some (.outOfOrder last k2), false), s1) ∧
      s1.GetAll k2 = .ok (([], some (.outOfOrder last k2)), s1) := by
  have hlast : ∃ last, s1.lastKey = some last ∧ bytesCompare last k1 ≥ 0 := by
    rcases hfirst with ⟨r, h⟩ | ⟨r, h⟩
    · exact GetFirst_lastKey s s1 k1 r h
    · exact GetAll_lastKey s s1 k1 r h
  obtain ⟨last, hl, hge⟩ := hlast
  have h21 : bytesCompare k2 k1 < 0 := (bytesCompare_gt_iff k1 k2).mp hgt
  have h1l : bytesCompare k1 last ≤ 0 := by
    have := bytesCompare_swap last k1
    omega
  have h2l : bytesCompare last k2 > 0 :=
    (bytesCompare_gt_iff last k2).mpr (bytesCompare_lt_of_lt_of_le h21 h1l)
  have hb := blockFor_outOfOrder s1 k2 last hl h2l
  exact ⟨last, h2l, GetFirst_of_not_ok s1 s1 k2 none _ hb, GetAll_of_not_ok s1 s1 k2 none _ hb⟩

/-- An instance on the worked example: `GetFirst("t")` on the fresh example
scanner, then key "m". -/
theorem outOfOrder_second_call_witness :
    ((∃ r, (NewScanner exampleReader).GetFirst [116] = .ok (r, exampleScannerAt 30 [116])) ∨
      (∃ r, (NewScanner exampleReader).GetAll [116] = .ok (r, exampleScannerAt 30 [116]))) ∧
    bytesCompare [116] [109] > 0 ∧
    ∃ last, bytesCompare last [109] > 0 ∧
      (exampleScannerAt 30 [116]).GetFirst [109]
        = .ok ((none, some (.outOfOrder last [109]), false), exampleScannerAt 30 [116]) ∧
      (exampleScannerAt 30 [116]).GetAll [109]
        = .ok (([], some (.outOfOrder last [109])), exampleScannerAt 30 [116]) :=
  ⟨Or.inl ⟨_, rfl⟩, by decide,
    outOfOrder_second_call (NewScanner exampleReader) (exampleScannerAt 30 [116]) [116] [109]
      (Or.inl ⟨_, rfl⟩) (by decide)⟩

/-- Counterexample of C4: on the fresh scanner over a Store whose blocks fail to
load, the order guard passes for "m", `GetBlock(1)` fails, `GetFirst` and
`GetAll` return that error, and the last queried key is no longer the one
before the call (it was unset, it is "m"). -/
theorem blockRead_failure_changes_lastKey :
    (NewScanner failingReader).InOrder [109] ∧
    (NewScanner failingReader).findBlock [109] = .ok 1 ∧
    failingReader.blocks 1 = .error (.store 1) ∧
    (NewScanner failingReader).GetFirst [109]
      = .ok ((none, some (.store 1), false), failedScanner) ∧
    (NewScanner failingReader).GetAll [109] = .ok (([], some (.store 1)), failedScanner) ∧
    (NewScanner failingReader).lastKey = none ∧
    failedScanner.lastKey = some [109] ∧
    failedScanner.lastKey ≠ (NewScanner failingReader).lastKey :=
  ⟨by decide, rfl, rfl, rfl, rfl, rfl, rfl, by decide⟩

/-- C4 (amended): when the order guard passes and the `GetBlock` call that
`blockFor` makes (the key resolves to a block `j` that is not the loaded one)
returns an error, `GetFirst` and `GetAll` return that same error with no value,
and the block index and the loaded buffer are those before the call; the last
queried key is the queried key, and the index is untouched. -/
theorem blockRead_failure_keeps_block (s : Scanner) (key : List Byte) (j : Nat) (e : Error)
    (hin : s.InOrder key) (hres : ResolvesTo s.reader.index s.idx key j)
    (hload : j ≠ s.idx ∨ s.buf = none) (hblk : (s.reader.GetBlock j).1 = .error e) :
    ∃ s1, s.GetFirst key = .ok ((none, some e, false), s1) ∧
      s.GetAll key = .ok (([], some e), s1) ∧
      s1.idx = s.idx ∧ s1.buf = s.buf ∧ s1.lastKey = some key ∧
      s1.reader.index = s.reader.index := by
  obtain ⟨cur, hcur, hafter, hfind⟩ := hres
  have hb := blockFor_load_error s key cur j e hin hcur hafter (hfind s rfl rfl) hload hblk
  exact ⟨_, GetFirst_of_not_ok s _ key none _ hb, GetAll_of_not_ok s _ key none _ hb,
    rfl, rfl, rfl, rfl⟩

/-- Witness of C4 (amended): the fresh scanner over the failing Store, key "m". -/
theorem blockRead_failure_keeps_block_witness :
    ∃ s1, (NewScanner failingReader).GetFirst [109] = .ok ((none, some (.store 1), false), s1) ∧
      (NewScanner failingReader).GetAll [109] = .ok (([], some (.store 1)), s1) ∧
      s1.idx = (NewScanner failingReader).idx ∧ s1.buf = (NewScanner failingReader).buf ∧
      s1.lastKey = some [109] ∧
      s1.reader.index = (NewScanner failingReader).reader.index :=
  blockRead_failure_keeps_block (NewScanner failingReader) [109] 1 (.store 1)
    (by decide)
    (resolvesTo_of_findBlock (NewScanner failingReader) [109] ⟨[97]⟩ 1 (by decide) (by decide)
      rfl)
    (by decide) rfl

/-! ## The block index never decreases -/

theorem blockFor_total (s : Scanner) (key : List Byte) (hidx : s.idx < s.reader.index.length) :
    ∃ d err ok s1, s.blockFor key = .ok ((d, err, ok), s1) ∧ s.idx ≤ s1.idx ∧
      s1.idx < s1.reader.index.length ∧ s1.reader.index = s.reader.index ∧
      (ok = true → ∃ b, d = some b ∧ s1.buf = some b ∧ err = none) := by
  rcases blockFor_cases s key _ (List.getElem?_eq_getElem hidx) with
    ⟨last, _, _, hb⟩ | ⟨_, ⟨_, hb⟩ | ⟨_, j, _, hle, hlt, ⟨_, b, hbuf, hb⟩ |
      ⟨_, ⟨e, _, hb⟩ | ⟨data, _, hb⟩⟩⟩⟩
  · exact ⟨_, _, _, _, hb, le_refl _, hidx, rfl, fun h => by cases h⟩
  · exact ⟨_, _, _, _, hb, le_refl _, hidx, rfl, fun h => by cases h⟩
  · exact ⟨_, _, _, _, hb, le_refl _, hidx, rfl, fun _ => ⟨b, rfl, hbuf, rfl⟩⟩
  · exact ⟨_, _, _, _, hb, le_refl _, hidx, rfl, fun h => by cases h⟩
  · exact ⟨_, _, _, _, hb, hle, hlt, rfl, fun _ => ⟨data, rfl, rfl, rfl⟩⟩

/-- C10: for every index, every scanner state with `idx < len(index)`, every
key and every Store, `GetFirst` and `GetAll` return and leave a block index
that is not below the one before the call; `Reset` sets it to 0. -/
theorem idx_never_decreases (s : Scanner) (key : List Byte)
    (hidx : s.idx < s.reader.index.length) :
    (∃ r s1, s.GetFirst key = .ok (r, s1) ∧ s.idx ≤ s1.idx) ∧
    (∃ r s1, s.GetAll key = .ok (r, s1) ∧ s.idx ≤ s1.idx) ∧
    s.Reset.idx = 0 := by
  obtain ⟨d, err, ok, s1, hb, hle, _, _, hok⟩ := blockFor_total s key hidx
  refine ⟨?_, ?_, rfl⟩
  · cases ok with
    | false => exact ⟨_, _, GetFirst_of_not_ok s s1 key d err hb, hle⟩
    | true =>
      obtain ⟨b, rfl, _, _⟩ := hok rfl
      obtain ⟨⟨v, a, f⟩, b2, hscan, _⟩ := getValuesFromBuffer_total b key true
      exact ⟨_, _, GetFirst_of_scan s s1 key b b2 err v a f hb hscan, hle⟩
  · cases ok with
    | false => exact ⟨_, _, GetAll_of_not_ok s s1 key d err hb, hle⟩
    | true =>
      obtain ⟨b, rfl, _, _⟩ := hok rfl
      obtain ⟨⟨v, a, f⟩, b2, hscan, _⟩ := getValuesFromBuffer_total b key false
      exact ⟨_, _, GetAll_of_scan s s1 key b b2 err v a f hb hscan, hle⟩

/-- Witness of C10: the scanner of the worked example on block 1, key "t". -/
theorem idx_never_decreases_witness :
    (∃ r s1, (exampleScannerAt 0 [109]).GetFirst [116] = .ok (r, s1) ∧
      (exampleScannerAt 0 [109]).idx ≤ s1.idx) ∧
    (∃ r s1, (exampleScannerAt 0 [109]).GetAll [116] = .ok (r, s1) ∧
      (exampleScannerAt 0 [109]).idx ≤ s1.idx) ∧
    (exampleScannerAt 0 [109]).Reset.idx = 0 :=
  idx_never_decreases (exampleScannerAt 0 [109]) [116] (by decide)

/-! ## Scanning a well-formed buffer -/

theorem Len_at_boundary (pre rest : List Byte) :
    (BytesReader.mk (pre ++ rest) pre.length).Len = rest.length := by
  simp only [BytesReader.Len, List.length_append]
  split <;> omega

/-- The `all`-mode scan from a record boundary of a well-formed buffer. -/
theorem getValuesFromBuffer_all (key : List Byte) (done rest : List Record)
    (henc : ∀ r ∈ rest, r.Encodable) :
    getValuesFromBuffer ⟨encodeRecords (done ++ rest), (encodeRecords done).length⟩ key false
      = .ok ((none, valuesOf key (scannedPrefix key rest),
              decide ((valuesOf key (scannedPrefix key rest)).length > 0)),
            ⟨encodeRecords (done ++ rest),
              cursorAfterAll key (encodeRecords done).length rest⟩) := by
  rw [encodeRecords_append]
  unfold getValuesFromBuffer
  rw [Len_at_boundary]
  have h := getValuesLoop_all key rest (encodeRecords done) (encodeRecords rest).length []
    henc (le_refl _)
  simpa using h

/-- The `first`-mode scan from a record boundary of a well-formed buffer. -/
theorem getValuesFromBuffer_first (key : List Byte) (done rest : List Record)
    (henc : ∀ r ∈ rest, r.Encodable) :
    getValuesFromBuffer ⟨encodeRecords (done ++ rest), (encodeRecords done).length⟩ key true
      = .ok (((valuesOf key (scannedPrefix key rest)).head?, [],
              decide (valuesOf key (scannedPrefix key rest) ≠ [])),
            ⟨encodeRecords (done ++ rest),
              cursorAfterFirst key (encodeRecords done).length rest⟩) := by
  rw [encodeRecords_append]
  unfold getValuesFromBuffer
  rw [Len_at_boundary]
  have h := getValuesLoop_first key rest (encodeRecords done) (encodeRecords rest).length []
    henc (le_refl _)
  rw [h]
  cases hv : valuesOf key (scannedPrefix key rest) <;> simp

/-- In a key-sorted block every record with the given key lies in the prefix
the scan walks over. -/
theorem valuesOf_scannedPrefix (key : List Byte) (rs : List Record) (hs : SortedRecords rs) :
    valuesOf key (scannedPrefix key rs) = valuesOf key rs := by
  induction rs with
  | nil => rfl
  | cons r rs ih =>
    have hs2 : SortedRecords rs := (List.pairwise_cons.mp hs).2
    have hall := (List.pairwise_cons.mp hs).1
    by_cases hle : bytesCompare r.key key ≤ 0
    · have ih2 := ih hs2
      simp only [valuesOf, scannedPrefix] at ih2 ⊢
      simp only [List.takeWhile_cons, hle, decide_True, if_true, List.filter_cons]
      split
      · simp only [List.map_cons, ih2]
      · exact ih2
    · have hgt : bytesCompare key r.key < 0 := (bytesCompare_gt_iff r.key key).mp (by omega)
      have hnil : ∀ x ∈ r :: rs, ¬ bytesCompare x.key key = 0 := by
        intro x hx h0
        have hxk : x.key = key := bytesCompare_eq_zero.mp h0
        rcases List.mem_cons.mp hx with rfl | hx2
        · rw [hxk, bytesCompare_self] at hgt
          omega
        · have := bytesCompare_lt_of_lt_of_le hgt (hall x hx2)
          rw [hxk, bytesCompare_self] at this
          omega
      have hfil : (r :: rs).filter (fun x => decide (bytesCompare x.key key = 0)) = [] := by
        rw [List.filter_eq_nil_iff]
        intro x hx
        simpa using hnil x hx
      simp only [valuesOf, scannedPrefix, List.takeWhile_cons, hle, decide_False, hfil]
      simp

/-- C2: on a fresh (new or reset) scanner, when the key `K` resolves to block
`j` and the Store returns for it a well-formed buffer of key-sorted records at
offset 0, `GetAll(K)` returns exactly the values of all records of the block
with key `K`, in order, and `GetFirst(K)` returns the first of them with
`found = true` (no value and `found = false` when there is none). -/
theorem getAll_fresh_block (s : Scanner) (K : List Byte) (j : Nat)
    (recs : List Record) (hfresh : s = NewScanner s.reader)
    (hres : ResolvesTo s.reader.index s.idx K j)
    (hblk : (s.reader.GetBlock j).1 = .ok ⟨encodeRecords recs, 0⟩)
    (henc : ∀ r ∈ recs, r.Encodable) (hsorted : SortedRecords recs) :
    (∃ s1, s.GetAll K = .ok ((valuesOf K recs, none), s1)) ∧
    (∃ s1, s.GetFirst K
      = .ok (((valuesOf K recs).head?, none, decide (valuesOf K recs ≠ [])), s1)) := by
  obtain ⟨cur, hcur, hafter, hfind⟩ := hres
  have hbuf : s.buf = none := by rw [hfresh]; rfl
  have hlk : s.lastKey = none := by rw [hfresh]; rfl
  have hin : s.InOrder K := fun last h => by rw [hlk] at h; cases h
  have hb := blockFor_load_ok s K cur j _ hin hcur hafter (hfind s rfl rfl) (Or.inr hbuf) hblk
  have hall := getValuesFromBuffer_all K [] recs henc
  have hfst := getValuesFromBuffer_first K [] recs henc
  rw [valuesOf_scannedPrefix K recs hsorted] at hall hfst
  exact ⟨⟨_, GetAll_of_scan s _ K _ _ none _ _ _ hb hall⟩,
    ⟨_, GetFirst_of_scan s _ K _ _ none _ _ _ hb hfst⟩⟩

/-- A scanner that has just been reset is a new scanner over its reader. -/
theorem Reset_eq_new (s : Scanner) : s.Reset = NewScanner s.Reset.reader := rfl

/-- Witness of C2: block 1 holds three records with key "m". -/
theorem getAll_fresh_block_witness :
    (∃ s1, (NewScanner tripleReader).GetAll [109]
      = .ok ((valuesOf [109] [⟨[109], [1]⟩, ⟨[109], [2]⟩, ⟨[109], [3]⟩], none), s1)) ∧
    (∃ s1, (NewScanner tripleReader).GetFirst [109]
      = .ok (((valuesOf [109] [⟨[109], [1]⟩, ⟨[109], [2]⟩, ⟨[109], [3]⟩]).head?, none,
          decide (valuesOf [109] [⟨[109], [1]⟩, ⟨[109], [2]⟩, ⟨[109], [3]⟩] ≠ [])), s1)) ∧
    valuesOf [109] [⟨[109], [1]⟩, ⟨[109], [2]⟩, ⟨[109], [3]⟩] = [[1], [2], [3]] :=
  ⟨(getAll_fresh_block (NewScanner tripleReader) [109] 1
      [⟨[109], [1]⟩, ⟨[109], [2]⟩, ⟨[109], [3]⟩] rfl
      (resolvesTo_of_findBlock (NewScanner tripleReader) [109] ⟨[97]⟩ 1 (by decide) (by decide)
        rfl)
      rfl (by decide) (by decide)).1,
   (getAll_fresh_block (NewScanner tripleReader) [109] 1
      [⟨[109], [1]⟩, ⟨[109], [2]⟩, ⟨[109], [3]⟩] rfl
      (resolvesTo_of_findBlock (NewScanner tripleReader) [109] ⟨[97]⟩ 1 (by decide) (by decide)
        rfl)
      rfl (by decide) (by decide)).2,
   by decide⟩

/-! ## Resolution on a sorted index -/

/-- On a strictly increasing index, a key that lies between the first key of
block `j` and the first key of block `j + 1` resolves to block `j` from any
current block at or before `j`. -/
theorem findBlock_eq_of_bounds (s : Scanner) (key : List Byte) (j : Nat) (bj : Block)
    (hsorted : StrictlyIncreasing s.reader.index) (hle : s.idx ≤ j)
    (hbj : s.reader.index[j]? = some bj) (hlow : bytesCompare bj.firstKeyBytes key ≤ 0)
    (hhigh : ∀ b, s.reader.index[j + 1]? = some b → bytesCompare b.firstKeyBytes key > 0) :
    s.findBlock key = .ok j ∧
      ∃ cur, s.reader.index[s.idx]? = some cur ∧ cur.IsAfter key = false := by
  have hjlt : j < s.reader.index.length := (List.getElem?_eq_some_iff.mp hbj).1
  have hidx : s.idx < s.reader.index.length := by omega
  have hcur := List.getElem?_eq_getElem hidx
  have hcurle : bytesCompare (s.reader.index[s.idx]).firstKeyBytes key ≤ 0 :=
    bytesCompare_le_trans (strictlyIncreasing_le hsorted hle hcur hbj) hlow
  obtain ⟨j2, hfind, hle2, hlt2, hnot, hnext⟩ := findBlock_spec s key hidx
  have h1 : ¬ j2 < j := by
    intro hlt
    have hj1 : j2 + 1 < s.reader.index.length := by omega
    have hafter := (isAfter_iff _ _).mp (hnext _ (List.getElem?_eq_getElem hj1))
    have hle3 := strictlyIncreasing_le hsorted (show j2 + 1 ≤ j by omega)
      (List.getElem?_eq_getElem hj1) hbj
    have := bytesCompare_le_trans hle3 hlow
    omega
  have h2 : ¬ j < j2 := by
    intro hgt
    have hj1 : j + 1 < s.reader.index.length := by omega
    have hafter := hhigh _ (List.getElem?_eq_getElem hj1)
    have hb2 := List.getElem?_eq_getElem hlt2
    have hle3 := strictlyIncreasing_le hsorted (show j + 1 ≤ j2 by omega)
      (List.getElem?_eq_getElem hj1) hb2
    have hle4 := (isAfter_false_iff _ _).mp (hnot (by omega) _ hb2)
    have := bytesCompare_le_trans hle3 hle4
    omega
  have hjj : j2 = j := by omega
  rw [hjj] at hfind
  exact ⟨hfind, _, hcur, (isAfter_false_iff _ _).mpr hcurle⟩

/-- C9: on a strictly increasing index, for a block `j` at or after the
current block and the key equal to the first key of block `j`, with the order
guard passing and the Store succeeding on block `j`, the lookup selects block
`j`: after `blockFor`, `GetFirst` or `GetAll` the block index is `j` and the
loaded buffer holds the bytes of block `j`. -/
theorem block_boundary (s : Scanner) (j : Nat) (bj : Block) (data : BytesReader)
    (hsorted : StrictlyIncreasing s.reader.index) (hle : s.idx ≤ j)
    (hbj : s.reader.index[j]? = some bj) (hin : s.InOrder bj.firstKeyBytes)
    (hstore : (s.reader.GetBlock j).1 = .ok data) (hcons : s.Consistent) :
    (∃ d s1, s.blockFor bj.firstKeyBytes = .ok ((some d, none, true), s1) ∧
      s1.idx = j ∧ s1.buf = some d ∧ d.s = data.s) ∧
    (∃ r d s1, s.GetFirst bj.firstKeyBytes = .ok (r, s1) ∧
      s1.idx = j ∧ s1.buf = some d ∧ d.s = data.s) ∧
    (∃ r d s1, s.GetAll bj.firstKeyBytes = .ok (r, s1) ∧
      s1.idx = j ∧ s1.buf = some d ∧ d.s = data.s) := by
  have hhigh : ∀ b, s.reader.index[j + 1]? = some b →
      bytesCompare b.firstKeyBytes bj.firstKeyBytes > 0 := fun b hb =>
    (bytesCompare_gt_iff _ _).mpr (strictlyIncreasing_lt hsorted (Nat.lt_succ_self j) hbj hb)
  obtain ⟨hfind, cur, hcur, hafter⟩ := findBlock_eq_of_bounds s bj.firstKeyBytes j bj hsorted hle
    hbj (by rw [bytesCompare_self]) hhigh
  have hblock : ∃ d s1, s.blockFor bj.firstKeyBytes = .ok ((some d, none, true), s1) ∧
      s1.idx = j ∧ s1.buf = some d ∧ d.s = data.s := by
    by_cases hload : j ≠ s.idx ∨ s.buf = none
    · exact ⟨_, _, blockFor_load_ok s _ cur j data hin hcur hafter hfind hload hstore,
        rfl, rfl, rfl⟩
    · have hj : j = s.idx := by
        by_contra hne
        exact hload (Or.inl hne)
      have hnn : s.buf ≠ none := fun hn => hload (Or.inr hn)
      obtain ⟨b, hbuf⟩ := Option.ne_none_iff_exists'.mp hnn
      obtain ⟨d0, hd0, hbs⟩ := hcons b hbuf
      have hdata : d0 = data := by
        have h2 : s.reader.blocks s.idx = .ok data := by rw [← hj]; exact hstore
        rw [hd0] at h2
        cases h2
        rfl
      rw [hj] at hfind
      exact ⟨b, _, blockFor_reuse s _ cur b hin hcur hafter hfind hbuf, hj.symm, hbuf,
        by rw [hbs, hdata]⟩
  obtain ⟨d, s1, hb, hi, _, hds⟩ := hblock
  refine ⟨⟨d, s1, hb, hi, by assumption, hds⟩, ?_, ?_⟩
  · obtain ⟨⟨v, a, f⟩, d2, hscan, hs2⟩ := getValuesFromBuffer_total d bj.firstKeyBytes true
    exact ⟨_, d2, _, GetFirst_of_scan s s1 _ d d2 none v a f hb hscan, hi, rfl, by rw [hs2, hds]⟩
  · obtain ⟨⟨v, a, f⟩, d2, hscan, hs2⟩ := getValuesFromBuffer_total d bj.firstKeyBytes false
    exact ⟨_, d2, _, GetAll_of_scan s s1 _ d d2 none v a f hb hscan, hi, rfl, by rw [hs2, hds]⟩

/-- Witness of C9: the fresh scanner of the worked example and block 1, whose
first key is "m". -/
theorem block_boundary_witness :
    (∃ d s1, (NewScanner exampleReader).blockFor (Block.mk [109]).firstKeyBytes
        = .ok ((some d, none, true), s1) ∧
      s1.idx = 1 ∧ s1.buf = some d ∧
      d.s = (BytesReader.mk (encodeRecords exampleRecords) 0).s) ∧
    (∃ r d s1, (NewScanner exampleReader).GetFirst (Block.mk [109]).firstKeyBytes = .ok (r, s1) ∧
      s1.idx = 1 ∧ s1.buf = some d ∧
      d.s = (BytesReader.mk (encodeRecords exampleRecords) 0).s) ∧
    (∃ r d s1, (NewScanner exampleReader).GetAll (Block.mk [109]).firstKeyBytes = .ok (r, s1) ∧
      s1.idx = 1 ∧ s1.buf = some d ∧
      d.s = (BytesReader.mk (encodeRecords exampleRecords) 0).s) :=
  block_boundary (NewScanner exampleReader) 1 ⟨[109]⟩ ⟨encodeRecords exampleRecords, 0⟩
    (by decide) (by decide) (by decide) (by decide) rfl (fun b h => by cases h)

/-! ## The loaded buffer holds the current block -/

theorem consistent_new (r : Reader) : (NewScanner r).Consistent := fun b h => by cases h

theorem consistent_Reset (s : Scanner) : s.Reset.Consistent := fun b h => by cases h

theorem blockFor_consistent (s s1 : Scanner) (key : List Byte)
    (r : Option BytesReader × Option Error × Bool) (hc : s.Consistent)
    (h : s.blockFor key = .ok (r, s1)) :
    s1.Consistent ∧ (r.2.2 = true → ∃ b, r.1 = some b ∧ s1.buf = some b) := by
  rcases guard_cases s key with ⟨last, hl, hgt⟩ | hin
  · rw [blockFor_outOfOrder s key last hl hgt] at h
    cases h
    exact ⟨hc, fun hf => by cases hf⟩
  · cases hcur : s.reader.index[s.idx]? with
    | none =>
      rw [blockFor_panic s key hin hcur] at h
      cases h
    | some cur =>
      rcases blockFor_cases s key cur hcur with ⟨last, hl, hgt, _⟩ | ⟨_, hrest⟩
      · exact absurd hgt (hin last hl)
      · rcases hrest with ⟨_, hb⟩ | ⟨_, j, _, _, _, ⟨_, b, hbuf, hb⟩ |
          ⟨_, ⟨e, _, hb⟩ | ⟨data, hdata, hb⟩⟩⟩
        · rw [hb] at h
          cases h
          exact ⟨hc, fun hf => by cases hf⟩
        · rw [hb] at h
          cases h
          exact ⟨hc, fun _ => ⟨b, rfl, hbuf⟩⟩
        · rw [hb] at h
          cases h
          exact ⟨hc, fun hf => by cases hf⟩
        · rw [hb] at h
          cases h
          refine ⟨?_, fun _ => ⟨data, rfl, rfl⟩⟩
          intro b hbeq
          cases hbeq
          exact ⟨data, hdata, rfl⟩

theorem GetFirst_consistent (s s2 : Scanner) (key : List Byte)
    (r : Option (List Byte) × Option Error × Bool) (hc : s.Consistent)
    (h : s.GetFirst key = .ok (r, s2)) : s2.Consistent := by
  rcases hb : s.blockFor key with e | ⟨⟨d, err, ok⟩, s1⟩
  · simp [Scanner.GetFirst, hb] at h
  · obtain ⟨hc1, hok⟩ := blockFor_consistent s s1 key _ hc hb
    cases ok with
    | false =>
      rw [GetFirst_of_not_ok s s1 key d err hb] at h
      cases h
      exact hc1
    | true =>
      obtain ⟨b, hd, hbuf⟩ := hok rfl
      simp only at hd
      subst hd
      obtain ⟨⟨v, a, f⟩, b2, hscan, hs2⟩ := getValuesFromBuffer_total b key true
      rw [GetFirst_of_scan s s1 key b b2 err v a f hb hscan] at h
      cases h
      intro b3 hb3
      cases hb3
      obtain ⟨d0, hd0, hbs⟩ := hc1 b hbuf
      exact ⟨d0, hd0, by rw [hs2, hbs]⟩

theorem GetAll_consistent (s s2 : Scanner) (key : List Byte)
    (r : List (List Byte) × Option Error) (hc : s.Consistent)
    (h : s.GetAll key = .ok (r, s2)) : s2.Consistent := by
  rcases hb : s.blockFor key with e | ⟨⟨d, err, ok⟩, s1⟩
  · simp [Scanner.GetAll, hb] at h
  · obtain ⟨hc1, hok⟩ := blockFor_consistent s s1 key _ hc hb
    cases ok with
    | false =>
      rw [GetAll_of_not_ok s s1 key d err hb] at h
      cases h
      exact hc1
    | true =>
      obtain ⟨b, hd, hbuf⟩ := hok rfl
      simp only at hd
      subst hd
      obtain ⟨⟨v, a, f⟩, b2, hscan, hs2⟩ := getValuesFromBuffer_total b key false
      rw [GetAll_of_scan s s1 key b b2 err v a f hb hscan] at h
      cases h
      intro b3 hb3
      cases hb3
      obtain ⟨d0, hd0, hbs⟩ := hc1 b hbuf
      exact ⟨d0, hd0, by rw [hs2, hbs]⟩

/-! ## Sequential locality -/

/-- A lookup on a scanner that holds the buffer of the block the key resolves
to: no fetch, same block, buffer still loaded, the key recorded. -/
theorem step_loaded (s : Scanner) (q : Query) (cur : Block) (b : BytesReader)
    (hbuf : s.buf = some b) (hin : s.InOrder q.key)
    (hcur : s.reader.index[s.idx]? = some cur) (hafter : cur.IsAfter q.key = false)
    (hfind : s.findBlock q.key = .ok s.idx) :
    ∃ s1 b1, s.step q = .ok s1 ∧ s1.reader = s.reader ∧ s1.idx = s.idx ∧
      s1.buf = some b1 ∧ s1.lastKey = some q.key := by
  have hb := blockFor_reuse s q.key cur b hin hcur hafter hfind hbuf
  cases hq : q.first with
  | true =>
    obtain ⟨⟨v, a, f⟩, b2, hscan, _⟩ := getValuesFromBuffer_total b q.key true
    refine ⟨{ s with lastKey := some q.key, buf := some b2 }, b2, ?_, rfl, rfl, rfl, rfl⟩
    simp [Scanner.step, hq, GetFirst_of_scan s _ q.key b b2 none v a f hb hscan]
  | false =>
    obtain ⟨⟨v, a, f⟩, b2, hscan, _⟩ := getValuesFromBuffer_total b q.key false
    refine ⟨{ s with lastKey := some q.key, buf := some b2 }, b2, ?_, rfl, rfl, rfl, rfl⟩
    simp [Scanner.step, hq, GetAll_of_scan s _ q.key b b2 none v a f hb hscan]

/-- A lookup that has to load block `j` and gets it from the Store: one fetch
of `j`. -/
theorem step_load (s : Scanner) (q : Query) (cur : Block) (j : Nat) (data : BytesReader)
    (hin : s.InOrder q.key) (hcur : s.reader.index[s.idx]? = some cur)
    (hafter : cur.IsAfter q.key = false) (hfind : s.findBlock q.key = .ok j)
    (hload : j ≠ s.idx ∨ s.buf = none) (hblk : s.reader.blocks j = .ok data) :
    ∃ s1 b1, s.step q = .ok s1 ∧ s1.reader.fetched = s.reader.fetched ++ [j] ∧
      s1.reader.index = s.reader.index ∧ s1.idx = j ∧ s1.buf = some b1 ∧
      s1.lastKey = some q.key := by
  have hb := blockFor_load_ok s q.key cur j data hin hcur hafter hfind hload hblk
  cases hq : q.first with
  | true =>
    obtain ⟨⟨v, a, f⟩, b2, hscan, _⟩ := getValuesFromBuffer_total data q.key true
    refine ⟨{ s with lastKey := some q.key,
                     reader := { s.reader with fetched := s.reader.fetched ++ [j] },
                     idx := j, buf := some b2 }, b2, ?_, rfl, rfl, rfl, rfl, rfl⟩
    simp [Scanner.step, hq, GetFirst_of_scan s _ q.key data b2 none v a f hb hscan]
  | false =>
    obtain ⟨⟨v, a, f⟩, b2, hscan, _⟩ := getValuesFromBuffer_total data q.key false
    refine ⟨{ s with lastKey := some q.key,
                     reader := { s.reader with fetched := s.reader.fetched ++ [j] },
                     idx := j, buf := some b2 }, b2, ?_, rfl, rfl, rfl, rfl, rfl⟩
    simp [Scanner.step, hq, GetAll_of_scan s _ q.key data b2 none v a f hb hscan]

/-- An ascending sequence of lookups whose keys all resolve to the block whose
buffer is loaded makes no fetch. -/
theorem run_loaded (j : Nat) :
    ∀ (qs : List Query) (s : Scanner), s.idx = j → s.buf ≠ none →
      (∀ x ∈ qs, s.InOrder x.key) →
      (qs.map Query.key).Pairwise (fun a b => bytesCompare a b ≤ 0) →
      (∀ x ∈ qs, ResolvesTo s.reader.index j x.key j) →
      ∃ s2, s.run qs = .ok s2 ∧ s2.reader = s.reader ∧ s2.idx = j ∧ s2.buf ≠ none := by
  intro qs
  induction qs with
  | nil =>
    intro s hidx hbuf _ _ _
    exact ⟨s, rfl, rfl, hidx, hbuf⟩
  | cons q qs ih =>
    intro s hidx hbuf hin hasc hres
    obtain ⟨b, hb⟩ := Option.ne_none_iff_exists'.mp hbuf
    obtain ⟨cur, hcur, hafter, hfind⟩ := hres q (List.mem_cons_self _ _)
    have hfind2 := hfind s rfl hidx
    rw [← hidx] at hfind2 hcur
    obtain ⟨s1, b1, hstep, hrd, hi1, hb1, hl1⟩ := step_loaded s q cur b hb
      (hin q (List.mem_cons_self _ _)) hcur hafter hfind2
    have hasc2 : (∀ a ∈ qs, bytesCompare q.key a.key ≤ 0) ∧
        (qs.map Query.key).Pairwise (fun a b => bytesCompare a b ≤ 0) := by
      simpa using hasc
    obtain ⟨s2, hrun, hrd2, hi2, hb2⟩ := ih s1 (by rw [hi1, hidx]) (by rw [hb1]; simp)
      (fun x hx last hlast => by
        rw [hl1] at hlast
        cases hlast
        have := hasc2.1 x hx
        omega)
      hasc2.2
      (fun x hx => by rw [hrd]; exact hres x (List.mem_cons_of_mem _ hx))
    exact ⟨s2, by simp [Scanner.run, hstep, hrun], by rw [hrd2, hrd], hi2, hb2⟩

/-- C8: a scanner that holds a loaded buffer and resolves a key that passes
the order guard to its current block makes no `GetBlock` call in `blockFor`
and returns the loaded buffer untouched; hence an ascending sequence of lookups
whose keys all resolve to one block `j`, issued to a scanner that has not
loaded block `j` yet, with the Store delivering block `j`, fetches block `j` on
the first lookup and nothing afterwards. -/
theorem sequential_locality :
    (∀ (s : Scanner) (key : List Byte) (b : BytesReader),
      s.buf = some b → s.InOrder key → ResolvesTo s.reader.index s.idx key s.idx →
      ∃ s1, s.blockFor key = .ok ((some b, none, true), s1) ∧
        s1.reader.fetched = s.reader.fetched ∧ s1.buf = some b ∧ s1.idx = s.idx) ∧
    (∀ (s : Scanner) (j : Nat) (data : BytesReader) (q : Query) (qs : List Query),
      (j ≠ s.idx ∨ s.buf = none) → (s.reader.GetBlock j).1 = .ok data →
      (∀ x ∈ q :: qs, s.InOrder x.key) →
      ((q :: qs).map Query.key).Pairwise (fun a b => bytesCompare a b ≤ 0) →
      (∀ x ∈ q :: qs, ResolvesTo s.reader.index s.idx x.key j ∧
        ResolvesTo s.reader.index j x.key j) →
      ∃ s1 s2, s.step q = .ok s1 ∧ s1.reader.fetched = s.reader.fetched ++ [j] ∧
        s1.run qs = .ok s2 ∧ s.run (q :: qs) = .ok s2 ∧
        s2.reader.fetched = s.reader.fetched ++ [j]) := by
  constructor
  · intro s key b hbuf hin hres
    obtain ⟨cur, hcur, hafter, hfind⟩ := hres
    exact ⟨_, blockFor_reuse s key cur b hin hcur hafter (hfind s rfl rfl) hbuf, rfl, hbuf, rfl⟩
  · intro s j data q qs hload hstore hin hasc hres
    obtain ⟨⟨cur, hcur, hafter, hfind⟩, _⟩ := hres q (List.mem_cons_self _ _)
    obtain ⟨s1, b1, hstep, hf1, hix1, hi1, hb1, hl1⟩ := step_load s q cur j data
      (hin q (List.mem_cons_self _ _)) hcur hafter (hfind s rfl rfl) hload hstore
    have hasc2 : (∀ a ∈ qs, bytesCompare q.key a.key ≤ 0) ∧
        (qs.map Query.key).Pairwise (fun a b => bytesCompare a b ≤ 0) := by
      simpa using hasc
    obtain ⟨s2, hrun, hrd2, _, _⟩ := run_loaded j qs s1 hi1 (by rw [hb1]; simp)
      (fun x hx last hlast => by
        rw [hl1] at hlast
        cases hlast
        have := hasc2.1 x hx
        omega)
      hasc2.2
      (fun x hx => by rw [hix1]; exact (hres x (List.mem_cons_of_mem _ hx)).2)
    exact ⟨s1, s2, hstep, hf1, hrun, by simp [Scanner.run, hstep, hrun], by rw [hrd2, hf1]⟩

/-- On a strictly increasing index a key between the first keys of blocks `j`
and `j + 1` resolves to `j` from every block at or before `j`. -/
theorem resolvesTo_of_bounds (index : List Block) (i j : Nat) (key : List Byte) (bj : Block)
    (hsorted : StrictlyIncreasing index) (hle : i ≤ j) (hbj : index[j]? = some bj)
    (hlow : bytesCompare bj.firstKeyBytes key ≤ 0)
    (hhigh : ∀ b, index[j + 1]? = some b → bytesCompare b.firstKeyBytes key > 0) :
    ResolvesTo index i key j := by
  obtain ⟨hfind, cur, hcur, hafter⟩ := findBlock_eq_of_bounds
    ⟨⟨index, fun _ => .error (.store 0), []⟩, i, none, none⟩ key j bj hsorted hle hbj hlow hhigh
  exact ⟨cur, hcur, hafter, fun t hr hi => by
    rw [findBlock_congr ⟨⟨index, fun _ => .error (.store 0), []⟩, i, none, none⟩ t key hr hi]
    exact hfind⟩

/-- Witness of C8: the loaded scanner of the worked example re-queried for
"m", and the fresh one queried `GetFirst("m")`, `GetAll("m")`, `GetFirst("t")`. -/
theorem sequential_locality_witness :
    (∃ s1, (exampleScannerAt 10 [109]).blockFor [109]
        = .ok ((some ⟨encodeRecords exampleRecords, 10⟩, none, true), s1) ∧
      s1.reader.fetched = (exampleScannerAt 10 [109]).reader.fetched ∧
      s1.buf = some ⟨encodeRecords exampleRecords, 10⟩ ∧
      s1.idx = (exampleScannerAt 10 [109]).idx) ∧
    (∃ s1 s2, (NewScanner exampleReader).step ⟨true, [109]⟩ = .ok s1 ∧
      s1.reader.fetched = (NewScanner exampleReader).reader.fetched ++ [1] ∧
      s1.run [⟨false, [109]⟩, ⟨true, [116]⟩] = .ok s2 ∧
      (NewScanner exampleReader).run [⟨true, [109]⟩, ⟨false, [109]⟩, ⟨true, [116]⟩] = .ok s2 ∧
      s2.reader.fetched = (NewScanner exampleReader).reader.fetched ++ [1]) :=
  ⟨sequential_locality.1 (exampleScannerAt 10 [109]) [109]
      ⟨encodeRecords exampleRecords, 10⟩ rfl
      (fun last h => by cases h; decide)
      (resolvesTo_of_findBlock (exampleScannerAt 10 [109]) [109] ⟨[109]⟩ 1
        (by decide) (by decide) rfl),
   sequential_locality.2 (NewScanner exampleReader) 1 ⟨encodeRecords exampleRecords, 0⟩
      ⟨true, [109]⟩ [⟨false, [109]⟩, ⟨true, [116]⟩] (by decide) rfl
      (fun x _ last h => by cases h) (by decide)
      (fun x hx => by
        have hb2 : ∀ b, exampleIndex[1 + 1]? = some b → b = ⟨[122]⟩ :=
          fun b hb => by cases hb; rfl
        simp only [List.mem_cons, List.mem_singleton, List.not_mem_nil, or_false] at hx
        rcases hx with rfl | rfl | rfl
        · exact ⟨resolvesTo_of_bounds exampleIndex 0 1 [109] ⟨[109]⟩ (by decide) (by decide)
              (by decide) (by decide) (fun b hb => by rw [hb2 b hb]; decide),
            resolvesTo_of_bounds exampleIndex 1 1 [109] ⟨[109]⟩ (by decide) (by decide)
              (by decide) (by decide) (fun b hb => by rw [hb2 b hb]; decide)⟩
        · exact ⟨resolvesTo_of_bounds exampleIndex 0 1 [109] ⟨[109]⟩ (by decide) (by decide)
              (by decide) (by decide) (fun b hb => by rw [hb2 b hb]; decide),
            resolvesTo_of_bounds exampleIndex 1 1 [109] ⟨[109]⟩ (by decide) (by decide)
              (by decide) (by decide) (fun b hb => by rw [hb2 b hb]; decide)⟩
        · exact ⟨resolvesTo_of_bounds exampleIndex 0 1 [116] ⟨[109]⟩ (by decide) (by decide)
              (by decide) (by decide) (fun b hb => by rw [hb2 b hb]; decide),
            resolvesTo_of_bounds exampleIndex 1 1 [116] ⟨[109]⟩ (by decide) (by decide)
              (by decide) (by decide) (fun b hb => by rw [hb2 b hb]; decide)⟩)⟩

/-! ## After a successful resolution -/

/-- What is known after `blockFor` has returned a buffer: the guard passed, the
buffer is the loaded one, the key is recorded, and the key lies in the block
now current (its first key is not after the key, the next one is). -/
theorem blockFor_ok_resolved (s s0 : Scanner) (key : List Byte) (d : BytesReader)
    (err : Option Error) (h : s.blockFor key = .ok ((some d, err, true), s0)) :
    s.InOrder key ∧ err = none ∧ s0.lastKey = some key ∧ s0.buf = some d ∧
      s0.reader.index = s.reader.index ∧ s0.reader.blocks = s.reader.blocks ∧
      s.idx ≤ s0.idx ∧
      (∃ bj, s0.reader.index[s0.idx]? = some bj ∧ bj.IsAfter key = false) ∧
      (∀ b, s0.reader.index[s0.idx + 1]? = some b → b.IsAfter key = true) := by
  rcases guard_cases s key with ⟨last, hl, hgt⟩ | hin
  · rw [blockFor_outOfOrder s key last hl hgt] at h
    cases h
  · cases hcur : s.reader.index[s.idx]? with
    | none =>
      rw [blockFor_panic s key hin hcur] at h
      cases h
    | some cur =>
      have hidx : s.idx < s.reader.index.length := (List.getElem?_eq_some_iff.mp hcur).1
      obtain ⟨j2, hj2, _, hlt2, hnot, hnext⟩ := findBlock_spec s key hidx
      rcases blockFor_cases s key cur hcur with ⟨last, hl, hgt, _⟩ | ⟨_, hrest⟩
      · exact absurd hgt (hin last hl)
      · rcases hrest with ⟨_, hb⟩ | ⟨hafter, j, hj, hle, hlt, ⟨hjeq, b, hbuf, hb⟩ |
          ⟨_, ⟨e, _, hb⟩ | ⟨data, hdata, hb⟩⟩⟩
        · rw [hb] at h
          cases h
        · rw [hb] at h
          cases h
          rw [hj2] at hj
          cases hj
          refine ⟨hin, rfl, rfl, hbuf, rfl, rfl, le_refl _, ⟨cur, hcur, hafter⟩, ?_⟩
          intro b2 hb2
          rw [← hjeq] at hb2
          exact hnext b2 hb2
        · rw [hb] at h
          cases h
        · rw [hb] at h
          cases h
          rw [hj2] at hj
          cases hj
          refine ⟨hin, rfl, rfl, rfl, rfl, rfl, hle, ?_, hnext⟩
          rcases Nat.lt_or_eq_of_le hle with hlt3 | heq
          · exact ⟨_, List.getElem?_eq_getElem hlt2, hnot hlt3 _ (List.getElem?_eq_getElem hlt2)⟩
          · refine ⟨cur, ?_, hafter⟩
            show s.reader.index[j2]? = some cur
            rw [← heq]
            exact hcur

/-- Once a key has resolved to the current block of a strictly increasing
index, it resolves to the same block again. -/
theorem findBlock_stable (s : Scanner) (key : List Byte) (bj : Block)
    (hsorted : StrictlyIncreasing s.reader.index)
    (hbj : s.reader.index[s.idx]? = some bj) (hafter : bj.IsAfter key = false)
    (hnext : ∀ b, s.reader.index[s.idx + 1]? = some b → b.IsAfter key = true) :
    s.findBlock key = .ok s.idx :=
  (findBlock_eq_of_bounds s key s.idx bj hsorted (le_refl _) hbj
    ((isAfter_false_iff _ _).mp hafter)
    (fun b hb => (isAfter_iff _ _).mp (hnext b hb))).1

/-! ## Cursor positions without wrap-around -/

theorem rewindPos_exact (pos : Nat) (r : Record) (h : r.size < 2 ^ 32) :
    rewindPos (pos + r.size) r = pos := by
  simp only [rewindPos, Nat.mod_eq_of_lt h]
  omega

theorem encodeRecords_cons_length (r : Record) (rs : List Record) :
    (encodeRecords (r :: rs)).length = r.size + (encodeRecords rs).length := by
  simp [encodeRecords, Record.encode_length]

theorem cursorAfterAll_eq (key : List Byte) :
    ∀ (rest : List Record) (pos : Nat), (∀ r ∈ rest, r.size < 2 ^ 32) →
      cursorAfterAll key pos rest = pos + (encodeRecords (scannedPrefix key rest)).length := by
  intro rest
  induction rest with
  | nil => intro pos _; rfl
  | cons r rs ih =>
    intro pos h
    by_cases hgt : bytesCompare r.key key > 0
    · have hnle : ¬ bytesCompare r.key key ≤ 0 := by omega
      simp only [cursorAfterAll, hgt, if_true, scannedPrefix, List.takeWhile_cons, hnle,
        decide_False]
      rw [rewindPos_exact pos r (h r (List.mem_cons_self _ _))]
      rfl
    · have hle : bytesCompare r.key key ≤ 0 := by omega
      have hih := ih (pos + r.size) (fun x hx => h x (List.mem_cons_of_mem _ hx))
      simp only [scannedPrefix] at hih
      simp only [cursorAfterAll, hgt, if_false, scannedPrefix, List.takeWhile_cons, hle,
        decide_True, if_true, encodeRecords_cons_length, hih]
      omega

theorem scannedPrefix_append_rest (key : List Byte) (rs : List Record) :
    scannedPrefix key rs ++ rs.dropWhile (fun r => decide (bytesCompare r.key key ≤ 0)) = rs :=
  List.takeWhile_append_dropWhile _ rs

theorem scannedPrefix_dropWhile (key : List Byte) (rs : List Record) :
    scannedPrefix key (rs.dropWhile (fun r => decide (bytesCompare r.key key ≤ 0))) = [] := by
  induction rs with
  | nil => rfl
  | cons r rs ih =>
    by_cases hle : bytesCompare r.key key ≤ 0
    · simp only [List.dropWhile_cons, hle, decide_True, if_true]
      exact ih
    · simp only [List.dropWhile_cons, hle, decide_False, scannedPrefix, List.takeWhile_cons]
      simp
      omega

/-! ## Repeating a key -/

theorem GetAll_inOrder (s s1 : Scanner) (K : List Byte) (r1 : List (List Byte) × Option Error)
    (hin : s.InOrder K) (h : s.GetAll K = .ok (r1, s1)) : s1.InOrder K := by
  obtain ⟨last, hl, hge⟩ := GetAll_lastKey s s1 K r1 h
  obtain ⟨d, err, ok, s0, hb, _, _, hl2, _⟩ := GetAll_inv s s1 K r1 h
  have hk : s0.lastKey = some K := by
    rcases guard_cases s K with ⟨l, hl3, hgt⟩ | _
    · exact absurd hgt (hin l hl3)
    · cases hcur : s.reader.index[s.idx]? with
      | none =>
        rw [blockFor_panic s K hin hcur] at hb
        cases hb
      | some cur =>
        rcases blockFor_cases s K cur hcur with ⟨l, hl3, hgt, _⟩ | ⟨_, hrest⟩
        · exact absurd hgt (hin l hl3)
        · rcases hrest with ⟨_, hb2⟩ | ⟨_, j, _, _, _, ⟨_, b, _, hb2⟩ |
            ⟨_, ⟨e, _, hb2⟩ | ⟨data, _, hb2⟩⟩⟩ <;>
          · rw [hb2] at hb
            cases hb
            rfl
  intro l hl3
  rw [hl2, hk] at hl3
  cases hl3
  rw [bytesCompare_self]
  omega

/-- The `all`-mode scan of a well-formed buffer whose records do not reach
`2 ^ 32` bytes, from a record boundary: the cursor ends right after the
scanned prefix, and a second scan for the same key from there returns nothing
and leaves the cursor in place. -/
theorem getValuesFromBuffer_all_twice (key : List Byte) (done rest : List Record)
    (henc : ∀ r ∈ rest, r.Encodable ∧ r.size < 2 ^ 32) :
    ∃ b1, getValuesFromBuffer ⟨encodeRecords (done ++ rest), (encodeRecords done).length⟩
        key false
        = .ok ((none, valuesOf key (scannedPrefix key rest),
                decide ((valuesOf key (scannedPrefix key rest)).length > 0)), b1) ∧
      getValuesFromBuffer b1 key false = .ok ((none, [], false), b1) := by
  have henc1 : ∀ r ∈ rest, r.Encodable := fun r hr => (henc r hr).1
  have henc2 : ∀ r ∈ rest, r.size < 2 ^ 32 := fun r hr => (henc r hr).2
  refine ⟨_, getValuesFromBuffer_all key done rest henc1, ?_⟩
  rw [cursorAfterAll_eq key rest _ henc2]
  have hsplit := scannedPrefix_append_rest key rest
  have hrest : ∀ r ∈ rest.dropWhile (fun r => decide (bytesCompare r.key key ≤ 0)),
      r.Encodable ∧ r.size < 2 ^ 32 := fun r hr =>
    henc r ((List.dropWhile_suffix _).subset hr)
  have h2 := getValuesFromBuffer_all key (done ++ scannedPrefix key rest)
    (rest.dropWhile (fun r => decide (bytesCompare r.key key ≤ 0))) (fun r hr => (hrest r hr).1)
  rw [cursorAfterAll_eq key _ _ (fun r hr => (hrest r hr).2), scannedPrefix_dropWhile,
    List.append_assoc, hsplit] at h2
  simp only [encodeRecords_append, List.length_append, encodeRecords, List.length_nil,
    Nat.add_zero] at h2 ⊢
  rw [h2]
  simp [valuesOf]

/-- Counterexample of C5: on the worked example, the first `GetAll("m")` on a
fresh scanner returns `[1, 2]`, the second one passes the order guard and
returns the empty list. -/
theorem getAll_twice_differs :
    (NewScanner exampleReader).GetAll [109] = .ok (([[1], [2]], none), exampleScannerAt 20 [109]) ∧
    (exampleScannerAt 20 [109]).GetAll [109] = .ok (([], none), exampleScannerAt 20 [109]) ∧
    ([] : List (List Byte)) ≠ [[1], [2]] :=
  ⟨rfl, rfl, by decide⟩

/-- C5 (amended): when the first `GetAll(K)` passes the order guard, so does
the second; the second call resumes at the cursor the first one left and does
not return the first call's values again: on a strictly increasing index, when
the first call scanned a well-formed key-sorted block from a record boundary
(records below `2 ^ 32` bytes), it returned the values of the records with key
`K` from the cursor on, and the second call reuses the buffer, returns the
empty list and leaves the scanner as it was. -/
theorem getAll_twice :
    (∀ (s s1 : Scanner) (K : List Byte) (r1 : List (List Byte) × Option Error),
      s.InOrder K → s.GetAll K = .ok (r1, s1) → s1.InOrder K) ∧
    (∀ (s s0 : Scanner) (K : List Byte) (done rest : List Record),
      StrictlyIncreasing s.reader.index →
      s.blockFor K = .ok ((some ⟨encodeRecords (done ++ rest), (encodeRecords done).length⟩,
        none, true), s0) →
      (∀ r ∈ rest, r.Encodable ∧ r.size < 2 ^ 32) → SortedRecords rest →
      ∃ s1, s.GetAll K = .ok ((valuesOf K rest, none), s1) ∧ s1.InOrder K ∧
        s1.GetAll K = .ok (([], none), s1)) := by
  refine ⟨GetAll_inOrder, ?_⟩
  intro s s0 K done rest hsorted hb henc hsr
  obtain ⟨b1, hscan1, hscan2⟩ := getValuesFromBuffer_all_twice K done rest henc
  rw [valuesOf_scannedPrefix K rest hsr] at hscan1
  obtain ⟨hin, _, hlk, hbuf, hix, _, _, ⟨bj, hbj, hafter⟩, hnext⟩ :=
    blockFor_ok_resolved s s0 K _ none hb
  have h1 := GetAll_of_scan s s0 K _ b1 none _ _ _ hb hscan1
  refine ⟨_, h1, GetAll_inOrder s _ K _ hin h1, ?_⟩
  have hin1 : ({ s0 with buf := some b1 } : Scanner).InOrder K := GetAll_inOrder s _ K _ hin h1
  have hfind : ({ s0 with buf := some b1 } : Scanner).findBlock K = .ok s0.idx :=
    findBlock_stable { s0 with buf := some b1 } K bj (by rw [← hix] at hsorted; exact hsorted)
      hbj hafter hnext
  have hb2 := blockFor_reuse { s0 with buf := some b1 } K bj b1 hin1 hbj hafter hfind rfl
  have h2 := GetAll_of_scan _ _ K b1 b1 none _ _ _ hb2 hscan2
  rw [h2]
  simp only [hlk]

/-- Witness of C5 (amended): `GetAll("m")` twice on the fresh scanner of the
worked example. -/
theorem getAll_twice_witness :
    (exampleScannerAt 20 [109]).InOrder [109] ∧
    ∃ s1, (NewScanner exampleReader).GetAll [109]
        = .ok ((valuesOf [109] exampleRecords, none), s1) ∧
      s1.InOrder [109] ∧ s1.GetAll [109] = .ok (([], none), s1) :=
  ⟨getAll_twice.1 (NewScanner exampleReader) (exampleScannerAt 20 [109]) [109] _
      (fun last h => by cases h) rfl,
   getAll_twice.2 (NewScanner exampleReader) (exampleScannerAt 0 [109]) [109] [] exampleRecords
      (by decide) rfl (by decide) (by decide)⟩

/-! ## The worked example -/

/-- Counterexample of C6: in the worked example `GetFirst("m")` finds 1 and
leaves the cursor past the first record, so the following `GetAll("m")`
returns `[2]`, not `[1, 2]`. -/
theorem scenario_getAll_after_getFirst :
    (NewScanner exampleReader).GetFirst [109]
      = .ok ((some [1], none, true), exampleScannerAt 10 [109]) ∧
    (exampleScannerAt 10 [109]).GetAll [109] = .ok (([[2]], none), exampleScannerAt 20 [109]) ∧
    ([[2]] : List (List Byte)) ≠ [[1], [2]] :=
  ⟨rfl, rfl, by decide⟩

/-- C6 (amended): with index "a", "m", "z" and block 1 holding ("m",1),
("m",2), ("t",3), whatever the other blocks hold, a fresh scanner answers
`GetFirst("m")`, `GetAll("m")`, `GetFirst("t")`, `GetFirst("aa")` with: found
1; the list `[2]`; found 3; an out-of-order error; and the Store is asked for
block 1 exactly once and for no other block. -/
theorem scenario_answers (rd : Reader) (hindex : rd.index = exampleIndex)
    (hblk : (rd.GetBlock 1).1 = .ok ⟨encodeRecords exampleRecords, 0⟩) :
    (NewScanner rd).GetFirst [109] = .ok ((some [1], none, true), blockOneLoaded rd 10 [109]) ∧
    (blockOneLoaded rd 10 [109]).GetAll [109]
      = .ok (([[2]], none), blockOneLoaded rd 20 [109]) ∧
    (blockOneLoaded rd 20 [109]).GetFirst [116]
      = .ok ((some [3], none, true), blockOneLoaded rd 30 [116]) ∧
    (blockOneLoaded rd 30 [116]).GetFirst [97, 97]
      = .ok ((none, some (.outOfOrder [116] [97, 97]), false), blockOneLoaded rd 30 [116]) ∧
    (blockOneLoaded rd 30 [116]).reader.fetched = rd.fetched ++ [1] := by
  have hf0 : (NewScanner rd).findBlock [109] = .ok 1 := by
    rw [findBlock_congr (NewScanner exampleReader) (NewScanner rd) [109] hindex rfl]
    rfl
  have hcur0 : (NewScanner rd).reader.index[(NewScanner rd).idx]? = some ⟨[97]⟩ := by
    show rd.index[0]? = _
    rw [hindex]
    rfl
  have hb0 := blockFor_load_ok (NewScanner rd) [109] ⟨[97]⟩ 1 ⟨encodeRecords exampleRecords, 0⟩
    (fun last h => by cases h) hcur0 (by decide) hf0 (Or.inr rfl) hblk
  have hcur1 : ∀ pos last, (blockOneLoaded rd pos last).reader.index[
      (blockOneLoaded rd pos last).idx]? = some ⟨[109]⟩ := by
    intro pos last
    show rd.index[1]? = _
    rw [hindex]
    rfl
  have hf1 : ∀ pos last key, (blockOneLoaded rd pos last).findBlock key
      = (exampleScannerAt pos last).findBlock key := fun pos last key =>
    findBlock_congr (exampleScannerAt pos last) (blockOneLoaded rd pos last) key hindex rfl
  have hb1 := blockFor_reuse (blockOneLoaded rd 10 [109]) [109] ⟨[109]⟩
    ⟨encodeRecords exampleRecords, 10⟩ (fun last h => by cases h; decide) (hcur1 _ _)
    (by decide) (by rw [hf1]; rfl) rfl
  have hb2 := blockFor_reuse (blockOneLoaded rd 20 [109]) [116] ⟨[109]⟩
    ⟨encodeRecords exampleRecords, 20⟩ (fun last h => by cases h; decide) (hcur1 _ _)
    (by decide) (by rw [hf1]; rfl) rfl
  have hb3 := blockFor_outOfOrder (blockOneLoaded rd 30 [116]) [97, 97] [116] rfl (by decide)
  exact ⟨GetFirst_of_scan _ _ [109] _ ⟨encodeRecords exampleRecords, 10⟩ none (some [1]) [] true
      hb0 rfl,
    GetAll_of_scan _ _ [109] _ ⟨encodeRecords exampleRecords, 20⟩ none none [[2]] true hb1 rfl,
    GetFirst_of_scan _ _ [116] _ ⟨encodeRecords exampleRecords, 30⟩ none (some [3]) [] true
      hb2 rfl,
    GetFirst_of_not_ok _ _ [97, 97] none _ hb3, rfl⟩

/-- Witness of C6 (amended): the Store `exampleReader`, whose log is empty. -/
theorem scenario_answers_witness :
    (NewScanner exampleReader).GetFirst [109]
      = .ok ((some [1], none, true), blockOneLoaded exampleReader 10 [109]) ∧
    (blockOneLoaded exampleReader 10 [109]).GetAll [109]
      = .ok (([[2]], none), blockOneLoaded exampleReader 20 [109]) ∧
    (blockOneLoaded exampleReader 20 [109]).GetFirst [116]
      = .ok ((some [3], none, true), blockOneLoaded exampleReader 30 [116]) ∧
    (blockOneLoaded exampleReader 30 [116]).GetFirst [97, 97]
      = .ok ((none, some (.outOfOrder [116] [97, 97]), false),
          blockOneLoaded exampleReader 30 [116]) ∧
    (blockOneLoaded exampleReader 30 [116]).reader.fetched = exampleReader.fetched ++ [1] :=
  scenario_answers exampleReader rfl rfl

/-! ## The rewind -/

theorem cursorAfterAll_stop (target : List Byte) (r : Record) (tail : List Record) :
    ∀ (P : List Record) (pos : Nat), (∀ p ∈ P, bytesCompare p.key target ≤ 0) →
      bytesCompare r.key target > 0 →
      cursorAfterAll target pos (P ++ r :: tail)
        = rewindPos (pos + (encodeRecords P).length + r.size) r := by
  intro P
  induction P with
  | nil =>
    intro pos _ hr
    simp [cursorAfterAll, hr, encodeRecords]
  | cons p P ih =>
    intro pos hP hr
    have hp : ¬ bytesCompare p.key target > 0 := by
      have := hP p (List.mem_cons_self _ _)
      omega
    have hih := ih (pos + p.size) (fun x hx => hP x (List.mem_cons_of_mem _ hx)) hr
    show (if bytesCompare p.key target > 0 then rewindPos (pos + p.size) p
      else cursorAfterAll target (pos + p.size) (P ++ r :: tail)) = _
    rw [if_neg hp, hih, encodeRecords_cons_length]
    congr 1
    omega

theorem cursorAfterFirst_stop (target : List Byte) (r : Record) (tail : List Record) :
    ∀ (P : List Record) (pos : Nat), (∀ p ∈ P, bytesCompare p.key target < 0) →
      bytesCompare r.key target > 0 →
      cursorAfterFirst target pos (P ++ r :: tail)
        = rewindPos (pos + (encodeRecords P).length + r.size) r := by
  intro P
  induction P with
  | nil =>
    intro pos _ hr
    have hne : ¬ bytesCompare r.key target = 0 := by omega
    simp [cursorAfterFirst, hr, hne, encodeRecords]
  | cons p P ih =>
    intro pos hP hr
    have hlt := hP p (List.mem_cons_self _ _)
    have hp : ¬ bytesCompare p.key target > 0 := by omega
    have hp0 : ¬ bytesCompare p.key target = 0 := by omega
    have hih := ih (pos + p.size) (fun x hx => hP x (List.mem_cons_of_mem _ hx)) hr
    show (if bytesCompare p.key target = 0 then pos + p.size
      else if bytesCompare p.key target > 0 then rewindPos (pos + p.size) p
      else cursorAfterFirst target (pos + p.size) (P ++ r :: tail)) = _
    rw [if_neg hp0, if_neg hp, hih, encodeRecords_cons_length]
    congr 1
    omega

/-- The buffer a scan leaves when it stops on the record `r` (key greater than
the target) after walking over the records `P`. -/
theorem scan_stops_on (target : List Byte) (first : Bool) (done P : List Record) (r : Record)
    (tail : List Record) (henc : ∀ x ∈ P ++ r :: tail, x.Encodable)
    (hP : ∀ p ∈ P, bytesCompare p.key target < 0 ∨
      (bytesCompare p.key target = 0 ∧ first = false))
    (hr : bytesCompare r.key target > 0) :
    ∃ res, getValuesFromBuffer
        ⟨encodeRecords (done ++ (P ++ r :: tail)), (encodeRecords done).length⟩ target first
      = .ok (res, ⟨encodeRecords (done ++ (P ++ r :: tail)),
          rewindPos ((encodeRecords done).length + (encodeRecords P).length + r.size) r⟩) := by
  cases first with
  | false =>
    have h := getValuesFromBuffer_all target done _ henc
    rw [cursorAfterAll_stop target r tail P _
      (fun p hp => by rcases hP p hp with h | ⟨h, _⟩ <;> omega) hr] at h
    exact ⟨_, h⟩
  | true =>
    have h := getValuesFromBuffer_first target done _ henc
    rw [cursorAfterFirst_stop target r tail P _
      (fun p hp => by
        rcases hP p hp with h | ⟨_, h⟩
        · exact h
        · cases h) hr] at h
    exact ⟨_, h⟩

/-- Rewind below `2 ^ 32` bytes: after a scan of a well-formed buffer has
stopped on a record `r` that occupies fewer than `2 ^ 32` bytes, a
`GetFirst(r.key)` that reuses the buffer finds `r`. -/
theorem getFirst_after_rewind (s1 s2 : Scanner) (target : List Byte) (first : Bool)
    (done P : List Record) (r : Record) (tail : List Record)
    (res : Option (List Byte) × List (List Byte) × Bool) (buf1 : BytesReader)
    (henc : ∀ x ∈ P ++ r :: tail, x.Encodable) (hsize : r.size < 2 ^ 32)
    (hP : ∀ p ∈ P, bytesCompare p.key target < 0 ∨
      (bytesCompare p.key target = 0 ∧ first = false))
    (hr : bytesCompare r.key target > 0)
    (hscan : getValuesFromBuffer
        ⟨encodeRecords (done ++ (P ++ r :: tail)), (encodeRecords done).length⟩ target first
      = .ok (res, buf1))
    (hreuse : s1.blockFor r.key = .ok ((some buf1, none, true), s2)) :
    ∃ s3, s1.GetFirst r.key = .ok ((some r.value, none, true), s3) := by
  obtain ⟨res2, hstop⟩ := scan_stops_on target first done P r tail henc hP hr
  rw [hstop] at hscan
  cases hscan
  rw [rewindPos_exact _ r hsize] at hreuse
  have h2 := getValuesFromBuffer_first r.key (done ++ P) (r :: tail)
    (fun x hx => henc x (List.mem_append_right _ hx))
  rw [List.append_assoc] at h2
  simp only [encodeRecords_append, List.length_append] at h2 hreuse
  have hv : (valuesOf r.key (scannedPrefix r.key (r :: tail))).head? = some r.value := by
    simp [valuesOf, scannedPrefix, List.takeWhile_cons, bytesCompare_self, List.filter_cons]
  have hne : valuesOf r.key (scannedPrefix r.key (r :: tail)) ≠ [] := by
    intro h0
    rw [h0] at hv
    cases hv
  rw [hv] at h2
  simp only [hne, ne_eq, not_false_eq_true, decide_True] at h2
  exact ⟨_, GetFirst_of_scan s1 s2 r.key _ _ none _ _ _ hreuse h2⟩

theorem bigValue_length : bigValue.length = 4294967287 := by
  unfold bigValue
  exact List.length_replicate _ _

theorem hugeRecord_size (v : List Byte) (hv : v.length = 4294967287) :
    (hugeRecord v).size = 4294967296 := by
  show 8 + [(1 : Byte)].length + v.length = 4294967296
  rw [hv, List.length_singleton]

/-- The scan over a block holding one record of exactly `2 ^ 32` bytes. -/
theorem rewind_wraps (v : List Byte) (hv : v.length = 4294967287) :
    (hugeRecord v).Encodable ∧ (hugeRecord v).size = 4294967296 ∧
    bytesCompare (hugeRecord v).key [0] > 0 ∧
    (NewScanner (hugeReader v)).GetAll [0] = .ok (([], none), hugeScannerAfter v [0]) ∧
    (hugeScannerAfter v [0]).blockFor (hugeRecord v).key
      = .ok ((some ⟨encodeRecords [hugeRecord v], 4294967296⟩, none, true),
          hugeScannerAfter v [1]) ∧
    (hugeScannerAfter v [0]).GetFirst (hugeRecord v).key
      = .ok ((none, none, false), hugeScannerAfter v [1]) := by
  have hsize := hugeRecord_size v hv
  have hencodable : (hugeRecord v).Encodable := by
    show [(1 : Byte)].length < 2 ^ 32 ∧ v.length < 2 ^ 32
    rw [hv]
    exact ⟨by decide, by decide⟩
  have henc : ∀ r ∈ [hugeRecord v], r.Encodable := fun r hr => by
    rw [List.mem_singleton.mp hr]
    exact hencodable
  have hr : bytesCompare (hugeRecord v).key [0] > 0 := by
    show bytesCompare [1] [0] > 0
    decide
  have hnle : ¬ bytesCompare (hugeRecord v).key [0] ≤ 0 := by
    show ¬ bytesCompare [1] [0] ≤ 0
    decide
  have hA := blockFor_load_ok (NewScanner (hugeReader v)) [0] ⟨[0]⟩ 0
    ⟨encodeRecords [hugeRecord v], 0⟩
    (fun last h => by cases h) rfl (by decide) rfl (Or.inr rfl) rfl
  have hscanA : getValuesFromBuffer ⟨encodeRecords [hugeRecord v], 0⟩ [0] false
      = .ok ((none, [], false), ⟨encodeRecords [hugeRecord v], 4294967296⟩) := by
    have h := getValuesFromBuffer_all [0] [] [hugeRecord v] henc
    have hcur : cursorAfterAll [0] (encodeRecords []).length [hugeRecord v] = 4294967296 := by
      show (if bytesCompare (hugeRecord v).key [0] > 0 then
        rewindPos (0 + (hugeRecord v).size) (hugeRecord v) else _) = _
      rw [if_pos hr]
      simp only [rewindPos, hsize]
      norm_num
    have hsp : scannedPrefix [0] [hugeRecord v] = [] := by
      simp only [scannedPrefix, List.takeWhile_cons, hnle, decide_False]
      rfl
    rw [hcur, hsp] at h
    exact h
  have hB := blockFor_reuse (hugeScannerAfter v [0]) (hugeRecord v).key ⟨[0]⟩
    ⟨encodeRecords [hugeRecord v], 4294967296⟩
    (fun last h => by
      cases h
      show ¬ bytesCompare [0] [1] > 0
      decide)
    rfl
    (by
      show Block.IsAfter ⟨[0]⟩ [1] = false
      decide)
    rfl rfl
  have hscanB : getValuesFromBuffer ⟨encodeRecords [hugeRecord v], 4294967296⟩
      (hugeRecord v).key true
      = .ok ((none, [], false), ⟨encodeRecords [hugeRecord v], 4294967296⟩) := by
    have hlen : (BytesReader.mk (encodeRecords [hugeRecord v]) 4294967296).Len = 0 :=
      Len_eq_zero_of_ge (by
        rw [encodeRecords_cons_length, hsize]
        exact le_refl _)
    unfold getValuesFromBuffer
    rw [hlen, getValuesLoop, hlen]
    rfl
  exact ⟨hencodable, hsize, hr, GetAll_of_scan _ _ [0] _ _ none _ _ _ hA hscanA, hB,
    GetFirst_of_scan _ _ (hugeRecord v).key _ _ none _ _ _ hB hscanB⟩

/-- C7: the failing input.  A block holding the single record
`hugeRecord bigValue` (key `[1]`, `2 ^ 32` bytes in all) is well formed.
`GetAll([0])` on a fresh scanner scans it from offset 0 and stops on that
record, whose key is greater; `keyLen + valLen + 8` wraps to 0 in `uint32`, the
seek moves nothing and the cursor stays at the end of the buffer.  The next
lookup `GetFirst([1])` reuses the buffer and finds nothing. -/
theorem rewind_wraps_on_huge_record :
    (hugeRecord bigValue).Encodable ∧ (hugeRecord bigValue).size = 4294967296 ∧
    bytesCompare (hugeRecord bigValue).key [0] > 0 ∧
    (NewScanner (hugeReader bigValue)).GetAll [0]
      = .ok (([], none), hugeScannerAfter bigValue [0]) ∧
    (hugeScannerAfter bigValue [0]).blockFor (hugeRecord bigValue).key
      = .ok ((some ⟨encodeRecords [hugeRecord bigValue], 4294967296⟩, none, true),
          hugeScannerAfter bigValue [1]) ∧
    (hugeScannerAfter bigValue [0]).GetFirst (hugeRecord bigValue).key
      = .ok ((none, none, false), hugeScannerAfter bigValue [1]) :=
  rewind_wraps bigValue bigValue_length

/-! ## The order guard -/

/-- C11: `CheckIfKeyOutOfOrder(key)` returns an error exactly when a last key
is recorded and it is greater than `key`; when it errors the scanner is
unchanged; when it succeeds (also for `key` equal to the last key, and when no
last key is recorded) the last key becomes `key` and the reader, the block
index and the buffer are unchanged. -/
theorem checkIfKeyOutOfOrder_contract (s : Scanner) (key : List Byte) :
    ((s.CheckIfKeyOutOfOrder key).1 ≠ none ↔
      ∃ last, s.lastKey = some last ∧ bytesCompare last key > 0) ∧
    (∀ last, s.lastKey = some last → bytesCompare last key > 0 →
      s.CheckIfKeyOutOfOrder key = (some (.outOfOrder last key), s)) ∧
    ((s.CheckIfKeyOutOfOrder key).1 = none →
      s.CheckIfKeyOutOfOrder key = (none, { s with lastKey := some key })) ∧
    (s.lastKey = none → (s.CheckIfKeyOutOfOrder key).1 = none) ∧
    (s.lastKey = some key → (s.CheckIfKeyOutOfOrder key).1 = none) := by
  rcases guard_cases s key with ⟨last, hl, hgt⟩ | hin
  · have h := CheckIfKeyOutOfOrder_fail s key last hl hgt
    refine ⟨?_, ?_, ?_, ?_, ?_⟩
    · rw [h]
      exact ⟨fun _ => ⟨last, hl, hgt⟩, fun _ => by simp⟩
    · intro l hl2 _
      rw [hl] at hl2
      cases hl2
      exact h
    · intro hn
      rw [h] at hn
      cases hn
    · intro hn
      rw [hl] at hn
      cases hn
    · intro hk
      rw [hl] at hk
      cases hk
      rw [bytesCompare_self] at hgt
      omega
  · have h := CheckIfKeyOutOfOrder_pass s key hin
    refine ⟨?_, ?_, ?_, ?_, ?_⟩
    · rw [h]
      exact ⟨fun hne => absurd rfl hne, fun ⟨last, hl, hgt⟩ => absurd hgt (hin last hl)⟩
    · intro l hl2 hgt
      exact absurd hgt (hin l hl2)
    · intro _
      exact h
    · intro _
      rw [h]
    · intro _
      rw [h]

/-- Witness of C11: the example scanner with last key "t", queried for "aa"
(rejected), and with last key "m", queried for "m" (accepted). -/
theorem checkIfKeyOutOfOrder_contract_witness :
    (exampleScannerAt 30 [116]).CheckIfKeyOutOfOrder [97, 97]
      = (some (.outOfOrder [116] [97, 97]), exampleScannerAt 30 [116]) ∧
    (exampleScannerAt 10 [109]).CheckIfKeyOutOfOrder [109]
      = (none, { exampleScannerAt 10 [109] with lastKey := some [109] }) :=
  ⟨(checkIfKeyOutOfOrder_contract (exampleScannerAt 30 [116]) [97, 97]).2.1 [116] rfl (by decide),
   (checkIfKeyOutOfOrder_contract (exampleScannerAt 10 [109]) [109]).2.2.1
     (((checkIfKeyOutOfOrder_contract (exampleScannerAt 10 [109]) [109]).2.2.2.2) rfl)⟩

/-! ## Not found, reset, errors -/

/-- C12: on a non-empty index, for a key smaller than the first key of block 0,
the first call on a fresh scanner returns not-found without error (`GetFirst`
gives `(nil, nil, false)`, `GetAll` the empty list and a nil error), the fetch
log of the Store is untouched, the block index is 0 and no buffer is loaded. -/
theorem unresolvable_key (rd : Reader) (key : List Byte) (b0 : Block)
    (h0 : rd.index[0]? = some b0) (hlt : bytesCompare key b0.firstKeyBytes < 0) :
    ∃ s1, (NewScanner rd).GetFirst key = .ok ((none, none, false), s1) ∧
      (NewScanner rd).GetAll key = .ok (([], none), s1) ∧
      s1.reader = rd ∧ s1.reader.fetched = rd.fetched ∧ s1.idx = 0 ∧ s1.buf = none := by
  have hafter : b0.IsAfter key = true :=
    (isAfter_iff _ _).mpr ((bytesCompare_gt_iff _ _).mpr hlt)
  have hb := blockFor_after (NewScanner rd) key b0 (fun last h => by cases h) h0 hafter
  exact ⟨_, GetFirst_of_not_ok _ _ key none none hb, GetAll_of_not_ok _ _ key none none hb,
    rfl, rfl, rfl, rfl⟩

/-- Witness of C12: the worked example, whose first block starts at "a",
queried for the key `[0]`. -/
theorem unresolvable_key_witness :
    ∃ s1, (NewScanner exampleReader).GetFirst [0] = .ok ((none, none, false), s1) ∧
      (NewScanner exampleReader).GetAll [0] = .ok (([], none), s1) ∧
      s1.reader = exampleReader ∧ s1.reader.fetched = exampleReader.fetched ∧
      s1.idx = 0 ∧ s1.buf = none :=
  unresolvable_key exampleReader [0] ⟨[97]⟩ (by decide) (by decide)

/-- C13: after `Reset` the scanner is the one `NewScanner` gives on the same
reader: block index 0, no buffer, no last key; so every lookup and every
sequence of lookups answers as on a fresh scanner, and the order guard accepts
any key, also one smaller than the key queried before the reset. -/
theorem reset_restores_initial_state (s : Scanner) :
    s.Reset = NewScanner s.reader ∧
    s.Reset.idx = 0 ∧ s.Reset.buf = none ∧ s.Reset.lastKey = none ∧
    (∀ key, s.Reset.GetFirst key = (NewScanner s.reader).GetFirst key) ∧
    (∀ key, s.Reset.GetAll key = (NewScanner s.reader).GetAll key) ∧
    (∀ qs, s.Reset.answers qs = (NewScanner s.reader).answers qs) ∧
    (∀ qs, s.Reset.run qs = (NewScanner s.reader).run qs) ∧
    (∀ key, (s.Reset.CheckIfKeyOutOfOrder key).1 = none) :=
  ⟨rfl, rfl, rfl, rfl, fun _ => rfl, fun _ => rfl, fun _ => rfl, fun _ => rfl, fun _ => rfl⟩

theorem GetFirst_error_cases (s s1 : Scanner) (key : List Byte) (v : Option (List Byte))
    (e : Error) (f : Bool) (h : s.GetFirst key = .ok ((v, some e, f), s1)) :
    v = none ∧ f = false ∧ ∃ d, s.blockFor key = .ok ((d, some e, false), s1) := by
  rcases hb : s.blockFor key with e2 | ⟨⟨d, err, ok⟩, s0⟩
  · simp [Scanner.GetFirst, hb] at h
  · cases ok with
    | false =>
      rw [GetFirst_of_not_ok s s0 key d err hb] at h
      cases h
      exact ⟨rfl, rfl, d, rfl⟩
    | true =>
      cases d with
      | none => simp [Scanner.GetFirst, hb] at h
      | some b =>
        obtain ⟨⟨v2, a, f2⟩, b2, hscan, _⟩ := getValuesFromBuffer_total b key true
        rw [GetFirst_of_scan s s0 key b b2 err v2 a f2 hb hscan] at h
        cases h

theorem GetAll_error_cases (s s1 : Scanner) (key : List Byte) (vals : List (List Byte))
    (e : Error) (h : s.GetAll key = .ok ((vals, some e), s1)) :
    vals = [] ∧ ∃ d, s.blockFor key = .ok ((d, some e, false), s1) := by
  rcases hb : s.blockFor key with e2 | ⟨⟨d, err, ok⟩, s0⟩
  · simp [Scanner.GetAll, hb] at h
  · cases ok with
    | false =>
      rw [GetAll_of_not_ok s s0 key d err hb] at h
      cases h
      exact ⟨rfl, d, rfl⟩
    | true =>
      cases d with
      | none => simp [Scanner.GetAll, hb] at h
      | some b =>
        obtain ⟨⟨v2, a, f2⟩, b2, hscan, _⟩ := getValuesFromBuffer_total b key false
        have herr := (blockFor_ok_resolved s s0 key b err hb).2.1
        rw [GetAll_of_scan s s0 key b b2 err v2 a f2 hb hscan, herr] at h
        cases h

/-- C14: a `GetFirst` that returns a non-nil error returns a nil value and
`found = false`; a `GetAll` that returns a non-nil error returns a nil list;
and whenever `blockFor` hands out a buffer, so that a scan is performed, both
lookups return a nil error. -/
theorem no_partial_results (s : Scanner) (key : List Byte) :
    (∀ v e f s1, s.GetFirst key = .ok ((v, some e, f), s1) → v = none ∧ f = false) ∧
    (∀ vals e s1, s.GetAll key = .ok ((vals, some e), s1) → vals = []) ∧
    (∀ b err s0, s.blockFor key = .ok ((some b, err, true), s0) →
      (∃ v f s1, s.GetFirst key = .ok ((v, none, f), s1)) ∧
      (∃ vals s1, s.GetAll key = .ok ((vals, none), s1))) := by
  refine ⟨?_, ?_, ?_⟩
  · intro v e f s1 h
    obtain ⟨hv, hf, _⟩ := GetFirst_error_cases s s1 key v e f h
    exact ⟨hv, hf⟩
  · intro vals e s1 h
    exact (GetAll_error_cases s s1 key vals e h).1
  · intro b err s0 hb
    have herr := (blockFor_ok_resolved s s0 key b err hb).2.1
    subst herr
    obtain ⟨⟨v1, a1, f1⟩, b1, hscan1, _⟩ := getValuesFromBuffer_total b key true
    obtain ⟨⟨v2, a2, f2⟩, b2, hscan2, _⟩ := getValuesFromBuffer_total b key false
    exact ⟨⟨v1, f1, _, GetFirst_of_scan s s0 key b b1 none v1 a1 f1 hb hscan1⟩,
      ⟨a2, _, GetAll_of_scan s s0 key b b2 none v2 a2 f2 hb hscan2⟩⟩

/-- Witness of C14: the Store error of the failing example, and the scan of
block 1 of the worked example. -/
theorem no_partial_results_witness :
    ((none : Option (List Byte)) = none ∧ false = false) ∧
    ([] : List (List Byte)) = [] ∧
    ((∃ v f s1, (NewScanner exampleReader).GetFirst [109] = .ok ((v, none, f), s1)) ∧
      (∃ vals s1, (NewScanner exampleReader).GetAll [109] = .ok ((vals, none), s1))) :=
  ⟨(no_partial_results (NewScanner failingReader) [109]).1 none (.store 1) false
      failedScanner rfl,
   (no_partial_results (NewScanner failingReader) [109]).2.1 [] (.store 1) failedScanner rfl,
   (no_partial_results (NewScanner exampleReader) [109]).2.2
      ⟨encodeRecords exampleRecords, 0⟩ none (exampleScannerAt 0 [109]) rfl⟩

/-! ## The shortcuts of `findBlock` -/

theorem nonDecreasing_le {index : List Block} (h : NonDecreasing index)
    {i j : Nat} {a b : Block} (hij : i ≤ j) (ha : index[i]? = some a) (hb : index[j]? = some b) :
    bytesCompare a.firstKeyBytes b.firstKeyBytes ≤ 0 := by
  rcases Nat.lt_or_eq_of_le hij with hlt | heq
  · obtain ⟨hi, rfl⟩ := List.getElem?_eq_some_iff.mp ha
    obtain ⟨hj, rfl⟩ := List.getElem?_eq_some_iff.mp hb
    exact List.pairwise_iff_getElem.mp h i j hi hj hlt
  · subst heq
    rw [ha] at hb
    cases hb
    rw [bytesCompare_self]

/-- C17: on an index with non-decreasing first keys and `idx < len(index)`,
`findBlock(key)` equals `idx + Search(remaining, i => index[idx+1+i].firstKey >
key)`: the two shortcuts do not change the result of the general path. -/
theorem findBlock_eq_general (s : Scanner) (key : List Byte)
    (hsorted : NonDecreasing s.reader.index) (hidx : s.idx < s.reader.index.length) :
    s.findBlock key = s.findBlockGeneral key := by
  unfold Scanner.findBlock Scanner.findBlockGeneral
  by_cases hrem : (s.reader.index.length : Int) - (s.idx : Int) - 1 ≤ 0
  · have htn : ((s.reader.index.length : Int) - (s.idx : Int) - 1).toNat = 0 := by omega
    simp only [hrem, if_true, htn]
    rfl
  · have hnext : s.idx + 1 < s.reader.index.length := by omega
    simp only [hrem, if_false, indexAt_eq_ok (List.getElem?_eq_getElem hnext)]
    by_cases hafter : (s.reader.index[s.idx + 1]).IsAfter key = true
    · have htn : ((s.reader.index.length : Int) - (s.idx : Int) - 1).toNat
          = s.reader.index.length - s.idx - 1 := by omega
      rw [htn]
      obtain ⟨k, hk, _, hk1, _⟩ := Search_spec
        (fun i => match s.reader.indexAt (s.idx + i + 1) with
          | .error e => .error e
          | .ok b => .ok (b.IsAfter key))
        (fun i => match s.reader.index[s.idx + i + 1]? with
          | some b => b.IsAfter key
          | none => false)
        (s.reader.index.length - s.idx - 1)
        (by
          intro h hh
          have hlt : s.idx + h + 1 < s.reader.index.length := by omega
          simp [indexAt_eq_ok (List.getElem?_eq_getElem hlt), List.getElem?_eq_getElem hlt])
      have hk0 : k = 0 := by
        by_contra hne
        have hpos : 0 < k := Nat.pos_of_ne_zero hne
        have hfalse := hk1 hpos
        have hkn : k ≤ s.reader.index.length - s.idx - 1 := by assumption
        have hlt : s.idx + (k - 1) + 1 < s.reader.index.length := by omega
        rw [List.getElem?_eq_getElem hlt] at hfalse
        have h1 := (isAfter_iff _ _).mp hafter
        have h2 := (isAfter_false_iff _ _).mp hfalse
        have h3 := nonDecreasing_le hsorted (show s.idx + 1 ≤ s.idx + (k - 1) + 1 by omega)
          (List.getElem?_eq_getElem hnext) (List.getElem?_eq_getElem hlt)
        have h4 := bytesCompare_le_trans h3 h2
        omega
      rw [hk0] at hk
      simp only [hafter, if_true, hk]
      rfl
    · simp only [hafter]
      rfl

/-- Witness of C17: the index "a", "m", "z", current block 0, key "b", for
which the "next block is past key" shortcut is taken. -/
theorem findBlock_eq_general_witness :
    (NewScanner failingReader).findBlock [98] = (NewScanner failingReader).findBlockGeneral [98] :=
  findBlock_eq_general (NewScanner failingReader) [98] (by decide) (by decide)

/-! ## The loop body, one iteration at a time -/

/-- The scan loop is the repetition of `scanIteration` while bytes remain. -/
theorem getValuesLoop_iter (key : List Byte) (first : Bool) (fuel : Nat) (buf : BytesReader)
    (acc : List (List Byte)) :
    getValuesLoop key first (fuel + 1) buf acc =
      if buf.Len > 0 then
        match scanIteration key first buf acc with
        | .inl r => .ok r
        | .inr (b, a) => getValuesLoop key first fuel b a
      else .ok ((none, acc, decide (acc.length > 0)), buf) := by
  rw [getValuesLoop]
  by_cases hlen : buf.Len > 0
  · rw [if_pos hlen, if_pos hlen]
    unfold scanIteration decodeRecord
    rcases readUint32 buf with ⟨keyLen, b1⟩
    dsimp only
    rcases readUint32 b1 with ⟨valLen, b2⟩
    dsimp only
    rcases readBytes b2 keyLen with ⟨keyBytes, b3⟩
    dsimp only
    rcases readBytes b3 valLen with ⟨valBytes, b4⟩
    dsimp only
    by_cases hc1 : bytesCompare keyBytes key = 0 ∧ first = true
    · rw [if_pos hc1, if_pos hc1]
    · rw [if_neg hc1, if_neg hc1]
      by_cases hc2 : bytesCompare keyBytes key > 0
      · rw [if_pos hc2, if_pos hc2]
      · rw [if_neg hc2, if_neg hc2]
  · rw [if_neg hlen, if_neg hlen]

/-! ## Index accesses stay in range -/

/-- C19: on a non-empty index the block index of a new scanner and of a reset
scanner is in range, and from a scanner whose block index is in range
`findBlock`, `blockFor`, `GetFirst` and `GetAll` return without an
index-out-of-range panic, for any key and Store, and leave a block index that
is in range of the same index. -/
theorem index_in_bounds :
    (∀ rd : Reader, rd.index ≠ [] →
      (NewScanner rd).idx < (NewScanner rd).reader.index.length) ∧
    (∀ s : Scanner, s.reader.index ≠ [] → s.Reset.idx < s.Reset.reader.index.length) ∧
    (∀ (s : Scanner) (key : List Byte), s.idx < s.reader.index.length →
      (∃ j, s.findBlock key = .ok j ∧ j < s.reader.index.length) ∧
      (∃ r s1, s.blockFor key = .ok (r, s1) ∧ s1.idx < s1.reader.index.length ∧
        s1.reader.index = s.reader.index) ∧
      (∃ r s1, s.GetFirst key = .ok (r, s1) ∧ s1.idx < s1.reader.index.length ∧
        s1.reader.index = s.reader.index) ∧
      (∃ r s1, s.GetAll key = .ok (r, s1) ∧ s1.idx < s1.reader.index.length ∧
        s1.reader.index = s.reader.index)) := by
  refine ⟨?_, ?_, ?_⟩
  · intro rd hne
    exact List.length_pos.mpr hne
  · intro s hne
    exact List.length_pos.mpr hne
  · intro s key hidx
    obtain ⟨j, hj, _, hjlt, _, _⟩ := findBlock_spec s key hidx
    obtain ⟨d, err, ok, s1, hb, _, hlt, hix, hok⟩ := blockFor_total s key hidx
    refine ⟨⟨j, hj, hjlt⟩, ⟨_, s1, hb, hlt, hix⟩, ?_, ?_⟩
    · cases ok with
      | false => exact ⟨_, s1, GetFirst_of_not_ok s s1 key d err hb, hlt, hix⟩
      | true =>
        obtain ⟨b, rfl, _, _⟩ := hok rfl
        obtain ⟨⟨v, a, f⟩, b2, hscan, _⟩ := getValuesFromBuffer_total b key true
        exact ⟨_, _, GetFirst_of_scan s s1 key b b2 err v a f hb hscan, hlt, hix⟩
    · cases ok with
      | false => exact ⟨_, s1, GetAll_of_not_ok s s1 key d err hb, hlt, hix⟩
      | true =>
        obtain ⟨b, rfl, _, _⟩ := hok rfl
        obtain ⟨⟨v, a, f⟩, b2, hscan, _⟩ := getValuesFromBuffer_total b key false
        exact ⟨_, _, GetAll_of_scan s s1 key b b2 err v a f hb hscan, hlt, hix⟩

/-- Witness of C19: the worked example, fresh, reset, and queried for "t". -/
theorem index_in_bounds_witness :
    (NewScanner exampleReader).idx < (NewScanner exampleReader).reader.index.length ∧
    (exampleScannerAt 10 [109]).Reset.idx < (exampleScannerAt 10 [109]).Reset.reader.index.length ∧
    ((∃ j, (exampleScannerAt 10 [109]).findBlock [116] = .ok j ∧
        j < (exampleScannerAt 10 [109]).reader.index.length) ∧
      (∃ r s1, (exampleScannerAt 10 [109]).blockFor [116] = .ok (r, s1) ∧
        s1.idx < s1.reader.index.length ∧
        s1.reader.index = (exampleScannerAt 10 [109]).reader.index) ∧
      (∃ r s1, (exampleScannerAt 10 [109]).GetFirst [116] = .ok (r, s1) ∧
        s1.idx < s1.reader.index.length ∧
        s1.reader.index = (exampleScannerAt 10 [109]).reader.index) ∧
      (∃ r s1, (exampleScannerAt 10 [109]).GetAll [116] = .ok (r, s1) ∧
        s1.idx < s1.reader.index.length ∧
        s1.reader.index = (exampleScannerAt 10 [109]).reader.index)) :=
  ⟨index_in_bounds.1 exampleReader (by decide),
   index_in_bounds.2.1 (exampleScannerAt 10 [109]) (by decide),
   index_in_bounds.2.2 (exampleScannerAt 10 [109]) [116] (by decide)⟩

/-! ## Termination of the scan and range of the cursor -/

theorem Read_i_le (r : BytesReader) (n : Nat) (h : r.i ≤ r.s.length) :
    (r.Read n).2.i ≤ r.s.length := by
  unfold BytesReader.Read
  split
  · exact h
  · simp only [List.length_take, List.length_drop]
    omega

theorem readUint32_i_le (r : BytesReader) (h : r.i ≤ r.s.length) :
    (readUint32 r).2.i ≤ r.s.length := by
  have h1 := Read_i_le r 4 h
  unfold readUint32
  split
  split <;> simp_all

theorem readBytes_i_le (r : BytesReader) (n : Nat) (h : r.i ≤ r.s.length) :
    (readBytes r n).2.i ≤ r.s.length := by
  have h1 := Read_i_le r n h
  unfold readBytes
  split
  simp_all

theorem Seek_neg_i_le (r : BytesReader) (n : Nat) : (r.Seek (-(n : Int))).i ≤ r.i := by
  simp only [BytesReader.Seek]
  split
  · exact le_refl _
  · show ((r.i : Int) + -(n : Int)).toNat ≤ r.i
    omega

/-- The four reads of an iteration keep the bytes, never move the cursor back,
move it forward when bytes remain, and keep it inside the buffer. -/
theorem decodeRecord_cursor (buf : BytesReader) :
    (decodeRecord buf).2.s = buf.s ∧ buf.i ≤ (decodeRecord buf).2.i ∧
      (buf.Len > 0 → buf.i < (decodeRecord buf).2.i) ∧
      (buf.i ≤ buf.s.length → (decodeRecord buf).2.i ≤ buf.s.length) := by
  unfold decodeRecord
  have e1s := readUint32_s buf
  have e1i := readUint32_i_ge buf
  have e1g := readUint32_i_gt buf
  have e1l := readUint32_i_le buf
  rcases h1 : readUint32 buf with ⟨keyLen, b1⟩
  rw [h1] at e1s e1i e1g e1l
  dsimp only at e1s e1i e1g e1l ⊢
  have e2s := readUint32_s b1
  have e2i := readUint32_i_ge b1
  have e2l := readUint32_i_le b1
  rcases h2 : readUint32 b1 with ⟨valLen, b2⟩
  rw [h2] at e2s e2i e2l
  dsimp only at e2s e2i e2l ⊢
  have e3s := readBytes_s b2 keyLen
  have e3i := readBytes_i_ge b2 keyLen
  have e3l := readBytes_i_le b2 keyLen
  rcases h3 : readBytes b2 keyLen with ⟨keyBytes, b3⟩
  rw [h3] at e3s e3i e3l
  dsimp only at e3s e3i e3l ⊢
  have e4s := readBytes_s b3 valLen
  have e4i := readBytes_i_ge b3 valLen
  have e4l := readBytes_i_le b3 valLen
  rcases h4 : readBytes b3 valLen with ⟨valBytes, b4⟩
  rw [h4] at e4s e4i e4l
  dsimp only at e4s e4i e4l ⊢
  rw [e3s, e2s, e1s] at e4l
  rw [e2s, e1s] at e3l
  rw [e1s] at e2l
  refine ⟨by rw [e4s, e3s, e2s, e1s], by omega, fun hlen => ?_, fun hle => ?_⟩
  · have := e1g hlen
    omega
  · exact e4l (e3l (e2l (e1l hle)))

/-- An iteration that goes on has consumed at least one byte; an iteration
that returns leaves the cursor at or before the end of its reads. -/
theorem scanIteration_cursor (key : List Byte) (first : Bool) (buf : BytesReader)
    (acc : List (List Byte)) :
    (∀ b a, scanIteration key first buf acc = .inr (b, a) → b = (decodeRecord buf).2) ∧
    (∀ res b, scanIteration key first buf acc = .inl (res, b) →
      b.s = buf.s ∧ b.i ≤ (decodeRecord buf).2.i) := by
  have hs := (decodeRecord_cursor buf).1
  unfold scanIteration
  rcases hd : decodeRecord buf with ⟨⟨keyLen, valLen, keyBytes, valBytes⟩, b4⟩
  rw [hd] at hs
  dsimp only at hs ⊢
  by_cases hc1 : bytesCompare keyBytes key = 0 ∧ first = true
  · rw [if_pos hc1]
    refine ⟨fun b a h => (by cases h), fun res b h => ?_⟩
    cases h
    exact ⟨hs, le_refl _⟩
  · rw [if_neg hc1]
    by_cases hc2 : bytesCompare keyBytes key > 0
    · rw [if_pos hc2]
      refine ⟨fun b a h => (by cases h), fun res b h => ?_⟩
      cases h
      exact ⟨by rw [Seek_s, hs], Seek_neg_i_le _ _⟩
    · rw [if_neg hc2]
      refine ⟨fun b a h => ?_, fun res b h => (by cases h)⟩
      cases h
      rfl

theorem scanIteration_progress (key : List Byte) (first : Bool) (buf : BytesReader)
    (acc : List (List Byte)) (b : BytesReader) (a : List (List Byte)) (hlen : buf.Len > 0)
    (h : scanIteration key first buf acc = .inr (b, a)) :
    b.s = buf.s ∧ buf.i < b.i ∧ b.Len < buf.Len := by
  have hb := (scanIteration_cursor key first buf acc).1 b a h
  obtain ⟨hs, _, hgt, _⟩ := decodeRecord_cursor buf
  rw [← hb] at hs hgt
  exact ⟨hs, hgt hlen, Len_lt_of_advance hs (hgt hlen) hlen⟩

/-- A scan that starts inside the buffer ends inside the buffer. -/
theorem getValuesLoop_cursor_le (key : List Byte) (first : Bool) :
    ∀ (fuel : Nat) (buf : BytesReader) (acc : List (List Byte))
      (res : Option (List Byte) × List (List Byte) × Bool) (buf2 : BytesReader),
      getValuesLoop key first fuel buf acc = .ok (res, buf2) → buf.i ≤ buf.s.length →
      buf2.i ≤ buf2.s.length := by
  intro fuel
  induction fuel with
  | zero =>
    intro buf acc res buf2 h hle
    rw [getValuesLoop] at h
    split at h
    · cases h
    · cases h
      exact hle
  | succ fuel ih =>
    intro buf acc res buf2 h hle
    rw [getValuesLoop_iter] at h
    obtain ⟨hds, _, _, hdl⟩ := decodeRecord_cursor buf
    by_cases hlen : buf.Len > 0
    · rw [if_pos hlen] at h
      rcases hit : scanIteration key first buf acc with ⟨res1, b1⟩ | ⟨b1, a1⟩
      · rw [hit] at h
        cases h
        obtain ⟨hs, hi⟩ := (scanIteration_cursor key first buf acc).2 _ _ hit
        rw [hs]
        exact le_trans hi (hdl hle)
      · rw [hit] at h
        have hb := (scanIteration_cursor key first buf acc).1 b1 a1 hit
        refine ih b1 a1 res buf2 h ?_
        rw [hb, hds]
        exact hdl hle
    · rw [if_neg hlen] at h
      cases h
      exact hle

/-- C20: `getValuesFromBuffer` returns on every byte sequence, cursor position,
key and mode, without changing the bytes; the loop is the repetition of one
iteration while bytes remain, and an iteration that does not return consumes
at least one byte, so `buf.Len()` iterations suffice; a cursor that starts
inside the buffer ends inside the buffer. -/
theorem scan_terminates :
    (∀ (buf : BytesReader) (key : List Byte) (first : Bool),
      ∃ res buf2, getValuesFromBuffer buf key first = .ok (res, buf2) ∧ buf2.s = buf.s ∧
        (buf.i ≤ buf.s.length → buf2.i ≤ buf2.s.length)) ∧
    (∀ (key : List Byte) (first : Bool) (fuel : Nat) (buf : BytesReader)
        (acc : List (List Byte)),
      getValuesLoop key first (fuel + 1) buf acc =
        if buf.Len > 0 then
          match scanIteration key first buf acc with
          | .inl r => .ok r
          | .inr (b, a) => getValuesLoop key first fuel b a
        else .ok ((none, acc, decide (acc.length > 0)), buf)) ∧
    (∀ (key : List Byte) (first : Bool) (buf : BytesReader) (acc : List (List Byte))
        (b : BytesReader) (a : List (List Byte)),
      buf.Len > 0 → scanIteration key first buf acc = .inr (b, a) →
      b.s = buf.s ∧ buf.i < b.i ∧ b.Len < buf.Len) := by
  refine ⟨?_, getValuesLoop_iter, ?_⟩
  · intro buf key first
    obtain ⟨res, buf2, h, hs⟩ := getValuesFromBuffer_total buf key first
    exact ⟨res, buf2, h, hs,
      getValuesLoop_cursor_le key first buf.Len buf [] res buf2 h⟩
  · intro key first buf acc b a hlen h
    exact scanIteration_progress key first buf acc b a hlen h

/-- Witness of C20: a buffer cut inside its first length header, and the first
iteration over block 1 of the worked example with target "t". -/
theorem scan_terminates_witness :
    (∃ res buf2, getValuesFromBuffer ⟨[0, 0, 0], 0⟩ [1] false = .ok (res, buf2) ∧
      buf2.s = (BytesReader.mk [0, 0, 0] 0).s ∧
      ((BytesReader.mk [0, 0, 0] 0).i ≤ (BytesReader.mk [0, 0, 0] 0).s.length →
        buf2.i ≤ buf2.s.length)) ∧
    ((BytesReader.mk (encodeRecords exampleRecords) 10).s
        = (BytesReader.mk (encodeRecords exampleRecords) 0).s ∧
      (BytesReader.mk (encodeRecords exampleRecords) 0).i
        < (BytesReader.mk (encodeRecords exampleRecords) 10).i ∧
      (BytesReader.mk (encodeRecords exampleRecords) 10).Len
        < (BytesReader.mk (encodeRecords exampleRecords) 0).Len) :=
  ⟨scan_terminates.1 ⟨[0, 0, 0], 0⟩ [1] false,
   scan_terminates.2.2 [116] false ⟨encodeRecords exampleRecords, 0⟩ []
     ⟨encodeRecords exampleRecords, 10⟩ [] (by decide) rfl⟩

/-! ## The rewind seek -/

/-- The four reads in front of a complete record decode it and stop right
after it. -/
theorem decodeRecord_at (s pre post : List Byte) (r : Record) (hr : r.Encodable)
    (hs : s = pre ++ (r.encode ++ post)) :
    decodeRecord ⟨s, pre.length⟩
      = ((r.key.length, r.value.length, r.key, r.value), ⟨s, pre.length + r.size⟩) := by
  have h1 : readUint32 ⟨s, pre.length⟩ = (r.key.length, ⟨s, pre.length + 4⟩) :=
    readUint32_at s pre (putUint32 r.value.length ++ (r.key ++ (r.value ++ post))) pre.length
      r.key.length hr.1 (by rw [hs]; simp [Record.encode]) rfl
  have h2 : readUint32 ⟨s, pre.length + 4⟩ = (r.value.length, ⟨s, pre.length + 4 + 4⟩) :=
    readUint32_at s (pre ++ putUint32 r.key.length) (r.key ++ (r.value ++ post)) (pre.length + 4)
      r.value.length hr.2 (by rw [hs]; simp [Record.encode])
      (by simp only [List.length_append, putUint32_length])
  have h3 : readBytes ⟨s, pre.length + 4 + 4⟩ r.key.length
      = (r.key, ⟨s, pre.length + 4 + 4 + r.key.length⟩) :=
    readBytes_at s (pre ++ putUint32 r.key.length ++ putUint32 r.value.length) r.key
      (r.value ++ post) (pre.length + 4 + 4) (by rw [hs]; simp [Record.encode])
      (by simp only [List.length_append, putUint32_length])
  have h4 : readBytes ⟨s, pre.length + 4 + 4 + r.key.length⟩ r.value.length
      = (r.value, ⟨s, pre.length + 4 + 4 + r.key.length + r.value.length⟩) :=
    readBytes_at s (pre ++ putUint32 r.key.length ++ putUint32 r.value.length ++ r.key) r.value
      post (pre.length + 4 + 4 + r.key.length) (by rw [hs]; simp [Record.encode])
      (by simp only [List.length_append, putUint32_length])
  have hsz : pre.length + 4 + 4 + r.key.length + r.value.length = pre.length + r.size := by
    simp only [Record.size]; omega
  unfold decodeRecord
  rw [h1]
  dsimp only
  rw [h2]
  dsimp only
  rw [h3]
  dsimp only
  rw [h4, hsz]

/-- Counterexample of C16: on `truncatedBuffer` from offset 0 with target `[1]`
the iteration decodes `keyLen = 1`, `valLen = 5`, key `[9]` and a zero-filled
value, and stands at offset 9; the key is greater than the target; the seek
back by `8 + 1 + 5 = 14` targets the negative position `-5`, is refused, and the
cursor ends at 9, not at 0 where the decoding began. -/
theorem rewind_on_truncated_record :
    decodeRecord ⟨truncatedBuffer, 0⟩
      = ((1, 5, [9], [0, 0, 0, 0, 0]), ⟨truncatedBuffer, 9⟩) ∧
    bytesCompare [9] [1] > 0 ∧
    ((9 : Int) + -(((1 + 5 + 8) % 2 ^ 32 : Nat) : Int) < 0) ∧
    scanIteration [1] false ⟨truncatedBuffer, 0⟩ []
      = .inl ((none, [], false), ⟨truncatedBuffer, 9⟩) ∧
    getValuesFromBuffer ⟨truncatedBuffer, 0⟩ [1] false
      = .ok ((none, [], false), ⟨truncatedBuffer, 9⟩) ∧
    getValuesFromBuffer ⟨truncatedBuffer, 0⟩ [1] true
      = .ok ((none, [], false), ⟨truncatedBuffer, 9⟩) ∧
    (9 : Nat) ≠ 0 :=
  ⟨rfl, by decide, by decide, rfl, rfl, rfl, by decide⟩

/-- C16 (amended): for every buffer and cursor position at which a complete
record is encoded (whatever precedes and follows it) with
`8 + keyLen + valLen < 2 ^ 32`, when the iteration stops because the record's
key is greater than the target, the seek back by `8 + keyLen + valLen` targets
a position that is not negative, namely the offset where the decoding of the
record began, and the cursor ends exactly there. -/
theorem rewind_exact_on_complete_record (key : List Byte) (first : Bool) (fuel : Nat)
    (pre post : List Byte) (r : Record) (acc : List (List Byte))
    (hr : r.Encodable) (hsize : r.size < 2 ^ 32) (hgt : bytesCompare r.key key > 0) :
    decodeRecord ⟨pre ++ (r.encode ++ post), pre.length⟩
      = ((r.key.length, r.value.length, r.key, r.value),
          ⟨pre ++ (r.encode ++ post), pre.length + r.size⟩) ∧
    ((pre.length + r.size : Nat) : Int)
      + -(((r.key.length + r.value.length + 8) % 2 ^ 32 : Nat) : Int) = (pre.length : Int) ∧
    (∃ res, scanIteration key first ⟨pre ++ (r.encode ++ post), pre.length⟩ acc
      = .inl (res, ⟨pre ++ (r.encode ++ post), pre.length⟩)) ∧
    (∃ res, getValuesLoop key first (fuel + 1) ⟨pre ++ (r.encode ++ post), pre.length⟩ acc
      = .ok (res, ⟨pre ++ (r.encode ++ post), pre.length⟩)) := by
  have hd := decodeRecord_at (pre ++ (r.encode ++ post)) pre post r hr rfl
  have hsz2 : r.key.length + r.value.length + 8 = r.size := by
    simp only [Record.size]; omega
  have hne : ¬ (bytesCompare r.key key = 0 ∧ first = true) := by
    intro h
    omega
  have hiter : ∃ res, scanIteration key first ⟨pre ++ (r.encode ++ post), pre.length⟩ acc
      = .inl (res, ⟨pre ++ (r.encode ++ post), pre.length⟩) := by
    unfold scanIteration
    rw [hd]
    dsimp only
    rw [if_neg hne, if_pos hgt, hsz2, Seek_rewind, rewindPos_exact _ r hsize]
    exact ⟨_, rfl⟩
  refine ⟨hd, ?_, hiter, ?_⟩
  · rw [hsz2, Nat.mod_eq_of_lt hsize]
    push_cast
    omega
  · obtain ⟨res, hres⟩ := hiter
    have hlen : (BytesReader.mk (pre ++ (r.encode ++ post)) pre.length).Len > 0 := by
      apply Len_pos_of_lt
      simp only [List.length_append, Record.encode_length, Record.size]
      omega
    rw [getValuesLoop_iter, if_pos hlen, hres]
    exact ⟨res, rfl⟩

/-- Witness of C16 (amended): block 1 of the worked example at offset 20, in
front of the record ("t",3), with target "m". -/
theorem rewind_exact_on_complete_record_witness :
    decodeRecord ⟨encodeRecords [⟨[109], [1]⟩, ⟨[109], [2]⟩]
        ++ ((Record.mk [116] [3]).encode ++ []),
        (encodeRecords [⟨[109], [1]⟩, ⟨[109], [2]⟩]).length⟩
      = (((Record.mk [116] [3]).key.length, (Record.mk [116] [3]).value.length,
          (Record.mk [116] [3]).key, (Record.mk [116] [3]).value),
          ⟨encodeRecords [⟨[109], [1]⟩, ⟨[109], [2]⟩] ++ ((Record.mk [116] [3]).encode ++ []),
            (encodeRecords [⟨[109], [1]⟩, ⟨[109], [2]⟩]).length + (Record.mk [116] [3]).size⟩) ∧
    (((encodeRecords [⟨[109], [1]⟩, ⟨[109], [2]⟩]).length + (Record.mk [116] [3]).size : Nat)
        : Int)
      + -((((Record.mk [116] [3]).key.length + (Record.mk [116] [3]).value.length + 8)
          % 2 ^ 32 : Nat) : Int)
      = ((encodeRecords [⟨[109], [1]⟩, ⟨[109], [2]⟩]).length : Int) ∧
    (∃ res, scanIteration [109] false
        ⟨encodeRecords [⟨[109], [1]⟩, ⟨[109], [2]⟩] ++ ((Record.mk [116] [3]).encode ++ []),
          (encodeRecords [⟨[109], [1]⟩, ⟨[109], [2]⟩]).length⟩ [[2]]
      = .inl (res,
        ⟨encodeRecords [⟨[109], [1]⟩, ⟨[109], [2]⟩] ++ ((Record.mk [116] [3]).encode ++ []),
          (encodeRecords [⟨[109], [1]⟩, ⟨[109], [2]⟩]).length⟩)) ∧
    (∃ res, getValuesLoop [109] false (3 + 1)
        ⟨encodeRecords [⟨[109], [1]⟩, ⟨[109], [2]⟩] ++ ((Record.mk [116] [3]).encode ++ []),
          (encodeRecords [⟨[109], [1]⟩, ⟨[109], [2]⟩]).length⟩ [[2]]
      = .ok (res,
        ⟨encodeRecords [⟨[109], [1]⟩, ⟨[109], [2]⟩] ++ ((Record.mk [116] [3]).encode ++ []),
          (encodeRecords [⟨[109], [1]⟩, ⟨[109], [2]⟩]).length⟩)) :=
  rewind_exact_on_complete_record [109] false 3 (encodeRecords [⟨[109], [1]⟩, ⟨[109], [2]⟩]) []
    ⟨[116], [3]⟩ [[2]] (by decide) (by decide) (by decide)

/-! ## Reference semantics of the in-block scan -/

theorem cursorAfterFirst_eq (key : List Byte) :
    ∀ (rest : List Record) (pos : Nat), (∀ r ∈ rest, r.size < 2 ^ 32) →
      cursorAfterFirst key pos rest = pos + (encodeRecords (consumedFirst key rest)).length := by
  intro rest
  induction rest with
  | nil => intro pos _; rfl
  | cons r rs ih =>
    intro pos h
    by_cases heq : bytesCompare r.key key = 0
    · simp only [cursorAfterFirst, consumedFirst, heq, if_true, encodeRecords_cons_length]
      rfl
    · by_cases hgt : bytesCompare r.key key > 0
      · simp only [cursorAfterFirst, consumedFirst, heq, hgt, if_true, if_false]
        rw [rewindPos_exact pos r (h r (List.mem_cons_self _ _))]
        rfl
      · have hih := ih (pos + r.size) (fun x hx => h x (List.mem_cons_of_mem _ hx))
        simp only [cursorAfterFirst, consumedFirst, heq, hgt, if_false,
          encodeRecords_cons_length, hih]
        omega

/-- The records a `first`-mode scan consumes lie in the scanned prefix, and
they are followed by the rest of the records. -/
theorem consumedFirst_prefix (key : List Byte) (rs : List Record) :
    ∃ tail, consumedFirst key rs ++ tail = rs ∧
      ∀ r ∈ consumedFirst key rs, bytesCompare r.key key ≤ 0 := by
  induction rs with
  | nil => exact ⟨[], rfl, fun r hr => by cases hr⟩
  | cons r rs ih =>
    obtain ⟨tail, ht, hall⟩ := ih
    by_cases heq : bytesCompare r.key key = 0
    · refine ⟨rs, by simp [consumedFirst, heq], ?_⟩
      intro x hx
      simp only [consumedFirst, heq, if_true, List.mem_singleton] at hx
      rw [hx]
      omega
    · by_cases hgt : bytesCompare r.key key > 0
      · exact ⟨r :: rs, by simp [consumedFirst, heq, hgt], fun x hx => by
          simp [consumedFirst, heq, hgt] at hx⟩
      · refine ⟨tail, by simp [consumedFirst, heq, hgt, ht], ?_⟩
        intro x hx
        simp only [consumedFirst, heq, hgt, if_false, List.mem_cons] at hx
        rcases hx with rfl | hx
        · omega
        · exact hall x hx

/-- The records of the scanned prefix have keys `≤ key` and are followed by the
rest of the records. -/
theorem scannedPrefix_prefix (key : List Byte) (rs : List Record) :
    ∃ tail, scannedPrefix key rs ++ tail = rs ∧
      ∀ r ∈ scannedPrefix key rs, bytesCompare r.key key ≤ 0 := by
  refine ⟨_, scannedPrefix_append_rest key rs, ?_⟩
  intro r hr
  have := List.mem_takeWhile_imp hr
  simpa using this

/-- Reference semantics of the scan on well-formed buffers whose records stay
below `2 ^ 32` bytes.  With `P = scannedPrefix key rest`: in `all` mode the
values of the records of `P` with the key, `found` exactly when there is one,
and the cursor right after `P`; in `first` mode the first of those values with
`found = true`, or nothing with `found = false`, and the cursor right after the
consumed records. -/
theorem scan_reference_semantics (key : List Byte) (done rest : List Record)
    (henc : ∀ r ∈ rest, r.Encodable ∧ r.size < 2 ^ 32) :
    getValuesFromBuffer ⟨encodeRecords (done ++ rest), (encodeRecords done).length⟩ key false
      = .ok ((none, valuesOf key (scannedPrefix key rest),
              decide ((valuesOf key (scannedPrefix key rest)).length > 0)),
            ⟨encodeRecords (done ++ rest),
              (encodeRecords (done ++ scannedPrefix key rest)).length⟩) ∧
    getValuesFromBuffer ⟨encodeRecords (done ++ rest), (encodeRecords done).length⟩ key true
      = .ok (((valuesOf key (scannedPrefix key rest)).head?, [],
              decide (valuesOf key (scannedPrefix key rest) ≠ [])),
            ⟨encodeRecords (done ++ rest),
              (encodeRecords (done ++ consumedFirst key rest)).length⟩) := by
  have henc1 : ∀ r ∈ rest, r.Encodable := fun r hr => (henc r hr).1
  have henc2 : ∀ r ∈ rest, r.size < 2 ^ 32 := fun r hr => (henc r hr).2
  constructor
  · rw [getValuesFromBuffer_all key done rest henc1, cursorAfterAll_eq key rest _ henc2]
    simp only [encodeRecords_append, List.length_append]
  · rw [getValuesFromBuffer_first key done rest henc1, cursorAfterFirst_eq key rest _ henc2]
    simp only [encodeRecords_append, List.length_append]

/-- The scans of a block holding one record of exactly `2 ^ 32` bytes, for a
target below its key: nothing is scanned over, and the cursor ends at `2 ^ 32`,
past the record instead of in front of it. -/
theorem scan_wraps (v : List Byte) (hv : v.length = 4294967287) :
    (hugeRecord v).Encodable ∧ bytesCompare (hugeRecord v).key [0] > 0 ∧
    scannedPrefix [0] [hugeRecord v] = [] ∧
    (encodeRecords ([] ++ scannedPrefix [0] [hugeRecord v])).length = 0 ∧
    getValuesFromBuffer ⟨encodeRecords [hugeRecord v], 0⟩ [0] false
      = .ok ((none, [], false), ⟨encodeRecords [hugeRecord v], 4294967296⟩) ∧
    getValuesFromBuffer ⟨encodeRecords [hugeRecord v], 0⟩ [0] true
      = .ok ((none, [], false), ⟨encodeRecords [hugeRecord v], 4294967296⟩) ∧
    (4294967296 : Nat) ≠ 0 := by
  have hsize := hugeRecord_size v hv
  have hencodable : (hugeRecord v).Encodable := by
    show [(1 : Byte)].length < 2 ^ 32 ∧ v.length < 2 ^ 32
    rw [hv]
    exact ⟨by decide, by decide⟩
  have henc : ∀ r ∈ [hugeRecord v], r.Encodable := fun r hr => by
    rw [List.mem_singleton.mp hr]
    exact hencodable
  have hr : bytesCompare (hugeRecord v).key [0] > 0 := by
    show bytesCompare [1] [0] > 0
    decide
  have hnle : ¬ bytesCompare (hugeRecord v).key [0] ≤ 0 := by
    show ¬ bytesCompare [1] [0] ≤ 0
    decide
  have hne : ¬ bytesCompare (hugeRecord v).key [0] = 0 := by
    show ¬ bytesCompare [1] [0] = 0
    decide
  have hsp : scannedPrefix [0] [hugeRecord v] = [] := by
    simp only [scannedPrefix, List.takeWhile_cons, hnle, decide_False]
    rfl
  have hrew : rewindPos (0 + (hugeRecord v).size) (hugeRecord v) = 4294967296 := by
    simp only [rewindPos, hsize]
    norm_num
  have hcurA : cursorAfterAll [0] (encodeRecords []).length [hugeRecord v] = 4294967296 := by
    show (if bytesCompare (hugeRecord v).key [0] > 0 then
      rewindPos (0 + (hugeRecord v).size) (hugeRecord v) else _) = _
    rw [if_pos hr, hrew]
  have hcurF : cursorAfterFirst [0] (encodeRecords []).length [hugeRecord v] = 4294967296 := by
    show (if bytesCompare (hugeRecord v).key [0] = 0 then _
      else if bytesCompare (hugeRecord v).key [0] > 0 then
        rewindPos (0 + (hugeRecord v).size) (hugeRecord v) else _) = _
    rw [if_neg hne, if_pos hr, hrew]
  have hA := getValuesFromBuffer_all [0] [] [hugeRecord v] henc
  have hF := getValuesFromBuffer_first [0] [] [hugeRecord v] henc
  rw [hcurA, hsp] at hA
  rw [hcurF, hsp] at hF
  refine ⟨hencodable, hr, hsp, ?_, hA, hF, by decide⟩
  rw [hsp]
  rfl

/-- C15: the failing input.  The buffer holding the single well-formed record
`hugeRecord bigValue` (`2 ^ 32` bytes), cursor at offset 0, target `[0]`: the
longest prefix `P` of records with keys `≤ [0]` is empty, so the cursor should
stay at offset 0, in front of the record; in both modes the scan returns no
value with `found = false` and leaves the cursor at `2 ^ 32`, the end of the
buffer. -/
theorem scan_cursor_past_huge_record :
    (hugeRecord bigValue).Encodable ∧ bytesCompare (hugeRecord bigValue).key [0] > 0 ∧
    scannedPrefix [0] [hugeRecord bigValue] = [] ∧
    (encodeRecords ([] ++ scannedPrefix [0] [hugeRecord bigValue])).length = 0 ∧
    getValuesFromBuffer ⟨encodeRecords [hugeRecord bigValue], 0⟩ [0] false
      = .ok ((none, [], false), ⟨encodeRecords [hugeRecord bigValue], 4294967296⟩) ∧
    getValuesFromBuffer ⟨encodeRecords [hugeRecord bigValue], 0⟩ [0] true
      = .ok ((none, [], false), ⟨encodeRecords [hugeRecord bigValue], 4294967296⟩) ∧
    (4294967296 : Nat) ≠ 0 :=
  scan_wraps bigValue bigValue_length

/-! ## Lookups over a whole file -/

theorem mem_allRecords {blocks : List (List Record)} {i : Nat} {blk : List Record} {r : Record}
    (hb : blocks[i]? = some blk) (hr : r ∈ blk) : r ∈ allRecords blocks := by
  induction blocks generalizing i with
  | nil => simp at hb
  | cons b bs ih =>
    cases i with
    | zero =>
      simp only [List.getElem?_cons_zero, Option.some.injEq] at hb
      subst hb
      exact List.mem_append_left _ hr
    | succ i =>
      simp only [List.getElem?_cons_succ] at hb
      exact List.mem_append_right _ (ih hb)

/-- Records of an earlier block have keys `≤` those of a later block. -/
theorem cross_block_le {blocks : List (List Record)} (hs : SortedRecords (allRecords blocks))
    {i j : Nat} {bi bj : List Record} {ri rj : Record} (hij : i < j)
    (hbi : blocks[i]? = some bi) (hbj : blocks[j]? = some bj) (hri : ri ∈ bi) (hrj : rj ∈ bj) :
    bytesCompare ri.key rj.key ≤ 0 := by
  induction blocks generalizing i j with
  | nil => simp at hbi
  | cons b bs ih =>
    have hsplit := List.pairwise_append.mp hs
    cases j with
    | zero => omega
    | succ j =>
      simp only [List.getElem?_cons_succ] at hbj
      cases i with
      | zero =>
        simp only [List.getElem?_cons_zero, Option.some.injEq] at hbi
        subst hbi
        exact hsplit.2.2 ri hri rj (mem_allRecords hbj hrj)
      | succ i =>
        simp only [List.getElem?_cons_succ] at hbi
        exact ih hsplit.2.1 (by omega) hbi hbj

/-- Every block of a globally sorted file is sorted. -/
theorem block_sorted {blocks : List (List Record)} (hs : SortedRecords (allRecords blocks))
    {i : Nat} {blk : List Record} (hb : blocks[i]? = some blk) : SortedRecords blk := by
  induction blocks generalizing i with
  | nil => simp at hb
  | cons b bs ih =>
    have hsplit := List.pairwise_append.mp hs
    cases i with
    | zero =>
      simp only [List.getElem?_cons_zero, Option.some.injEq] at hb
      subst hb
      exact hsplit.1
    | succ i =>
      simp only [List.getElem?_cons_succ] at hb
      exact ih hsplit.2.1 hb

/-- The first record of a block has a key `≤` every record of that block and
of every later block. -/
theorem first_record_le {blocks : List (List Record)} (hs : SortedRecords (allRecords blocks))
    {i j : Nat} {r0 : Record} {tl bj : List Record} {r : Record} (hij : i ≤ j)
    (hbi : blocks[i]? = some (r0 :: tl)) (hbj : blocks[j]? = some bj) (hr : r ∈ bj) :
    bytesCompare r0.key r.key ≤ 0 := by
  rcases Nat.lt_or_eq_of_le hij with hlt | heq
  · exact cross_block_le hs hlt hbi hbj (List.mem_cons_self _ _) hr
  · subst heq
    rw [hbi] at hbj
    cases hbj
    rcases List.mem_cons.mp hr with rfl | hr2
    · rw [bytesCompare_self]
    · exact (List.pairwise_cons.mp (block_sorted hs hbi)).1 r hr2

theorem bytesCompare_antisymm {a b : List Byte} (h1 : bytesCompare a b ≤ 0)
    (h2 : bytesCompare b a ≤ 0) : a = b := by
  have := bytesCompare_swap a b
  exact bytesCompare_eq_zero.mp (by omega)

/-- The index of a well-formed file is strictly increasing. -/
theorem wellFormed_strictlyIncreasing (rd : Reader) (blocks : List (List Record))
    (hw : WellFormedFile rd blocks) : StrictlyIncreasing rd.index := by
  obtain ⟨_, hlen, hblk, hs, hnodup, _⟩ := hw
  rw [StrictlyIncreasing, List.pairwise_iff_getElem]
  intro i j hi hj hij
  have hi2 : i < blocks.length := by omega
  have hj2 : j < blocks.length := by omega
  obtain ⟨⟨ri, tli, hbi, hxi⟩, _⟩ := hblk i _ (List.getElem?_eq_getElem hi2)
  obtain ⟨⟨rj, tlj, hbj, hxj⟩, _⟩ := hblk j _ (List.getElem?_eq_getElem hj2)
  rw [List.getElem?_eq_getElem hi] at hxi
  rw [List.getElem?_eq_getElem hj] at hxj
  rw [Option.some.inj hxi, Option.some.inj hxj]
  have hbi2 : blocks[i]? = some (ri :: tli) := by rw [List.getElem?_eq_getElem hi2, hbi]
  have hbj2 : blocks[j]? = some (rj :: tlj) := by rw [List.getElem?_eq_getElem hj2, hbj]
  have hle := cross_block_le hs hij hbi2 hbj2 (List.mem_cons_self _ _) (List.mem_cons_self _ _)
  rcases lt_or_eq_of_le hle with hlt | heq
  · exact hlt
  · have hk := bytesCompare_eq_zero.mp heq
    have := hnodup i j _ _ ri rj hbi2 hbj2 (List.mem_cons_self _ _) (List.mem_cons_self _ _) hk
    omega

theorem valuesOf_append (k : List Byte) (a b : List Record) :
    valuesOf k (a ++ b) = valuesOf k a ++ valuesOf k b := by
  simp [valuesOf]

theorem valuesOf_eq_nil (k : List Byte) (rs : List Record) (h : ∀ r ∈ rs, r.key ≠ k) :
    valuesOf k rs = [] := by
  have hfil : rs.filter (fun r => decide (bytesCompare r.key k = 0)) = [] := by
    rw [List.filter_eq_nil_iff]
    intro r hr
    have := h r hr
    simp only [decide_eq_true_eq]
    intro h0
    exact this (bytesCompare_eq_zero.mp h0)
  simp [valuesOf, hfil]

theorem exists_block_of_mem {blocks : List (List Record)} {r : Record}
    (hr : r ∈ allRecords blocks) :
    ∃ (i : Nat) (blk : List Record), blocks[i]? = some blk ∧ r ∈ blk := by
  induction blocks with
  | nil => cases hr
  | cons b bs ih =>
    rcases List.mem_append.mp hr with h | h
    · exact ⟨0, b, by simp, h⟩
    · obtain ⟨i, blk, hblk, hmem⟩ := ih h
      exact ⟨i + 1, blk, by simpa using hblk, hmem⟩

/-- When the key occurs in no block, the file has no value for it. -/
theorem valuesOf_no_block (k : List Byte) (blocks : List (List Record))
    (h : ∀ (i : Nat) (b : List Record) (r : Record), blocks[i]? = some b → r ∈ b → r.key ≠ k) :
    valuesOf k (allRecords blocks) = [] := by
  apply valuesOf_eq_nil
  intro r hr
  obtain ⟨i, blk, hblk, hmem⟩ := exists_block_of_mem hr
  exact h i blk r hblk hmem

/-- When the key occurs in block `j` only, the values of the file for it are
those of block `j`. -/
theorem valuesOf_only_block (k : List Byte) :
    ∀ (blocks : List (List Record)) (j : Nat) (blk : List Record), blocks[j]? = some blk →
      (∀ (i : Nat) (b : List Record) (r : Record), blocks[i]? = some b → r ∈ b → r.key = k →
        i = j) →
      valuesOf k (allRecords blocks) = valuesOf k blk := by
  intro blocks
  induction blocks with
  | nil => intro j blk hj _; simp at hj
  | cons b bs ih =>
    intro j blk hj honly
    show valuesOf k (b ++ allRecords bs) = _
    rw [valuesOf_append]
    cases j with
    | zero =>
      simp only [List.getElem?_cons_zero, Option.some.injEq] at hj
      subst hj
      have hrest : valuesOf k (allRecords bs) = [] := by
        apply valuesOf_no_block
        intro i b2 r hb2 hr hk
        have := honly (i + 1) b2 r (by simpa using hb2) hr hk
        omega
      rw [hrest, List.append_nil]
    | succ j =>
      simp only [List.getElem?_cons_succ] at hj
      have hfirst : valuesOf k b = [] := by
        apply valuesOf_eq_nil
        intro r hr hk
        have := honly 0 b r (by simp) hr hk
        omega
      rw [hfirst, List.nil_append]
      apply ih j blk hj
      intro i b2 r hb2 hr hk
      have := honly (i + 1) b2 r (by simpa using hb2) hr hk
      omega

/-- A key below the first key of the file occurs in no block. -/
theorem key_below_first (rd : Reader) (blocks : List (List Record)) (k : List Byte)
    (hw : WellFormedFile rd blocks) (b0 : Block) (h0 : rd.index[0]? = some b0)
    (hlt : bytesCompare b0.firstKeyBytes k > 0) :
    ∀ (i : Nat) (b : List Record) (r : Record), blocks[i]? = some b → r ∈ b → r.key ≠ k := by
  obtain ⟨hne, hlen, hblk, hs, _, _⟩ := hw
  intro i b r hb hr hk
  have hpos : 0 < blocks.length := List.length_pos.mpr hne
  obtain ⟨⟨r0, tl, hb0, hx0⟩, _⟩ := hblk 0 _ (List.getElem?_eq_getElem hpos)
  rw [h0] at hx0
  cases hx0
  have hb02 : blocks[0]? = some (r0 :: tl) := by rw [List.getElem?_eq_getElem hpos, hb0]
  have hle := first_record_le hs (Nat.zero_le i) hb02 hb hr
  rw [hk] at hle
  simp only at hlt
  omega

/-- A key that lies between the first key of block `j` and the first key of
block `j + 1` occurs in block `j` only. -/
theorem key_in_block_only (rd : Reader) (blocks : List (List Record)) (k : List Byte)
    (hw : WellFormedFile rd blocks) (j : Nat) (bj : Block) (hj : rd.index[j]? = some bj)
    (hlow : bytesCompare bj.firstKeyBytes k ≤ 0)
    (hhigh : ∀ b, rd.index[j + 1]? = some b → bytesCompare b.firstKeyBytes k > 0) :
    ∀ (i : Nat) (b : List Record) (r : Record), blocks[i]? = some b → r ∈ b → r.key = k →
      i = j := by
  obtain ⟨hne, hlen, hblk, hs, hnodup, _⟩ := hw
  intro i b r hb hr hk
  have hjlt : j < blocks.length := by
    have := (List.getElem?_eq_some_iff.mp hj).1
    omega
  have hilt : i < blocks.length := (List.getElem?_eq_some_iff.mp hb).1
  obtain ⟨⟨rj, tlj, hbj, hxj⟩, _⟩ := hblk j _ (List.getElem?_eq_getElem hjlt)
  rw [hj] at hxj
  cases hxj
  have hbj2 : blocks[j]? = some (rj :: tlj) := by rw [List.getElem?_eq_getElem hjlt, hbj]
  simp only at hlow
  by_contra hne2
  rcases Nat.lt_or_gt_of_ne hne2 with hlt | hgt
  · have h1 := cross_block_le hs hlt hb hbj2 hr (List.mem_cons_self _ _)
    rw [hk] at h1
    have heq := bytesCompare_antisymm h1 hlow
    have := hnodup i j b _ r rj hb hbj2 hr (List.mem_cons_self _ _) (by rw [hk, heq])
    omega
  · have hj1 : j + 1 < blocks.length := by omega
    obtain ⟨⟨rn, tln, hbn, hxn⟩, _⟩ := hblk (j + 1) _ (List.getElem?_eq_getElem hj1)
    have hbn2 : blocks[j + 1]? = some (rn :: tln) := by
      rw [List.getElem?_eq_getElem hj1, hbn]
    have h1 := hhigh _ hxn
    simp only at h1
    have h2 := first_record_le hs (show j + 1 ≤ i by omega) hbn2 hb hr
    rw [hk] at h2
    omega

/-- Resolution of a key greater than the last queried one over a well-formed
file: either the key is below the first key of the file and no record has it,
or `blockFor` hands out the buffer of the one block that can hold the key, its
cursor on a record boundary with only smaller keys before it. -/
theorem file_blockFor (rd : Reader) (blocks : List (List Record)) (s : Scanner)
    (k : List Byte) (hw : WellFormedFile rd blocks) (hinv : FileInv rd blocks s)
    (hord : ∀ last, s.lastKey = some last → bytesCompare last k < 0) :
    (∃ s1, s.blockFor k = .ok ((none, none, false), s1) ∧
      valuesOf k (allRecords blocks) = [] ∧ FileInv rd blocks s1 ∧ s1.lastKey = some k) ∨
    (∃ done rest s0,
      s.blockFor k = .ok ((some ⟨encodeRecords (done ++ rest), (encodeRecords done).length⟩,
        none, true), s0) ∧
      blocks[s0.idx]? = some (done ++ rest) ∧ (∀ r ∈ done, bytesCompare r.key k < 0) ∧
      s0.lastKey = some k ∧ s0.reader.index = rd.index ∧ s0.reader.blocks = rd.blocks ∧
      s0.idx < blocks.length ∧
      valuesOf k (allRecords blocks) = valuesOf k (done ++ rest) ∧
      (∀ b0, rd.index[s0.idx]? = some b0 → bytesCompare b0.firstKeyBytes k ≤ 0)) := by
  obtain ⟨hix, hbl, hidx, hnone, hsome⟩ := hinv
  have hlen : rd.index.length = blocks.length := hw.2.1
  have hidx2 : s.idx < s.reader.index.length := by rw [hix, hlen]; exact hidx
  have hin : s.InOrder k := fun last hl => by
    have := hord last hl
    have := bytesCompare_swap last k
    omega
  have hcur := List.getElem?_eq_getElem hidx2
  -- facts shared by the two branches in which a buffer is handed out
  have hresolved : ∀ (done rest : List Record) (s0 : Scanner),
      s.blockFor k = .ok ((some ⟨encodeRecords (done ++ rest), (encodeRecords done).length⟩,
        none, true), s0) →
      blocks[s0.idx]? = some (done ++ rest) → (∀ r ∈ done, bytesCompare r.key k < 0) →
      s0.idx < blocks.length →
      ∃ done rest s0,
        s.blockFor k = .ok ((some ⟨encodeRecords (done ++ rest), (encodeRecords done).length⟩,
          none, true), s0) ∧
        blocks[s0.idx]? = some (done ++ rest) ∧ (∀ r ∈ done, bytesCompare r.key k < 0) ∧
        s0.lastKey = some k ∧ s0.reader.index = rd.index ∧ s0.reader.blocks = rd.blocks ∧
        s0.idx < blocks.length ∧
        valuesOf k (allRecords blocks) = valuesOf k (done ++ rest) ∧
        (∀ b0, rd.index[s0.idx]? = some b0 → bytesCompare b0.firstKeyBytes k ≤ 0) := by
    intro done rest s0 hb hblk hdone hlt
    obtain ⟨_, _, hlk, _, hix0, hbl0, _, ⟨bj, hbj, hafter⟩, hnext⟩ :=
      blockFor_ok_resolved s s0 k _ none hb
    rw [hix0, hix] at hbj hnext
    have hlow := (isAfter_false_iff _ _).mp hafter
    have honly := key_in_block_only rd blocks k hw s0.idx bj hbj hlow
      (fun b hb2 => (isAfter_iff _ _).mp (hnext b hb2))
    refine ⟨done, rest, s0, hb, hblk, hdone, hlk, by rw [hix0, hix], by rw [hbl0, hbl], hlt,
      valuesOf_only_block k blocks s0.idx _ hblk honly, ?_⟩
    intro b0 hb0
    rw [hbj] at hb0
    cases hb0
    exact hlow
  rcases blockFor_cases s k _ hcur with ⟨last, hl, hgt, _⟩ | ⟨_, hrest⟩
  · exact absurd hgt (hin last hl)
  · rcases hrest with ⟨hafter, hb⟩ | ⟨hafter, j, hj, hle, hlt, ⟨hjeq, b, hbuf, hb⟩ |
      ⟨hload, ⟨e, he, hb⟩ | ⟨data, hdata, hb⟩⟩⟩
    · -- the current block starts after the key
      left
      have hbufnone : s.buf = none := by
        cases hbuf : s.buf with
        | none => rfl
        | some b =>
          obtain ⟨last, done, rest, hl, _, _, _, hfirst⟩ := hsome b hbuf
          have hcur2 : rd.index[s.idx]? = some (s.reader.index[s.idx]) := by
            rw [← hix]; exact hcur
          have h1 := hfirst _ hcur2
          have h2 := hord last hl
          have h3 := bytesCompare_lt_of_le_of_lt h1 h2
          have h4 := (isAfter_iff _ _).mp hafter
          omega
      have hzero : s.idx = 0 := hnone hbufnone
      have hcur0 : rd.index[0]? = some (s.reader.index[s.idx]) := by
        rw [← hzero, ← hix]; exact hcur
      refine ⟨_, hb, ?_, ⟨hix, hbl, hidx, hnone, ?_⟩, rfl⟩
      · exact valuesOf_no_block k blocks
          (key_below_first rd blocks k hw _ hcur0 ((isAfter_iff _ _).mp hafter))
      · intro b hbeq
        rw [show ({ s with lastKey := some k } : Scanner).buf = s.buf from rfl, hbufnone] at hbeq
        cases hbeq
    · -- the loaded buffer is reused
      right
      obtain ⟨last, done, rest, hl, hblk, hbeq, hdone, _⟩ := hsome b hbuf
      subst hbeq
      exact hresolved done rest _ hb hblk
        (fun r hr => bytesCompare_lt_of_le_of_lt (hdone r hr) (hord last hl)) hidx
    · -- the Store cannot fail on a block of the file
      exfalso
      have hjlt : j < blocks.length := by rw [hix, hlen] at hlt; exact hlt
      have hok := (hw.2.2.1 j _ (List.getElem?_eq_getElem hjlt)).2
      rw [hbl, hok] at he
      cases he
    · -- a fresh buffer of block j is loaded
      right
      have hjlt : j < blocks.length := by rw [hix, hlen] at hlt; exact hlt
      have hok := (hw.2.2.1 j _ (List.getElem?_eq_getElem hjlt)).2
      rw [hbl, hok] at hdata
      cases hdata
      exact hresolved [] blocks[j] _ hb (List.getElem?_eq_getElem hjlt)
        (fun r hr => by cases hr) hjlt

/-- The file invariant after a scan that consumed the records `P` of the rest
of the current block, all with keys `≤ k`. -/
theorem fileInv_after_scan (rd : Reader) (blocks : List (List Record)) (s0 : Scanner)
    (k : List Byte) (done rest P tail : List Record) (hP : P ++ tail = rest)
    (hPk : ∀ r ∈ P, bytesCompare r.key k ≤ 0)
    (hblk : blocks[s0.idx]? = some (done ++ rest))
    (hdone : ∀ r ∈ done, bytesCompare r.key k < 0) (hlk : s0.lastKey = some k)
    (hix : s0.reader.index = rd.index) (hbl : s0.reader.blocks = rd.blocks)
    (hlt : s0.idx < blocks.length)
    (hfirst : ∀ b0, rd.index[s0.idx]? = some b0 → bytesCompare b0.firstKeyBytes k ≤ 0) :
    FileInv rd blocks { s0 with buf := some ⟨encodeRecords (done ++ rest),
      (encodeRecords (done ++ P)).length⟩ } := by
  refine ⟨hix, hbl, hlt, fun h => (by cases h), ?_⟩
  intro b hb
  have hb2 : b = ⟨encodeRecords (done ++ rest), (encodeRecords (done ++ P)).length⟩ :=
    (Option.some.inj hb).symm
  have hsplit : done ++ rest = (done ++ P) ++ tail := by
    rw [List.append_assoc, hP]
  refine ⟨k, done ++ P, tail, hlk, ?_, ?_, ?_, hfirst⟩
  · show blocks[s0.idx]? = some ((done ++ P) ++ tail)
    rw [← hsplit]
    exact hblk
  · rw [hb2, hsplit]
  · intro r hr
    rcases List.mem_append.mp hr with h | h
    · have := hdone r h
      omega
    · exact hPk r h

/-- One lookup over a well-formed file whose records stay below `2 ^ 32`
bytes, for a key greater than the last queried one: the answer is the one read
off the whole file, and the file invariant holds afterwards with the key as
last key. -/
theorem file_ask (rd : Reader) (blocks : List (List Record)) (s : Scanner) (q : Query)
    (hw : WellFormedFile rd blocks) (hsmall : ∀ r ∈ allRecords blocks, r.size < 2 ^ 32)
    (hinv : FileInv rd blocks s)
    (hord : ∀ last, s.lastKey = some last → bytesCompare last q.key < 0) :
    ∃ s1, s.ask q = .ok (expectedAnswer blocks q, s1) ∧ FileInv rd blocks s1 ∧
      s1.lastKey = some q.key := by
  rcases file_blockFor rd blocks s q.key hw hinv hord with
    ⟨s1, hb, hv, hinv1, hlk⟩ | ⟨done, rest, s0, hb, hblk, hdone, hlk, hix, hbl, hlt, hv, hfirst⟩
  · refine ⟨s1, ?_, hinv1, hlk⟩
    by_cases hq : q.first = true
    · simp only [Scanner.ask, expectedAnswer, hq, if_true, GetFirst_of_not_ok s s1 q.key _ _ hb,
        hv]
      rfl
    · simp only [Scanner.ask, expectedAnswer, hq, if_false, GetAll_of_not_ok s s1 q.key _ _ hb,
        hv]
      rfl
  · have henc : ∀ r ∈ rest, r.Encodable ∧ r.size < 2 ^ 32 := fun r hr => by
      have hmem := mem_allRecords hblk (List.mem_append_right done hr)
      exact ⟨hw.2.2.2.2.2 r hmem, hsmall r hmem⟩
    have hsorted : SortedRecords rest :=
      (List.pairwise_append.mp (block_sorted hw.2.2.2.1 hblk)).2.1
    have hvals : valuesOf q.key (allRecords blocks) = valuesOf q.key (scannedPrefix q.key rest) := by
      rw [hv, valuesOf_append, valuesOf_scannedPrefix q.key rest hsorted,
        valuesOf_eq_nil q.key done, List.nil_append]
      intro r hr heq
      have h1 := hdone r hr
      rw [heq, bytesCompare_self] at h1
      omega
    obtain ⟨hall, hone⟩ := scan_reference_semantics q.key done rest henc
    by_cases hq : q.first = true
    · obtain ⟨tail, hP, hPk⟩ := consumedFirst_prefix q.key rest
      refine ⟨_, ?_, fileInv_after_scan rd blocks s0 q.key done rest _ tail hP hPk hblk hdone
        hlk hix hbl hlt hfirst, hlk⟩
      simp only [Scanner.ask, expectedAnswer, hq, if_true,
        GetFirst_of_scan s s0 q.key _ _ _ _ _ _ hb hone, hvals]
    · obtain ⟨tail, hP, hPk⟩ := scannedPrefix_prefix q.key rest
      refine ⟨_, ?_, fileInv_after_scan rd blocks s0 q.key done rest _ tail hP hPk hblk hdone
        hlk hix hbl hlt hfirst, hlk⟩
      simp only [Scanner.ask, expectedAnswer, hq, Bool.false_eq_true, if_false,
        GetAll_of_scan s s0 q.key _ _ _ _ _ _ hb hall, hvals]

/-- The answers to queries with strictly increasing keys, all greater than the
last queried key, over a well-formed file whose records stay below `2 ^ 32`
bytes: each is the one read off the whole file. -/
theorem file_answers (rd : Reader) (blocks : List (List Record))
    (hw : WellFormedFile rd blocks) (hsmall : ∀ r ∈ allRecords blocks, r.size < 2 ^ 32) :
    ∀ (qs : List Query) (s : Scanner), FileInv rd blocks s →
      (∀ last, s.lastKey = some last → ∀ q ∈ qs, bytesCompare last q.key < 0) →
      AscendingQueries qs →
      s.answers qs = .ok (qs.map (expectedAnswer blocks)) := by
  intro qs
  induction qs with
  | nil => intro s _ _ _; rfl
  | cons q qs ih =>
    intro s hinv hlast hasc
    obtain ⟨s1, hask, hinv1, hlk1⟩ := file_ask rd blocks s q hw hsmall hinv
      (fun last hl => hlast last hl q (List.mem_cons_self _ _))
    have hrest := ih s1 hinv1
      (fun last hl q2 hq2 => by
        rw [hlk1] at hl
        cases hl
        exact (List.pairwise_cons.mp hasc).1 q2 hq2)
      (List.pairwise_cons.mp hasc).2
    simp only [Scanner.answers, hask, hrest, List.map_cons]

/-- Completeness over strictly ascending queries for files whose records stay
below `2 ^ 32` bytes: on a fresh scanner every lookup returns, with no error,
what the whole file holds for its key. -/
theorem completeness_below_wrap (rd : Reader) (blocks : List (List Record))
    (hw : WellFormedFile rd blocks) (hsmall : ∀ r ∈ allRecords blocks, r.size < 2 ^ 32)
    (qs : List Query) (hasc : AscendingQueries qs) :
    (NewScanner rd).answers qs = .ok (qs.map (expectedAnswer blocks)) := by
  have hpos : 0 < blocks.length := List.length_pos.mpr hw.1
  exact file_answers rd blocks hw hsmall qs (NewScanner rd)
    ⟨rfl, rfl, hpos, fun _ => rfl, fun b h => by cases h⟩
    (fun last h => by cases h) hasc

theorem ask_all (s s1 : Scanner) (k : List Byte) (values : List (List Byte))
    (err : Option Error) (h : s.GetAll k = .ok ((values, err), s1)) :
    s.ask ⟨false, k⟩ = .ok (.all values err, s1) := by
  simp only [Scanner.ask, Bool.false_eq_true, if_false, h]

theorem answers_cons (s s1 : Scanner) (q : Query) (qs : List Query) (a : Answer)
    (as : List Answer) (h1 : s.ask q = .ok (a, s1)) (h2 : s1.answers qs = .ok as) :
    s.answers (q :: qs) = .ok (a :: as) := by
  simp only [Scanner.answers, h1, h2]

/-- The one-block file `[wrapBlock v]` is well formed when `v` fits its length
field. -/
theorem wrapFile_wellFormed (v : List Byte) (hv : v.length = 4294967287) :
    WellFormedFile (wrapReader v) [wrapBlock v] := by
  have hencodable : (hugeRecord v).Encodable := by
    show [(1 : Byte)].length < 2 ^ 32 ∧ v.length < 2 ^ 32
    rw [hv]
    exact ⟨by decide, by decide⟩
  have hzero : ∀ (i : Nat) (b : List Record), [wrapBlock v][i]? = some b →
      i = 0 ∧ b = wrapBlock v := by
    intro i b h
    cases i with
    | zero =>
      simp only [List.getElem?_cons_zero] at h
      exact ⟨rfl, (Option.some.inj h).symm⟩
    | succ n => simp at h
  refine ⟨by simp, rfl, ?_, ?_, ?_, ?_⟩
  · intro i blk h
    obtain ⟨hi, hb⟩ := hzero i blk h
    subst hi
    subst hb
    exact ⟨⟨⟨[0], [7]⟩, [hugeRecord v], rfl, rfl⟩, rfl⟩
  · show SortedRecords ([⟨[0], [7]⟩, hugeRecord v] ++ [])
    rw [List.append_nil]
    refine List.pairwise_cons.mpr ⟨?_, List.pairwise_singleton _ _⟩
    intro r hr
    rw [List.mem_singleton.mp hr]
    show bytesCompare [0] [1] ≤ 0
    decide
  · intro i j bi bj ri rj hi hj _ _ _
    rw [(hzero i bi hi).1, (hzero j bj hj).1]
  · intro r hr
    have hr2 : r ∈ [⟨[0], [7]⟩, hugeRecord v] := by
      have : allRecords [wrapBlock v] = [⟨[0], [7]⟩, hugeRecord v] := List.append_nil _
      rw [this] at hr
      exact hr
    rcases List.mem_cons.mp hr2 with h | h
    · rw [h]
      exact ⟨by decide, by decide⟩
    · rw [List.mem_singleton.mp h]
      exact hencodable

/-- Two ascending lookups over the one-block file `[wrapBlock v]`, whose second
record occupies exactly `2 ^ 32` bytes: `GetAll([0])` returns `[[7]]` and
leaves the cursor at the end of the buffer, so `GetAll([1])` returns nothing
although the file holds the value `v` under `[1]`. -/
theorem completeness_wraps (v : List Byte) (hv : v.length = 4294967287) :
    WellFormedFile (wrapReader v) [wrapBlock v] ∧
    AscendingQueries [⟨false, [0]⟩, ⟨false, [1]⟩] ∧
    (NewScanner (wrapReader v)).answers [⟨false, [0]⟩, ⟨false, [1]⟩]
      = .ok [.all [[7]] none, .all [] none] ∧
    expectedAnswer [wrapBlock v] ⟨false, [1]⟩ = .all [v] none ∧
    Answer.all [] none ≠ Answer.all [v] none := by
  have hsize := hugeRecord_size v hv
  have hw := wrapFile_wellFormed v hv
  have henc : ∀ r ∈ wrapBlock v, r.Encodable := fun r hr =>
    hw.2.2.2.2.2 r (mem_allRecords (List.getElem?_cons_zero) hr)
  have hgt : bytesCompare (hugeRecord v).key [0] > 0 := by
    show bytesCompare [1] [0] > 0
    decide
  have hnle : ¬ bytesCompare (hugeRecord v).key [0] ≤ 0 := by
    show ¬ bytesCompare [1] [0] ≤ 0
    decide
  have hngt : ¬ bytesCompare (Record.mk [0] [7]).key [0] > 0 := by decide
  have hle : bytesCompare (Record.mk [0] [7]).key [0] ≤ 0 := by decide
  have hA := blockFor_load_ok (NewScanner (wrapReader v)) [0] ⟨[0]⟩ 0
    ⟨encodeRecords (wrapBlock v), 0⟩
    (fun last h => by cases h) rfl (by decide) rfl (Or.inr rfl) rfl
  have hscanA : getValuesFromBuffer ⟨encodeRecords (wrapBlock v), 0⟩ [0] false
      = .ok ((none, [[7]], true), ⟨encodeRecords (wrapBlock v), 4294967306⟩) := by
    have h := getValuesFromBuffer_all [0] [] (wrapBlock v) henc
    have hcur : cursorAfterAll [0] (encodeRecords []).length (wrapBlock v) = 4294967306 := by
      show (if bytesCompare (Record.mk [0] [7]).key [0] > 0 then _
        else if bytesCompare (hugeRecord v).key [0] > 0 then
          rewindPos (0 + (Record.mk [0] [7]).size + (hugeRecord v).size) (hugeRecord v)
        else _) = _
      rw [if_neg hngt, if_pos hgt]
      simp only [rewindPos, hsize]
      norm_num [Record.size]
    have hsp : scannedPrefix [0] (wrapBlock v) = [⟨[0], [7]⟩] := by
      simp only [scannedPrefix, wrapBlock, List.takeWhile_cons, hnle, hle, decide_False,
        decide_True]
      rfl
    have hval : valuesOf [0] [⟨[0], [7]⟩] = [[7]] := by decide
    rw [hcur, hsp, hval] at h
    exact h
  have hGA : (NewScanner (wrapReader v)).GetAll [0]
      = .ok (([[7]], none), wrapScannerAfter v [0]) :=
    GetAll_of_scan _ _ [0] _ _ none _ _ _ hA hscanA
  have hB := blockFor_reuse (wrapScannerAfter v [0]) [1] ⟨[0]⟩
    ⟨encodeRecords (wrapBlock v), 4294967306⟩
    (fun last h => by
      cases h
      show ¬ bytesCompare [0] [1] > 0
      decide)
    rfl
    (by
      show Block.IsAfter ⟨[0]⟩ [1] = false
      decide)
    rfl rfl
  have hscanB : getValuesFromBuffer ⟨encodeRecords (wrapBlock v), 4294967306⟩ [1] false
      = .ok ((none, [], false), ⟨encodeRecords (wrapBlock v), 4294967306⟩) := by
    have hlen : (BytesReader.mk (encodeRecords (wrapBlock v)) 4294967306).Len = 0 :=
      Len_eq_zero_of_ge (by
        show (encodeRecords (Record.mk [0] [7] :: [hugeRecord v])).length ≤ _
        rw [encodeRecords_cons_length, encodeRecords_cons_length, hsize]
        show 10 + (4294967296 + 0) ≤ 4294967306
        omega)
    unfold getValuesFromBuffer
    rw [hlen, getValuesLoop, hlen]
    rfl
  have hGB : (wrapScannerAfter v [0]).GetAll [1] = .ok (([], none), wrapScannerAfter v [1]) :=
    GetAll_of_scan _ _ [1] _ _ none _ _ _ hB hscanB
  have hexp : expectedAnswer [wrapBlock v] ⟨false, [1]⟩ = .all [v] none := by
    have hvals : valuesOf [1] (allRecords [wrapBlock v]) = [v] := by
      show valuesOf [1] ([⟨[0], [7]⟩, hugeRecord v] ++ []) = [v]
      rw [List.append_nil]
      have h0 : ¬ bytesCompare (Record.mk [0] [7]).key [1] = 0 := by decide
      have h1 : bytesCompare (hugeRecord v).key [1] = 0 := by
        show bytesCompare [1] [1] = 0
        decide
      simp only [valuesOf, List.filter_cons, h0, h1, decide_False, decide_True]
      rfl
    simp only [expectedAnswer, Bool.false_eq_true, if_false, hvals]
  refine ⟨hw, ?_, ?_, hexp, ?_⟩
  · refine List.pairwise_cons.mpr ⟨?_, List.pairwise_singleton _ _⟩
    intro q hq
    rw [List.mem_singleton.mp hq]
    show bytesCompare [0] [1] < 0
    decide
  · exact answers_cons _ _ _ _ _ _ (ask_all _ _ _ _ _ hGA)
      (answers_cons _ _ _ _ _ _ (ask_all _ _ _ _ _ hGB) rfl)
  · intro h
    exact List.cons_ne_nil v [] (Answer.all.inj h).1.symm

/-- C18: the failing input.  The file with the single block
`[([0], [7]), hugeRecord bigValue]` and index `[[0]]` is well formed, and the
keys `[0]`, `[1]` are strictly increasing.  On a fresh scanner `GetAll([0])`
returns `[[7]]`; it stops on the second record, of exactly `2 ^ 32` bytes,
where `keyLen + valLen + 8` wraps to 0 in `uint32`, so the cursor stays at the
end of the buffer.  `GetAll([1])` then returns no value with nil error,
although the file holds the value `bigValue` under the key `[1]`. -/
theorem completeness_fails_on_huge_record :
    WellFormedFile (wrapReader bigValue) [wrapBlock bigValue] ∧
    AscendingQueries [⟨false, [0]⟩, ⟨false, [1]⟩] ∧
    (NewScanner (wrapReader bigValue)).answers [⟨false, [0]⟩, ⟨false, [1]⟩]
      = .ok [.all [[7]] none, .all [] none] ∧
    expectedAnswer [wrapBlock bigValue] ⟨false, [1]⟩ = .all [bigValue] none ∧
    Answer.all [] none ≠ Answer.all [bigValue] none :=
  completeness_wraps bigValue bigValue_length

/-! ## The last key as a pointer: the value model as a view -/

/-- The guard on the pointer representation, seen through the memory of the
call, is the guard of `Scanner` on the bytes the pointers read. -/
theorem checkRef_view (m : Memory) (s : ScannerRef) (key : Nat) :
    (s.view m).CheckIfKeyOutOfOrder (m key)
      = ((s.CheckIfKeyOutOfOrder m key).1, (s.CheckIfKeyOutOfOrder m key).2.view m) := by
  rcases s with ⟨rd, idx, buf, lk⟩
  cases lk with
  | none => rfl
  | some a =>
    by_cases hgt : bytesCompare (m a) (m key) > 0
    · simp only [Scanner.CheckIfKeyOutOfOrder, ScannerRef.CheckIfKeyOutOfOrder, ScannerRef.view,
        Option.map_some', hgt, if_true]
    · simp only [Scanner.CheckIfKeyOutOfOrder, ScannerRef.CheckIfKeyOutOfOrder, ScannerRef.view,
        Option.map_some', hgt, if_false]

/-- `blockFor` on the pointer representation, seen through the memory of the
call, is `blockFor` of `Scanner` on the bytes the pointers read. -/
theorem blockForRef_view (m : Memory) (s : ScannerRef) (key : Nat) :
    (s.view m).blockFor (m key) =
      match s.blockFor m key with
      | .error e => .error e
      | .ok (r, s1) => .ok (r, s1.view m) := by
  unfold Scanner.blockFor ScannerRef.blockFor
  rw [checkRef_view]
  rcases hc : s.CheckIfKeyOutOfOrder m key with ⟨err, s0⟩
  dsimp only
  cases err with
  | some e => rfl
  | none =>
    dsimp only
    have hrd : (s0.view m).reader = s0.reader := rfl
    have hidx : (s0.view m).idx = s0.idx := rfl
    have hbuf : (s0.view m).buf = s0.buf := rfl
    rw [hrd, hidx, hbuf]
    cases s0.reader.indexAt s0.idx with
    | error e => rfl
    | ok cur =>
      dsimp only
      by_cases ha : cur.IsAfter (m key) = true
      · rw [if_pos ha, if_pos ha]
      · rw [if_neg ha, if_neg ha]
        cases (s0.view m).findBlock (m key) with
        | error e => rfl
        | ok j =>
          dsimp only
          by_cases hload : j ≠ s0.idx ∨ s0.buf = none
          · rw [if_pos hload, if_pos hload]
            rcases hg : s0.reader.GetBlock j with ⟨res, rd⟩
            cases res with
            | error e => rfl
            | ok data => rfl
          · rw [if_neg hload, if_neg hload]

/-- `GetFirst` on the pointer representation, seen through the memory of the
call, is `GetFirst` of `Scanner` on the bytes the pointers read. -/
theorem getFirstRef_view (m : Memory) (s : ScannerRef) (key : Nat) :
    (s.view m).GetFirst (m key) =
      match s.GetFirst m key with
      | .error e => .error e
      | .ok (r, s1) => .ok (r, s1.view m) := by
  unfold Scanner.GetFirst ScannerRef.GetFirst
  rw [blockForRef_view]
  cases s.blockFor m key with
  | error e => rfl
  | ok p =>
    rcases p with ⟨⟨data, err, ok⟩, s0⟩
    dsimp only
    cases ok with
    | false => rfl
    | true =>
      cases data with
      | none => rfl
      | some d =>
        dsimp only
        cases getValuesFromBuffer d (m key) true with
        | error e => rfl
        | ok q => rfl

/-- `GetAll` on the pointer representation, seen through the memory of the
call, is `GetAll` of `Scanner` on the bytes the pointers read. -/
theorem getAllRef_view (m : Memory) (s : ScannerRef) (key : Nat) :
    (s.view m).GetAll (m key) =
      match s.GetAll m key with
      | .error e => .error e
      | .ok (r, s1) => .ok (r, s1.view m) := by
  unfold Scanner.GetAll ScannerRef.GetAll
  rw [blockForRef_view]
  cases s.blockFor m key with
  | error e => rfl
  | ok p =>
    rcases p with ⟨⟨data, err, ok⟩, s0⟩
    dsimp only
    cases ok with
    | false => rfl
    | true =>
      cases data with
      | none => rfl
      | some d =>
        dsimp only
        cases getValuesFromBuffer d (m key) false with
        | error e => rfl
        | ok q => rfl

/-- After a lookup that returns, `lastKey` points to a slice whose bytes, in
the memory of the call, are at or above the key of the call. -/
theorem lookupRef_lastKey (m : Memory) (s s1 : ScannerRef) (key : Nat)
    (h : (∃ r, s.GetFirst m key = .ok (r, s1)) ∨ (∃ r, s.GetAll m key = .ok (r, s1))) :
    ∃ a, s1.lastKey = some a ∧ bytesCompare (m a) (m key) ≥ 0 := by
  have hview : ∃ last, (s1.view m).lastKey = some last ∧ bytesCompare last (m key) ≥ 0 := by
    rcases h with ⟨r, h⟩ | ⟨r, h⟩
    · have hv := getFirstRef_view m s key
      rw [h] at hv
      exact GetFirst_lastKey (s.view m) (s1.view m) (m key) r hv
    · have hv := getAllRef_view m s key
      rw [h] at hv
      exact GetAll_lastKey (s.view m) (s1.view m) (m key) r hv
  obtain ⟨last, hl, hge⟩ := hview
  cases ha : s1.lastKey with
  | none =>
    simp only [ScannerRef.view, ha, Option.map_none'] at hl
    cases hl
  | some a =>
    simp only [ScannerRef.view, ha, Option.map_some'] at hl
    refine ⟨a, rfl, ?_⟩
    rw [Option.some.inj hl]
    exact hge

/-- When the slice `lastKey` points to reads greater than the key, both lookups
return the out-of-order error and the scanner is unchanged. -/
theorem lookupRef_outOfOrder (m : Memory) (s : ScannerRef) (key a : Nat)
    (hl : s.lastKey = some a) (hgt : bytesCompare (m a) (m key) > 0) :
    s.GetFirst m key = .ok ((none, some (.outOfOrder (m a) (m key)), false), s) ∧
    s.GetAll m key = .ok (([], some (.outOfOrder (m a) (m key))), s) := by
  have hc : s.CheckIfKeyOutOfOrder m key = (some (.outOfOrder (m a) (m key)), s) := by
    simp only [ScannerRef.CheckIfKeyOutOfOrder, hl, hgt, if_true]
  have hb : s.blockFor m key = .ok ((none, some (.outOfOrder (m a) (m key)), false), s) := by
    simp only [ScannerRef.blockFor, hc]
  constructor
  · simp [ScannerRef.GetFirst, hb]
  · simp [ScannerRef.GetAll, hb]

/-- Counterexample of C3: the caller passes the same one-byte slice (address 0)
to two successive lookups of the worked example and overwrites it in between:
it holds "t" at the first call and "m" at the second, so `k1 = "t" > k2 = "m"`.
The first `GetFirst` returns 3; at the second call `*s.lastKey` reads the
overwritten bytes "m", the guard passes, and `GetFirst` and `GetAll` return no
value and no error. -/
theorem outOfOrder_missed_on_reused_slice :
    bytesCompare (sliceHolds [116] 0) (sliceHolds [109] 0) > 0 ∧
    (NewScannerRef exampleReader).GetFirst (sliceHolds [116]) 0
      = .ok ((some [3], none, true), exampleRefAt 30 0) ∧
    (exampleRefAt 30 0).GetFirst (sliceHolds [109]) 0
      = .ok ((none, none, false), exampleRefAt 30 0) ∧
    (exampleRefAt 30 0).GetAll (sliceHolds [109]) 0 = .ok (([], none), exampleRefAt 30 0) :=
  ⟨by decide, rfl, rfl, rfl⟩

/-- C3 (amended): for every scanner state and two successive lookups
(`GetFirst` or `GetAll`, in any combination) whose keys read `k1` at the first
call and `k2 < k1` at the second, if the caller has not changed the bytes of
the slice the scanner's last key points to between the calls, the second call
returns an out-of-order error and leaves the scanner (block index, buffer with
its cursor, last key, reader) exactly as the first call left it. -/
theorem outOfOrder_second_call_unmodified (s s1 : ScannerRef) (m1 m2 : Memory) (a1 a2 : Nat)
    (hfirst : (∃ r, s.GetFirst m1 a1 = .ok (r, s1)) ∨ (∃ r, s.GetAll m1 a1 = .ok (r, s1)))
    (hkeep : ∀ a, s1.lastKey = some a → m2 a = m1 a)
    (hgt : bytesCompare (m1 a1) (m2 a2) > 0) :
    ∃ last, bytesCompare last (m2 a2) > 0 ∧
      s1.GetFirst m2 a2 = .ok ((none, some (.outOfOrder last (m2 a2)), false), s1) ∧
      s1.GetAll m2 a2 = .ok (([], some (.outOfOrder last (m2 a2))), s1) := by
  obtain ⟨a, hl, hge⟩ := lookupRef_lastKey m1 s s1 a1 hfirst
  have h21 : bytesCompare (m2 a2) (m1 a1) < 0 := (bytesCompare_gt_iff (m1 a1) (m2 a2)).mp hgt
  have h1l : bytesCompare (m1 a1) (m1 a) ≤ 0 := by
    have := bytesCompare_swap (m1 a) (m1 a1)
    omega
  have h2l : bytesCompare (m2 a) (m2 a2) > 0 := by
    rw [hkeep a hl]
    exact (bytesCompare_gt_iff (m1 a) (m2 a2)).mpr (bytesCompare_lt_of_lt_of_le h21 h1l)
  obtain ⟨hF, hA⟩ := lookupRef_outOfOrder m2 s1 a2 a hl h2l
  exact ⟨m2 a, h2l, hF, hA⟩

/-- Witness of C3 (amended): `GetFirst` with the slice at address 0 ("t") on the
fresh example scanner; the caller then writes "m" over the "z" of another
slice, at address 1, and looks that slice up. -/
theorem outOfOrder_second_call_unmodified_witness :
    ((∃ r, (NewScannerRef exampleReader).GetFirst twoKeysBefore 0
        = .ok (r, exampleRefAt 30 0)) ∨
      (∃ r, (NewScannerRef exampleReader).GetAll twoKeysBefore 0
        = .ok (r, exampleRefAt 30 0))) ∧
    (∀ a, (exampleRefAt 30 0).lastKey = some a → twoKeys a = twoKeysBefore a) ∧
    bytesCompare (twoKeysBefore 0) (twoKeys 1) > 0 ∧
    ∃ last, bytesCompare last (twoKeys 1) > 0 ∧
      (exampleRefAt 30 0).GetFirst twoKeys 1
        = .ok ((none, some (.outOfOrder last (twoKeys 1)), false), exampleRefAt 30 0) ∧
      (exampleRefAt 30 0).GetAll twoKeys 1
        = .ok (([], some (.outOfOrder last (twoKeys 1))), exampleRefAt 30 0) :=
  ⟨Or.inl ⟨_, rfl⟩, fun a h => (by cases h; rfl), by decide,
    outOfOrder_second_call_unmodified (NewScannerRef exampleReader) (exampleRefAt 30 0)
      twoKeysBefore twoKeys 0 1 (Or.inl ⟨_, rfl⟩) (fun a h => (by cases h; rfl)) (by decide)⟩

end Hfile
